import Mathlib

/-!
# Relocation algorithms and `my_vector` (p3516_benchmarks/main.cpp)

A shallow embedding of the relocation algorithms `relocate_at`,
`uninitialized_relocate`, `uninitialized_relocate_backward`,
`uninitialized_relocate_n` and of the container `my_vector<T>`.

Memory is a flat array of element slots addressed by natural numbers (a `T *`
is the index of a slot, the null pointer is `0`).  Every slot is either raw
storage or holds a live object.  Beside the contents the heap counts, per
slot, how many object lifetimes have ended there, so that "destroyed exactly
once" can be stated; ending the lifetime of a slot that holds no object is
undefined behaviour.  `std::size_t` is modelled by `Nat` (no wrap-around).
-/

namespace P3516

/-! ## Data model -/

/-- One element slot of storage: raw (no live object) or a live object. -/
inductive Cell (α : Type) where
  | raw : Cell α
  | obj : α → Cell α
  deriving DecidableEq, Repr

/-- The compile-time facts about the element type `T` the code branches on
(`if constexpr`).  The iterators of `my_vector` are `T *`, hence always
contiguous, so the fast path of the relocation algorithms is selected by
`is_trivially_relocatable` alone. -/
structure Traits where
  is_trivially_relocatable : Bool
  is_replaceable : Bool
  is_nothrow_move_constructible : Bool
  is_copy_constructible : Bool
  deriving DecidableEq, Repr

/-- The run-time behaviour of the element type `T`: which constructions and
assignments throw, and the value a successful move leaves in its source. -/
structure Elem (α : Type) where
  /-- `T(T&&)` throws when moving from this value -/
  moveThrows : α → Bool
  /-- `T(const T&)` (and `T(args...)`) throws when building this value -/
  copyThrows : α → Bool
  /-- `T::operator=(T&&)` throws; first the target value, then the source value -/
  assignThrows : α → α → Bool
  /-- Value left in the source object by a successful move -/
  movedFrom : α → α

/-- The heap: slot contents, per-slot count of ended object lifetimes, and the
state of the raw storage provider (`malloc`/`free`): a bump pointer, the end of
the memory the provider can hand out, the number of successful allocations and
the blocks given back. -/
@[ext]
structure Heap (α : Type) where
  cell : Nat → Cell α
  ended : Nat → Nat
  brk : Nat
  limit : Nat
  nalloc : Nat
  freed : List Nat

/-- Outcome of running a piece of code from a state: normal return with a
value, an exception in flight, a failed `assert`, or undefined behaviour. -/
inductive Res (σ ρ : Type) where
  | ok : σ → ρ → Res σ ρ
  | throw : σ → Res σ ρ
  | abort : σ → Res σ ρ
  | ub : Res σ ρ

/-- Sequencing: run `f` after a normal return, pass everything else on. -/
def Res.bind {σ ρ τ : Type} (r : Res σ ρ) (f : σ → ρ → Res σ τ) : Res σ τ :=
  match r with
  | .ok s a => f s a
  | .throw s => .throw s
  | .abort s => .abort s
  | .ub => .ub

/-- The handler of `try { r } catch (...) { handler }`. -/
def Res.onThrow {σ ρ : Type} (r : Res σ ρ) (handler : σ → Res σ ρ) : Res σ ρ :=
  match r with
  | .throw s => handler s
  | other => other

/-- Change of the state component, used where a callee working on the heap runs
inside a member function working on the heap and the members. -/
def Res.lift {σ τ ρ : Type} (r : Res σ ρ) (f : σ → τ) : Res τ ρ :=
  match r with
  | .ok s a => .ok (f s) a
  | .throw s => .throw (f s)
  | .abort s => .abort (f s)
  | .ub => .ub

/-- Did the code return normally? -/
def Res.isOk {σ ρ : Type} : Res σ ρ → Bool
  | .ok _ _ => true
  | _ => false

/-- Did the code leave by an exception? -/
def Res.isThrow {σ ρ : Type} : Res σ ρ → Bool
  | .throw _ => true
  | _ => false

/-- The state the code left behind (none after undefined behaviour). -/
def Res.state? {σ ρ : Type} : Res σ ρ → Option σ
  | .ok s _ => some s
  | .throw s => some s
  | .abort s => some s
  | .ub => none

/-- The value returned (none unless the code returned normally). -/
def Res.value? {σ ρ : Type} : Res σ ρ → Option ρ
  | .ok _ a => some a
  | _ => none

/-! ## Primitive operations on slots -/

variable {α : Type}

/-- Store a new content in slot `p`. -/
def Heap.set (h : Heap α) (p : Nat) (c : Cell α) : Heap α :=
  { h with cell := fun a => if a = p then c else h.cell a }

/-- End the lifetime of the object in slot `p`. -/
def Heap.kill (h : Heap α) (p : Nat) : Heap α :=
  { h with cell := fun a => if a = p then Cell.raw else h.cell a
           ended := fun a => if a = p then h.ended a + 1 else h.ended a }

/-- The call `std::destroy_at(p)`: the slot must hold a live object. -/
def destroy_at (p : Nat) (h : Heap α) : Res (Heap α) Unit :=
  match h.cell p with
  | .obj _ => .ok (h.kill p) ()
  | .raw => .ub

/-- The placement-new `::new (dest) T(std::move(*source))`: `source` must be
live and `dest` raw.  When the move constructor throws nothing is built and
the source stays alive. -/
def move_construct_at (E : Elem α) (dest source : Nat) (h : Heap α) : Res (Heap α) Unit :=
  match h.cell source, h.cell dest with
  | .obj v, .raw =>
      if E.moveThrows v then .throw h
      else .ok ((h.set dest (.obj v)).set source (.obj (E.movedFrom v))) ()
  | _, _ => .ub

/-- The placement-new `::new (dest) T(value)` from a value that is not stored
in the heap: `dest` must be raw. -/
def copy_construct_at (E : Elem α) (dest : Nat) (value : α) (h : Heap α) : Res (Heap α) Unit :=
  match h.cell dest with
  | .raw => if E.copyThrows value then .throw h else .ok (h.set dest (.obj value)) ()
  | .obj _ => .ub

/-- The placement-new `::new (dest) T(*source)` copying a live element. -/
def copy_construct_from (E : Elem α) (dest source : Nat) (h : Heap α) : Res (Heap α) Unit :=
  match h.cell source with
  | .obj v => copy_construct_at E dest v h
  | .raw => .ub

/-- Move construction from a local object `tmp`, as in
`std::construct_at(dest, std::move(tmp))`: `dest` must be raw. -/
def move_construct_from_local (E : Elem α) (dest : Nat) (tmp : α) (h : Heap α) :
    Res (Heap α) Unit :=
  match h.cell dest with
  | .raw => if E.moveThrows tmp then .throw h else .ok (h.set dest (.obj tmp)) ()
  | .obj _ => .ub

/-- The move assignment `*dest = std::move(*source)`: both slots must be live. -/
def move_assign (E : Elem α) (dest source : Nat) (h : Heap α) : Res (Heap α) Unit :=
  match h.cell dest, h.cell source with
  | .obj a, .obj b =>
      if E.assignThrows a b then .throw h
      else .ok ((h.set dest (.obj b)).set source (.obj (E.movedFrom b))) ()
  | _, _ => .ub

/-- The move assignment `*dest = std::move(tmp)` from a local object. -/
def move_assign_from_local (E : Elem α) (dest : Nat) (tmp : α) (h : Heap α) :
    Res (Heap α) Unit :=
  match h.cell dest with
  | .obj a => if E.assignThrows a tmp then .throw h else .ok (h.set dest (.obj tmp)) ()
  | .raw => .ub

/-- Is the slot live? -/
def Cell.isLive : Cell α → Bool
  | .obj _ => true
  | .raw => false

/-- The call `memmove(dst, src, n * sizeof(T))` on a trivially relocatable
type, that is a trivial relocation of `n` elements: the destination slots
receive the contents of the source slots, and every source slot that is not
also a destination slot is left without a live object.  No destructor runs;
the lifetime of every live source object ends. -/
def memmove (h : Heap α) (dst src n : Nat) : Heap α :=
  { h with
    cell := fun a =>
      if dst ≤ a ∧ a < dst + n then h.cell (a - dst + src)
      else if src ≤ a ∧ a < src + n then Cell.raw
      else h.cell a
    ended := fun a =>
      if src ≤ a ∧ a < src + n ∧ (h.cell a).isLive = true then h.ended a + 1
      else h.ended a }

/-- The call `malloc(n * sizeof(T))`: a fresh block of `n` slots at the bump
pointer, or the null pointer when the provider cannot satisfy the request. -/
def malloc (h : Heap α) (n : Nat) : Heap α × Nat :=
  if h.brk + n ≤ h.limit then
    ({ h with brk := h.brk + n, nalloc := h.nalloc + 1 }, h.brk)
  else (h, 0)

/-- The call `free(p)`; `free(nullptr)` does nothing. -/
def free (h : Heap α) (p : Nat) : Heap α :=
  if p = 0 then h else { h with freed := p :: h.freed }

/-- The call `std::destroy_n(first, n)`. -/
def destroy_n : Nat → Nat → Heap α → Res (Heap α) Unit
  | 0, _, h => .ok h ()
  | n + 1, first, h =>
      match destroy_at first h with
      | .ok h1 _ => destroy_n n (first + 1) h1
      | .throw h1 => .throw h1
      | .abort h1 => .abort h1
      | .ub => .ub

/-- The call `std::destroy(first, last)`; a reversed range is undefined. -/
def destroy (first last : Nat) (h : Heap α) : Res (Heap α) Unit :=
  if last < first then .ub else destroy_n (last - first) first h

/-! ## Relocation algorithms -/

/-- Source function `relocate_at(dest, source)`: a raw copy of one element for
a trivially relocatable type, otherwise move-construct then destroy the source.
Returns `dest`. -/
def relocate_at (T : Traits) (E : Elem α) (dest source : Nat) (h : Heap α) :
    Res (Heap α) Nat :=
  if T.is_trivially_relocatable then
    .ok (memmove h dest source 1) dest
  else
    (move_construct_at E dest source h).bind fun h1 _ =>
    (destroy_at source h1).bind fun h2 _ =>
    .ok h2 dest

/-- The loop `for (; first != last; ++output, ++first) relocate_at(output, first)`
of `uninitialized_relocate`, run for the `last - first` remaining elements.  The
state carries the loop variables `first` and `output`, which the handler reads. -/
def relocate_loop (T : Traits) (E : Elem α) :
    Nat → Nat → Nat → Heap α → Res (Heap α × Nat × Nat) Unit
  | 0, first, output, h => .ok (h, first, output) ()
  | n + 1, first, output, h =>
      match relocate_at T E output first h with
      | .ok h1 _ => relocate_loop T E n (first + 1) (output + 1) h1
      | .throw h1 => .throw (h1, first, output)
      | .abort h1 => .abort (h1, first, output)
      | .ub => .ub

/-- Source function `uninitialized_relocate(first, last, output)`.  The handler
destroys `[first, last)` and `[outputCopy, output)` and does not rethrow, so the
function then returns `first` normally.  A reversed range (`last < first`) is
undefined. -/
def uninitialized_relocate (T : Traits) (E : Elem α) (first last output : Nat)
    (h : Heap α) : Res (Heap α) Nat :=
  if last < first then .ub
  else if T.is_trivially_relocatable then
    let distance := last - first
    .ok (memmove h output first distance) (first + distance)
  else
    let outputCopy := output
    match relocate_loop T E (last - first) first output h with
    | .ok (h1, first1, _) _ => .ok h1 first1
    | .throw (h1, first1, output1) =>
        (destroy first1 last h1).bind fun h2 _ =>
        (destroy outputCopy output1 h2).bind fun h3 _ =>
        .ok h3 first1
    | .abort (h1, _, _) => .abort h1
    | .ub => .ub

/-- The loop `while (first != last) { --last; --output; relocate_at(output, last); }`
of `uninitialized_relocate_backward`, run for the `last - first` remaining
elements.  The state carries the loop variables `last` and `output`. -/
def relocate_backward_loop (T : Traits) (E : Elem α) :
    Nat → Nat → Nat → Heap α → Res (Heap α × Nat × Nat) Unit
  | 0, last, output, h => .ok (h, last, output) ()
  | n + 1, last, output, h =>
      match relocate_at T E (output - 1) (last - 1) h with
      | .ok h1 _ => relocate_backward_loop T E n (last - 1) (output - 1) h1
      | .throw h1 => .throw (h1, last - 1, output - 1)
      | .abort h1 => .abort (h1, last - 1, output - 1)
      | .ub => .ub

/-- Source function `uninitialized_relocate_backward(first, last, output)`,
`output` being the end of the destination.  The handler steps `last` and
`output` forward again, destroys `[first, last)` and `[output, outputCopy)` and
does not rethrow.  A reversed range and a destination starting before address
zero are undefined. -/
def uninitialized_relocate_backward (T : Traits) (E : Elem α) (first last output : Nat)
    (h : Heap α) : Res (Heap α) Nat :=
  if last < first ∨ output < last - first then .ub
  else if T.is_trivially_relocatable then
    let distance := last - first
    .ok (memmove h (output - distance) first distance) (first + distance)
  else
    let outputCopy := output
    match relocate_backward_loop T E (last - first) last output h with
    | .ok (h1, _, _) _ => .ok h1 first
    | .throw (h1, last1, output1) =>
        (destroy first (last1 + 1) h1).bind fun h2 _ =>
        (destroy (output1 + 1) outputCopy h2).bind fun h3 _ =>
        .ok h3 first
    | .abort (h1, _, _) => .abort h1
    | .ub => .ub

/-- The loop `for (; size > 0; ++output, ++first, --size, ++count)` of
`uninitialized_relocate_n`.  The state carries `first`, `size` and `count`. -/
def relocate_n_loop (T : Traits) (E : Elem α) :
    Nat → Nat → Nat → Nat → Heap α → Res (Heap α × Nat × Nat × Nat) Unit
  | 0, first, _, count, h => .ok (h, first, 0, count) ()
  | size + 1, first, output, count, h =>
      match relocate_at T E output first h with
      | .ok h1 _ => relocate_n_loop T E size (first + 1) (output + 1) (count + 1) h1
      | .throw h1 => .throw (h1, first, size + 1, count)
      | .abort h1 => .abort (h1, first, size + 1, count)
      | .ub => .ub

/-- Source function `uninitialized_relocate_n(first, size, output)`.  The
handler destroys the `size` remaining source elements and the `count` built
destination elements, then rethrows. -/
def uninitialized_relocate_n (T : Traits) (E : Elem α) (first size output : Nat)
    (h : Heap α) : Res (Heap α) Nat :=
  if T.is_trivially_relocatable then
    .ok (memmove h output first size) (first + size)
  else
    let outputCopy := output
    match relocate_n_loop T E size first output 0 h with
    | .ok (h1, first1, _, _) _ => .ok h1 first1
    | .throw (h1, first1, size1, count1) =>
        (destroy_n size1 first1 h1).bind fun h2 _ =>
        (destroy_n count1 outputCopy h2).bind fun h3 _ =>
        .throw h3
    | .abort (h1, _, _, _) => .abort h1
    | .ub => .ub

/-! ## Standard library algorithms used by the container -/

/-- The loop of `std::move(first, last, d_first)`: move-assign left to right.
On a throw the elements assigned so far stay as they are. -/
def move_loop (E : Elem α) : Nat → Nat → Nat → Heap α → Res (Heap α) Nat
  | 0, _, d_first, h => .ok h d_first
  | n + 1, first, d_first, h =>
      match move_assign E d_first first h with
      | .ok h1 _ => move_loop E n (first + 1) (d_first + 1) h1
      | .throw h1 => .throw h1
      | .abort h1 => .abort h1
      | .ub => .ub

/-- The algorithm `std::move(first, last, d_first)`; returns the end of the
destination. -/
def std_move (E : Elem α) (first last d_first : Nat) (h : Heap α) : Res (Heap α) Nat :=
  if last < first then .ub else move_loop E (last - first) first d_first h

/-- The loop of `std::move_backward(first, last, d_last)`: move-assign right to
left. -/
def move_backward_loop (E : Elem α) : Nat → Nat → Nat → Heap α → Res (Heap α) Nat
  | 0, _, d_last, h => .ok h d_last
  | n + 1, last, d_last, h =>
      match move_assign E (d_last - 1) (last - 1) h with
      | .ok h1 _ => move_backward_loop E n (last - 1) (d_last - 1) h1
      | .throw h1 => .throw h1
      | .abort h1 => .abort h1
      | .ub => .ub

/-- The algorithm `std::move_backward(first, last, d_last)`; returns the start
of the destination. -/
def std_move_backward (E : Elem α) (first last d_last : Nat) (h : Heap α) :
    Res (Heap α) Nat :=
  if last < first ∨ d_last < last - first then .ub
  else move_backward_loop E (last - first) last d_last h

/-- The loop of `std::uninitialized_copy_n`; on a throw the state carries the
number of elements built so far. -/
def uninitialized_copy_loop (E : Elem α) :
    Nat → Nat → Nat → Nat → Heap α → Res (Heap α × Nat) Unit
  | 0, _, _, count, h => .ok (h, count) ()
  | n + 1, first, output, count, h =>
      match copy_construct_from E output first h with
      | .ok h1 _ => uninitialized_copy_loop E n (first + 1) (output + 1) (count + 1) h1
      | .throw h1 => .throw (h1, count)
      | .abort h1 => .abort (h1, count)
      | .ub => .ub

/-- The algorithm `std::uninitialized_copy_n(first, n, output)`: when a copy
throws, the copies built so far are destroyed and the exception is rethrown. -/
def uninitialized_copy_n (E : Elem α) (first n output : Nat) (h : Heap α) :
    Res (Heap α) Nat :=
  match uninitialized_copy_loop E n first output 0 h with
  | .ok (h1, _) _ => .ok h1 (output + n)
  | .throw (h1, count) => (destroy_n count output h1).bind fun h2 _ => .throw h2
  | .abort (h1, _) => .abort h1
  | .ub => .ub

/-- The loop of `std::uninitialized_move_n`. -/
def uninitialized_move_loop (E : Elem α) :
    Nat → Nat → Nat → Nat → Heap α → Res (Heap α × Nat) Unit
  | 0, _, _, count, h => .ok (h, count) ()
  | n + 1, first, output, count, h =>
      match move_construct_at E output first h with
      | .ok h1 _ => uninitialized_move_loop E n (first + 1) (output + 1) (count + 1) h1
      | .throw h1 => .throw (h1, count)
      | .abort h1 => .abort (h1, count)
      | .ub => .ub

/-- The algorithm `std::uninitialized_move_n(first, n, output)`: when a move
throws, the elements built so far are destroyed and the exception is rethrown. -/
def uninitialized_move_n (E : Elem α) (first n output : Nat) (h : Heap α) :
    Res (Heap α) Nat :=
  match uninitialized_move_loop E n first output 0 h with
  | .ok (h1, _) _ => .ok h1 (output + n)
  | .throw (h1, count) => (destroy_n count output h1).bind fun h2 _ => .throw h2
  | .abort (h1, _) => .abort h1
  | .ub => .ub

/-! ## The container `my_vector<T>` -/

/-- The data members of `my_vector<T>`, with their default initialisers. -/
structure my_vector where
  m_begin : Nat := 0
  m_size : Nat := 0
  m_capacity : Nat := 0
  deriving DecidableEq, Repr

/-- Member `begin()`. -/
def my_vector.begin (v : my_vector) : Nat := v.m_begin

/-- Member `end()`. -/
def my_vector.end_ (v : my_vector) : Nat := v.m_begin + v.m_size

/-- Member `capacity()`. -/
def my_vector.capacity (v : my_vector) : Nat := v.m_capacity

/-- Member `size()`. -/
def my_vector.size (v : my_vector) : Nat := v.m_size

/-- Member `operator[]`: the slot of element `i`. -/
def my_vector.at (h : Heap α) (v : my_vector) (i : Nat) : Cell α := h.cell (v.m_begin + i)

/-- Member `swap(other)`: returns the new `*this` and the new `other`. -/
def my_vector.swap (this other : my_vector) : my_vector × my_vector :=
  ({ m_begin := other.m_begin, m_size := other.m_size, m_capacity := other.m_capacity },
   { m_begin := this.m_begin, m_size := this.m_size, m_capacity := this.m_capacity })

/-- The destructor `~my_vector()`: `destroy_n(m_begin, m_size)` then `free(m_begin)`. -/
def my_vector.destructor (h : Heap α) (v : my_vector) : Res (Heap α) Unit :=
  (destroy_n v.m_size v.m_begin h).bind fun h1 _ => .ok (free h1 v.m_begin) ()

/-- Private member `reallocate(newCapacity)`.  `newVector` is a local object:
its destructor runs when the function returns and when an exception unwinds. -/
def reallocate (T : Traits) (E : Elem α) (newCapacity : Nat) (s : Heap α × my_vector) :
    Res (Heap α × my_vector) Unit :=
  if ¬ (newCapacity ≥ s.2.m_size) then .abort s
  else if newCapacity = s.2.m_capacity then .ok s ()
  else
    let m := malloc s.1 newCapacity
    let newVector : my_vector := { m_begin := m.2, m_size := 0, m_capacity := newCapacity }
    let body : Res (Heap α) Unit :=
      if T.is_nothrow_move_constructible then
        (uninitialized_relocate_n T E s.2.m_begin s.2.m_size newVector.m_begin m.1).bind
          fun h2 _ => .ok h2 ()
      else
        (if T.is_copy_constructible then
          uninitialized_copy_n E s.2.m_begin s.2.m_size newVector.m_begin m.1
        else
          uninitialized_move_n E s.2.m_begin s.2.m_size newVector.m_begin m.1).bind
          fun h2 _ => destroy_n s.2.m_size s.2.m_begin h2
    match body with
    | .ok h3 _ =>
        let newVector1 : my_vector := { newVector with m_size := s.2.m_size }
        let this1 : my_vector := { s.2 with m_size := 0 }
        let sw := my_vector.swap this1 newVector1
        (my_vector.destructor h3 sw.2).lift (fun h4 => (h4, sw.1))
    | .throw h3 =>
        ((my_vector.destructor h3 newVector).lift (fun h4 => (h4, s.2))).bind
          fun s4 _ => .throw s4
    | .abort h3 => .abort (h3, s.2)
    | .ub => .ub

/-- Private member `maybeReallocate()`. -/
def maybeReallocate (T : Traits) (E : Elem α) (s : Heap α × my_vector) :
    Res (Heap α × my_vector) Unit :=
  if s.2.m_size = s.2.m_capacity then reallocate T E (s.2.m_capacity + 32) s
  else .ok s ()

/-- Member `reserve(newCapacity)`. -/
def reserve (T : Traits) (E : Elem α) (newCapacity : Nat) (s : Heap α × my_vector) :
    Res (Heap α × my_vector) Unit :=
  if newCapacity < s.2.m_size then .ok s ()
  else reallocate T E newCapacity s

/-- Member `push_back(value)`; `value` is taken as a value, not as a reference
into the sequence. -/
def push_back (T : Traits) (E : Elem α) (value : α) (s : Heap α × my_vector) :
    Res (Heap α × my_vector) Unit :=
  (maybeReallocate T E s).bind fun s1 _ =>
  ((copy_construct_at E (s1.2.m_begin + s1.2.m_size) value s1.1).lift
      fun h2 => (h2, s1.2)).bind fun s2 _ =>
  .ok (s2.1, { s2.2 with m_size := s2.2.m_size + 1 }) ()

/-- Member `erase(first, last)`; returns `first`.  A non-empty range that starts
before `begin()` passes both `assert`s but does not lie in the storage of the
sequence: the code would walk across the start of the storage block and
`m_size -= distance` would wrap around, so this input is undefined (as a
position before `begin()` is for `emplace`).  On every other path
`distance <= m_size`, so the subtraction is exact. -/
def erase (T : Traits) (E : Elem α) (first last : Nat) (s : Heap α × my_vector) :
    Res (Heap α × my_vector) Nat :=
  if ¬ (first ≤ last) then .abort s
  else if ¬ (last ≤ s.2.end_) then .abort s
  else
    let distance := last - first
    if distance = 0 then .ok s first
    else if first < s.2.begin then .ub
    else if T.is_replaceable && T.is_nothrow_move_constructible then
      ((destroy first last s.1).lift fun h1 => (h1, s.2)).bind fun s1 _ =>
      ((uninitialized_relocate T E last s1.2.end_ first s1.1).lift
          fun h2 => (h2, s1.2)).bind fun s2 _ =>
      .ok (s2.1, { s2.2 with m_size := s2.2.m_size - distance }) first
    else
      ((std_move E last s.2.end_ first s.1).lift fun h1 => (h1, s.2)).bind fun s1 newEnd =>
      ((destroy newEnd s1.2.end_ s1.1).lift fun h2 => (h2, s1.2)).bind fun s2 _ =>
      .ok (s2.1, { s2.2 with m_size := s2.2.m_size - distance }) first

/-- Member `erase(position)`. -/
def erase_one (T : Traits) (E : Elem α) (position : Nat) (s : Heap α × my_vector) :
    Res (Heap α × my_vector) Nat :=
  erase T E position (position + 1) s

/-- Member `emplace(position, args...)` for a single argument `value` from
which `T` is built (`copyThrows` tells whether building it throws).  A position
before `begin()` is undefined.  Returns the position of the new element. -/
def emplace (T : Traits) (E : Elem α) (position : Nat) (value : α)
    (s : Heap α × my_vector) : Res (Heap α × my_vector) Nat :=
  if position < s.2.begin then .ub
  else
    let index := position - s.2.begin
    (maybeReallocate T E s).bind fun s1 _ =>
    let position := s1.2.begin + index
    if position = s1.2.end_ then
      ((copy_construct_at E position value s1.1).lift fun h2 => (h2, s1.2)).bind fun s2 _ =>
      .ok (s2.1, { s2.2 with m_size := s2.2.m_size + 1 }) position
    else if E.copyThrows value then .throw s1
    else
      let tmp := value
      if T.is_replaceable then
        let inner : Res (Heap α × my_vector) Unit :=
          ((uninitialized_relocate_backward T E position s1.2.end_ (s1.2.end_ + 1) s1.1).lift
              fun h2 => (h2, s1.2)).bind fun s2 _ =>
          Res.onThrow
            (((move_construct_from_local E position tmp s2.1).lift
                fun h3 => (h3, s2.2)).bind fun s3 _ =>
              .ok (s3.1, { s3.2 with m_size := s3.2.m_size + 1 }) ())
            (fun s3 =>
              ((destroy (position + 1) (s3.2.end_ + 1) s3.1).lift
                  fun h4 => (h4, s3.2)).bind fun s4 _ =>
              .throw s4)
        (Res.onThrow inner
          (fun s5 => .throw (s5.1, { s5.2 with m_size := position - s5.2.begin }))).bind
          fun s6 _ => .ok s6 position
      else
        ((move_construct_at E s1.2.end_ (s1.2.end_ - 1) s1.1).lift
            fun h2 => (h2, s1.2)).bind fun s2 _ =>
        let v2 : my_vector := { s2.2 with m_size := s2.2.m_size + 1 }
        ((std_move_backward E position (v2.end_ - 2) (v2.end_ - 1) s2.1).lift
            fun h3 => (h3, v2)).bind fun s3 _ =>
        ((move_assign_from_local E position tmp s3.1).lift
            fun h4 => (h4, s3.2)).bind fun s4 _ =>
        .ok s4 position

/-- The loop `while (count--) v.push_back(element)` of the fill constructor. -/
def push_back_loop (T : Traits) (E : Elem α) (element : α) :
    Nat → Heap α × my_vector → Res (Heap α × my_vector) Unit
  | 0, s => .ok s ()
  | count + 1, s =>
      (push_back T E element s).bind fun s1 _ => push_back_loop T E element count s1

/-- The constructor `my_vector(count, element)`: fill a local `v`, swap it with
the (empty) object under construction and destroy the local.  When filling
throws, the local is destroyed and no object is constructed. -/
def my_vector.construct_fill (T : Traits) (E : Elem α) (count : Nat) (element : α)
    (h : Heap α) : Res (Heap α) my_vector :=
  let this : my_vector := {}
  let v : my_vector := {}
  match (reserve T E count (h, v)).bind fun s1 _ => push_back_loop T E element count s1 with
  | .ok s2 _ =>
      let sw := my_vector.swap this s2.2
      (my_vector.destructor s2.1 sw.2).bind fun h3 _ => .ok h3 sw.1
  | .throw s2 => (my_vector.destructor s2.1 s2.2).bind fun h3 _ => .throw h3
  | .abort s2 => .abort s2.1
  | .ub => .ub

/-- The move constructor `my_vector(my_vector &&other)`: returns the new object and
what is left of `other`. -/
def my_vector.construct_move (other : my_vector) : my_vector × my_vector :=
  ({ m_begin := other.m_begin, m_size := other.m_size, m_capacity := other.m_capacity },
   { m_begin := 0, m_size := 0, m_capacity := 0 })

/-- The copy constructor `my_vector(const my_vector &other)`. -/
def my_vector.construct_copy (E : Elem α) (other : my_vector) (h : Heap α) :
    Res (Heap α) my_vector :=
  let this : my_vector := {}
  let m := malloc h other.m_capacity
  let v : my_vector := { m_begin := m.2, m_size := 0, m_capacity := other.m_capacity }
  match uninitialized_copy_n E other.m_begin other.m_size v.m_begin m.1 with
  | .ok h2 _ =>
      let v1 : my_vector := { v with m_size := other.m_size }
      let sw := my_vector.swap this v1
      (my_vector.destructor h2 sw.2).bind fun h3 _ => .ok h3 sw.1
  | .throw h2 => (my_vector.destructor h2 v).bind fun h3 _ => .throw h3
  | .abort h2 => .abort h2
  | .ub => .ub

/-! ## Closed forms used in the proofs -/

/-- The heap after the lifetimes of the live objects in `[first, first + n)` ended. -/
def Heap.killRange (h : Heap α) (first n : Nat) : Heap α :=
  { h with
    cell := fun a => if first ≤ a ∧ a < first + n then Cell.raw else h.cell a
    ended := fun a => if first ≤ a ∧ a < first + n then h.ended a + 1 else h.ended a }

/-- The heap after the elements of `[src, src + n)` were move-assigned onto
`[dst, dst + n)`: the targets hold the source values, the sources that are not
targets hold moved-from values. -/
def Heap.assignRange (E : Elem α) (h : Heap α) (dst src n : Nat) : Heap α :=
  { h with
    cell := fun a =>
      if dst ≤ a ∧ a < dst + n then h.cell (a - dst + src)
      else if src ≤ a ∧ a < src + n then
        (match h.cell a with
         | .obj v => Cell.obj (E.movedFrom v)
         | .raw => Cell.raw)
      else h.cell a }

/-- The heap after a successful `malloc` of `n` slots. -/
def Heap.grow (h : Heap α) (n : Nat) : Heap α :=
  { h with brk := h.brk + n, nalloc := h.nalloc + 1 }

/-- The heap after the elements of `[src, src + n)` were copied into
`[dst, dst + n)`. -/
def Heap.copyRange (h : Heap α) (dst src n : Nat) : Heap α :=
  { h with
    cell := fun a => if dst ≤ a ∧ a < dst + n then h.cell (a - dst + src) else h.cell a }

/-- No operation of the element type that reads the value `x` throws: moving
from it, copying it, and move-assigning it onto any target. -/
def Elem.quiet (E : Elem α) (x : α) : Prop :=
  E.moveThrows x = false ∧ E.copyThrows x = false ∧ ∀ a, E.assignThrows a x = false

/-- The sequence `v` is well formed in the heap `h` and holds the values
`vals 0, ..., vals (size - 1)`: `size <= capacity`, its storage block lies below
the bump pointer, the first `size` slots are live, the remaining slots of the
block are raw, and so is the storage not handed out yet. -/
def Holds (h : Heap α) (v : my_vector) (vals : Nat → α) : Prop :=
  v.m_size ≤ v.m_capacity ∧
  v.m_begin + v.m_capacity ≤ h.brk ∧
  (∀ k, k < v.m_size → h.cell (v.m_begin + k) = Cell.obj (vals k)) ∧
  (∀ k, k < v.m_capacity → v.m_size ≤ k → h.cell (v.m_begin + k) = Cell.raw) ∧
  (∀ a, h.brk ≤ a → h.cell a = Cell.raw)

/-- A heap holding the values `xs` from slot `base` on and nothing else, with
the bump pointer at `brk`. -/
def Heap.ofList (xs : List α) (base brk limit : Nat) : Heap α :=
  { cell := fun a =>
      if base ≤ a ∧ a < base + xs.length then
        (match xs.get? (a - base) with
         | some x => Cell.obj x
         | none => Cell.raw)
      else Cell.raw
    ended := fun _ => 0
    brk := brk
    limit := limit
    nalloc := 0
    freed := [] }

/-- An element type none of whose operations throws; a moved-from object holds `0`. -/
def Elem.nothrow : Elem Nat :=
  { moveThrows := fun _ => false
    copyThrows := fun _ => false
    assignThrows := fun _ _ => false
    movedFrom := fun _ => 0 }

/-- An element type whose move constructor throws exactly on the value `bad`. -/
def Elem.moveThrowsOn (bad : Nat) : Elem Nat :=
  { moveThrows := fun v => v == bad
    copyThrows := fun _ => false
    assignThrows := fun _ _ => false
    movedFrom := fun _ => 0 }

/-- The traits of `std::string` in the source: neither replaceable nor trivially
relocatable (see the `static_assert`s). -/
def Traits.std_string : Traits :=
  { is_trivially_relocatable := false, is_replaceable := false
    is_nothrow_move_constructible := true, is_copy_constructible := true }

/-- The traits of `replaceable_string` in the source. -/
def Traits.replaceable_string : Traits :=
  { is_trivially_relocatable := false, is_replaceable := true
    is_nothrow_move_constructible := true, is_copy_constructible := true }

/-- The traits of `trivially_relocatable_string` in the source (with libc++). -/
def Traits.trivially_relocatable_string : Traits :=
  { is_trivially_relocatable := true, is_replaceable := true
    is_nothrow_move_constructible := true, is_copy_constructible := true }

/-- The traits of a type declared replaceable whose move constructor may throw. -/
def Traits.replaceable_throwing : Traits :=
  { is_trivially_relocatable := false, is_replaceable := true
    is_nothrow_move_constructible := false, is_copy_constructible := true }

/-- Did the code stop at a failed `assert`? -/
def Res.isAbort {σ ρ : Type} : Res σ ρ → Bool
  | .abort _ => true
  | _ => false

/-- Every way out of the code that leaves a state behind satisfies a condition:
`Pok` on normal return (state and value), `Pfail` on an exception in flight and
on a failed `assert`. -/
def Res.sat {σ ρ : Type} (r : Res σ ρ) (Pok : σ → ρ → Prop) (Pfail : σ → Prop) : Prop :=
  match r with
  | .ok s a => Pok s a
  | .throw s => Pfail s
  | .abort s => Pfail s
  | .ub => True

/-- The element type `T` taken on the bulk byte-move path of the relocation
functions. -/
def Traits.bulk (T : Traits) : Traits := { T with is_trivially_relocatable := true }

/-- The element type `T` taken on the element-wise path of the relocation
functions. -/
def Traits.elementwise (T : Traits) : Traits := { T with is_trivially_relocatable := false }

/-- The invariant `0 <= size <= capacity` of the data model. -/
def my_vector.Inv (v : my_vector) : Prop := 0 ≤ v.m_size ∧ v.m_size ≤ v.m_capacity

/-- An element type whose move assignment throws exactly when the source holds
the value `bad`. -/
def Elem.assignThrowsOn (bad : Nat) : Elem Nat :=
  { moveThrows := fun _ => false
    copyThrows := fun _ => false
    assignThrows := fun _ b => b == bad
    movedFrom := fun _ => 0 }

/-- An element type whose copy constructor throws exactly on the value `bad`. -/
def Elem.copyThrowsOn (bad : Nat) : Elem Nat :=
  { moveThrows := fun _ => false
    copyThrows := fun v => v == bad
    assignThrows := fun _ _ => false
    movedFrom := fun _ => 0 }

/-- The traits of a copyable type whose move constructor may throw. -/
def Traits.copyable_throwing : Traits :=
  { is_trivially_relocatable := false, is_replaceable := false
    is_nothrow_move_constructible := false, is_copy_constructible := true }

/-! ## Lemmas on the primitives -/

section Lemmas

variable {T : Traits} {E : Elem α}

theorem memmove_zero (h : Heap α) (dst src : Nat) : memmove h dst src 0 = h := by
  ext a
  · simp only [memmove]
    rw [if_neg (by omega), if_neg (by omega)]
  · simp only [memmove]
    rw [if_neg (by omega)]
  all_goals rfl

theorem killRange_zero (h : Heap α) (first : Nat) : h.killRange first 0 = h := by
  ext a
  · simp only [Heap.killRange]
    rw [if_neg (by omega)]
  · simp only [Heap.killRange]
    rw [if_neg (by omega)]
  all_goals rfl

theorem kill_killRange (h : Heap α) (first n : Nat) :
    (h.kill first).killRange (first + 1) n = h.killRange first (n + 1) := by
  ext a
  · simp only [Heap.killRange, Heap.kill]
    by_cases h1 : a = first
    · subst h1; simp
    · by_cases h2 : first + 1 ≤ a ∧ a < first + 1 + n
      · have h3 : first ≤ a ∧ a < first + (n + 1) := by omega
        simp [h2, h3]
      · have h3 : ¬ (first ≤ a ∧ a < first + (n + 1)) := by omega
        simp [h1, h2, h3]
  · simp only [Heap.killRange, Heap.kill]
    by_cases h1 : a = first
    · subst h1; simp
    · by_cases h2 : first + 1 ≤ a ∧ a < first + 1 + n
      · have h3 : first ≤ a ∧ a < first + (n + 1) := by omega
        simp [h1, h2, h3]
      · have h3 : ¬ (first ≤ a ∧ a < first + (n + 1)) := by omega
        simp [h1, h2, h3]
  all_goals rfl

/-- Destroying a run of live objects succeeds and kills exactly that run. -/
theorem destroy_n_ok : ∀ (n first : Nat) (h : Heap α),
    (∀ k, k < n → (h.cell (first + k)).isLive = true) →
    destroy_n n first h = .ok (h.killRange first n) ()
  | 0, first, h, _ => by simp [destroy_n, killRange_zero]
  | n + 1, first, h, hl => by
    have h0 := hl 0 (by omega)
    simp only [Nat.add_zero] at h0
    cases hc : h.cell first with
    | raw => simp [hc, Cell.isLive] at h0
    | obj v =>
      have ih := destroy_n_ok n (first + 1) (h.kill first) (by
        intro k hk
        have := hl (k + 1) (by omega)
        have e : first + (k + 1) = first + 1 + k := by omega
        rw [e] at this
        have ne : first + 1 + k ≠ first := by omega
        simpa [Heap.kill, ne] using this)
      simp [destroy_n, destroy_at, hc, ih, kill_killRange]

theorem destroy_ok (first last : Nat) (h : Heap α) (hle : first ≤ last)
    (hl : ∀ k, k < last - first → (h.cell (first + k)).isLive = true) :
    destroy first last h = .ok (h.killRange first (last - first)) () := by
  have : ¬ last < first := by omega
  simp [destroy, this, destroy_n_ok _ _ _ hl]

theorem memmove_cell_dst (h : Heap α) {dst src n a : Nat} (h1 : dst ≤ a) (h2 : a < dst + n) :
    (memmove h dst src n).cell a = h.cell (a - dst + src) := by
  simp only [memmove]; rw [if_pos ⟨h1, h2⟩]

theorem memmove_cell_src (h : Heap α) {dst src n a : Nat} (h0 : ¬ (dst ≤ a ∧ a < dst + n))
    (h1 : src ≤ a) (h2 : a < src + n) : (memmove h dst src n).cell a = Cell.raw := by
  simp only [memmove]; rw [if_neg h0, if_pos ⟨h1, h2⟩]

theorem memmove_cell_other (h : Heap α) {dst src n a : Nat} (h0 : ¬ (dst ≤ a ∧ a < dst + n))
    (h1 : ¬ (src ≤ a ∧ a < src + n)) : (memmove h dst src n).cell a = h.cell a := by
  simp only [memmove]; rw [if_neg h0, if_neg h1]

theorem memmove_ended_src (h : Heap α) {dst src n a : Nat} (h1 : src ≤ a) (h2 : a < src + n)
    (h3 : (h.cell a).isLive = true) : (memmove h dst src n).ended a = h.ended a + 1 := by
  simp only [memmove]; rw [if_pos ⟨h1, h2, h3⟩]

theorem memmove_ended_dead (h : Heap α) {dst src n a : Nat}
    (h3 : (h.cell a).isLive = false) : (memmove h dst src n).ended a = h.ended a := by
  simp only [memmove]; rw [if_neg (by simp [h3])]

theorem memmove_ended_other (h : Heap α) {dst src n a : Nat}
    (h1 : ¬ (src ≤ a ∧ a < src + n)) : (memmove h dst src n).ended a = h.ended a := by
  simp only [memmove]; rw [if_neg (fun hc => h1 ⟨hc.1, hc.2.1⟩)]

theorem memmove_succ_fwd (h : Heap α) (first output k : Nat)
    (hd : output < first ∨ first + (k + 1) ≤ output) :
    memmove (memmove h output first 1) (output + 1) (first + 1) k =
      memmove h output first (k + 1) := by
  ext a
  · simp only [memmove]
    split_ifs <;> first | rfl | omega | (congr 1; omega)
  · by_cases h1 : first + 1 ≤ a ∧ a < first + 1 + k
    · have hc : (memmove h output first 1).cell a = h.cell a :=
        memmove_cell_other h (by omega) (by omega)
      have he : (memmove h output first 1).ended a = h.ended a :=
        memmove_ended_other h (by omega)
      cases hl : (h.cell a).isLive with
      | true =>
        rw [memmove_ended_src _ h1.1 h1.2 (by rw [hc]; exact hl), he,
          memmove_ended_src _ (by omega) (by omega) hl]
      | false =>
        rw [memmove_ended_dead _ (by rw [hc]; exact hl), he, memmove_ended_dead _ hl]
    · rw [memmove_ended_other _ h1]
      by_cases h2 : a = first
      · subst h2
        cases hl : (h.cell a).isLive with
        | true =>
          rw [memmove_ended_src _ (by omega) (by omega) hl,
            memmove_ended_src _ (by omega) (by omega) hl]
        | false => rw [memmove_ended_dead _ hl, memmove_ended_dead _ hl]
      · rw [memmove_ended_other _ (by omega), memmove_ended_other _ (by omega)]
  all_goals rfl

theorem memmove_succ_bwd (h : Heap α) (last output k : Nat)
    (hk : k + 1 ≤ last) (hk2 : k + 1 ≤ output)
    (hd : last < output ∨ output ≤ last - (k + 1)) :
    memmove (memmove h (output - 1) (last - 1) 1) (output - 1 - k) (last - 1 - k) k =
      memmove h (output - (k + 1)) (last - (k + 1)) (k + 1) := by
  ext a
  · simp only [memmove]
    split_ifs <;> first | rfl | omega | (congr 1; omega)
  · by_cases h1 : last - 1 - k ≤ a ∧ a < last - 1 - k + k
    · have hc : (memmove h (output - 1) (last - 1) 1).cell a = h.cell a :=
        memmove_cell_other h (by omega) (by omega)
      have he : (memmove h (output - 1) (last - 1) 1).ended a = h.ended a :=
        memmove_ended_other h (by omega)
      cases hl : (h.cell a).isLive with
      | true =>
        rw [memmove_ended_src _ h1.1 h1.2 (by rw [hc]; exact hl), he,
          memmove_ended_src _ (by omega) (by omega) hl]
      | false =>
        rw [memmove_ended_dead _ (by rw [hc]; exact hl), he, memmove_ended_dead _ hl]
    · rw [memmove_ended_other _ h1]
      by_cases h2 : a = last - 1
      · subst h2
        cases hl : (h.cell (last - 1)).isLive with
        | true =>
          rw [memmove_ended_src _ (by omega) (by omega) hl,
            memmove_ended_src _ (by omega) (by omega) hl]
        | false => rw [memmove_ended_dead _ hl, memmove_ended_dead _ hl]
      · rw [memmove_ended_other _ (by omega), memmove_ended_other _ (by omega)]
  all_goals rfl

/-- One relocation from a live, movable source into a raw slot has the effect
of a raw copy of one element, on either path. -/
theorem relocate_at_ok (h : Heap α) {dest source : Nat} {v : α}
    (hs : h.cell source = Cell.obj v) (hd : h.cell dest = Cell.raw)
    (hm : T.is_trivially_relocatable = false → E.moveThrows v = false) :
    relocate_at T E dest source h = .ok (memmove h dest source 1) dest := by
  unfold relocate_at
  cases ht : T.is_trivially_relocatable with
  | true => simp
  | false =>
    have hne : dest ≠ source := by
      intro e; rw [e, hs] at hd; cases hd
    have hne2 : source ≠ dest := fun e => hne e.symm
    simp only [Bool.false_eq_true, if_false, move_construct_at, hs, hd, hm ht, Res.bind,
      destroy_at, Heap.set, if_true, if_pos]
    congr 1
    ext a
    · simp only [Heap.kill, memmove]
      by_cases h1 : a = source
      · subst h1
        rw [if_pos rfl, if_neg (by omega), if_pos (by omega)]
      · rw [if_neg h1, if_neg h1]
        by_cases h2 : a = dest
        · subst h2
          rw [if_pos rfl, if_pos (by omega)]
          have : a - a + source = source := by omega
          rw [this, hs]
        · rw [if_neg h2, if_neg (by omega), if_neg (by omega)]
    · simp only [Heap.kill, memmove]
      by_cases h1 : a = source
      · subst h1
        rw [if_pos rfl, if_pos ⟨by omega, by omega, by rw [hs]; rfl⟩]
      · rw [if_neg h1, if_neg (by omega)]
    all_goals rfl

/-- A throwing move constructor leaves the heap as it was. -/
theorem relocate_at_throw (h : Heap α) {dest source : Nat} {v : α}
    (ht : T.is_trivially_relocatable = false)
    (hs : h.cell source = Cell.obj v) (hd : h.cell dest = Cell.raw)
    (hm : E.moveThrows v = true) :
    relocate_at T E dest source h = .throw h := by
  simp [relocate_at, ht, move_construct_at, hs, hd, hm, Res.bind]

/-- Relocating the first `k` elements left to right, none of which throws, has
the effect of a raw copy of `k` elements; the loop then goes on with the rest. -/
theorem relocate_loop_steps : ∀ (k m first output : Nat) (h : Heap α),
    (output < first ∨ first + k ≤ output) →
    (∀ j, j < k → ∃ v, h.cell (first + j) = Cell.obj v ∧
      (T.is_trivially_relocatable = false → E.moveThrows v = false)) →
    (∀ j, j < k → ¬ (first ≤ output + j ∧ output + j < first + k) →
      h.cell (output + j) = Cell.raw) →
    relocate_loop T E (k + m) first output h =
      relocate_loop T E m (first + k) (output + k) (memmove h output first k)
  | 0, m, first, output, h, _, _, _ => by simp [memmove_zero]
  | k + 1, m, first, output, h, hd, hsrc, hdst => by
    obtain ⟨v, hv, hmv⟩ := hsrc 0 (by omega)
    have hraw : h.cell output = Cell.raw := hdst 0 (by omega) (by omega)
    simp only [Nat.add_zero] at hv
    have e : k + 1 + m = (k + m) + 1 := by omega
    rw [e]
    simp only [relocate_loop, relocate_at_ok h hv hraw hmv]
    rw [relocate_loop_steps k m (first + 1) (output + 1) (memmove h output first 1)
      (by omega)
      (by
        intro j hj
        obtain ⟨w, hw, hmw⟩ := hsrc (j + 1) (by omega)
        refine ⟨w, ?_, hmw⟩
        rw [memmove_cell_other h (by omega) (by omega)]
        rw [← hw]; congr 1; omega)
      (by
        intro j hj hn
        by_cases h1 : output + 1 + j = first
        · rw [memmove_cell_src h (by omega) (by omega) (by omega)]
        · rw [memmove_cell_other h (by omega) (by omega)]
          have := hdst (j + 1) (by omega) (by omega)
          rw [← this]; congr 1; omega),
      memmove_succ_fwd h first output k hd]
    have e1 : first + 1 + k = first + (k + 1) := by omega
    have e2 : output + 1 + k = output + (k + 1) := by omega
    rw [e1, e2]

/-- The same for the counting loop of `uninitialized_relocate_n`. -/
theorem relocate_n_loop_steps : ∀ (k m first output count : Nat) (h : Heap α),
    (output < first ∨ first + k ≤ output) →
    (∀ j, j < k → ∃ v, h.cell (first + j) = Cell.obj v ∧
      (T.is_trivially_relocatable = false → E.moveThrows v = false)) →
    (∀ j, j < k → ¬ (first ≤ output + j ∧ output + j < first + k) →
      h.cell (output + j) = Cell.raw) →
    relocate_n_loop T E (k + m) first output count h =
      relocate_n_loop T E m (first + k) (output + k) (count + k) (memmove h output first k)
  | 0, m, first, output, count, h, _, _, _ => by simp [memmove_zero]
  | k + 1, m, first, output, count, h, hd, hsrc, hdst => by
    obtain ⟨v, hv, hmv⟩ := hsrc 0 (by omega)
    have hraw : h.cell output = Cell.raw := hdst 0 (by omega) (by omega)
    simp only [Nat.add_zero] at hv
    have e : k + 1 + m = (k + m) + 1 := by omega
    rw [e]
    simp only [relocate_n_loop, relocate_at_ok h hv hraw hmv]
    rw [relocate_n_loop_steps k m (first + 1) (output + 1) (count + 1)
      (memmove h output first 1)
      (by omega)
      (by
        intro j hj
        obtain ⟨w, hw, hmw⟩ := hsrc (j + 1) (by omega)
        refine ⟨w, ?_, hmw⟩
        rw [memmove_cell_other h (by omega) (by omega)]
        rw [← hw]; congr 1; omega)
      (by
        intro j hj hn
        by_cases h1 : output + 1 + j = first
        · rw [memmove_cell_src h (by omega) (by omega) (by omega)]
        · rw [memmove_cell_other h (by omega) (by omega)]
          have := hdst (j + 1) (by omega) (by omega)
          rw [← this]; congr 1; omega),
      memmove_succ_fwd h first output k hd]
    have e1 : first + 1 + k = first + (k + 1) := by omega
    have e2 : output + 1 + k = output + (k + 1) := by omega
    have e3 : count + 1 + k = count + (k + 1) := by omega
    rw [e1, e2, e3]

/-- Relocating the last `k` elements right to left, none of which throws, has
the effect of a raw copy of `k` elements; the loop then goes on with the rest. -/
theorem relocate_backward_loop_steps : ∀ (k m last output : Nat) (h : Heap α),
    k ≤ last → k ≤ output →
    (last < output ∨ output ≤ last - k) →
    (∀ j, j < k → ∃ v, h.cell (last - k + j) = Cell.obj v ∧
      (T.is_trivially_relocatable = false → E.moveThrows v = false)) →
    (∀ j, j < k → ¬ (last - k ≤ output - k + j ∧ output - k + j < last) →
      h.cell (output - k + j) = Cell.raw) →
    relocate_backward_loop T E (k + m) last output h =
      relocate_backward_loop T E m (last - k) (output - k)
        (memmove h (output - k) (last - k) k)
  | 0, m, last, output, h, _, _, _, _, _ => by simp [memmove_zero]
  | k + 1, m, last, output, h, hl, ho, hd, hsrc, hdst => by
    obtain ⟨v, hv, hmv⟩ := hsrc k (by omega)
    have e0 : last - (k + 1) + k = last - 1 := by omega
    rw [e0] at hv
    have hraw : h.cell (output - 1) = Cell.raw := by
      have := hdst k (by omega) (by omega)
      rw [← this]; congr 1; omega
    have e : k + 1 + m = (k + m) + 1 := by omega
    rw [e]
    simp only [relocate_backward_loop, relocate_at_ok h hv hraw hmv]
    rw [relocate_backward_loop_steps k m (last - 1) (output - 1)
      (memmove h (output - 1) (last - 1) 1)
      (by omega) (by omega) (by omega)
      (by
        intro j hj
        obtain ⟨w, hw, hmw⟩ := hsrc j (by omega)
        refine ⟨w, ?_, hmw⟩
        rw [memmove_cell_other h (by omega) (by omega)]
        rw [← hw]; congr 1; omega)
      (by
        intro j hj hn
        by_cases h1 : output - 1 - k + j = last - 1
        · rw [memmove_cell_src h (by omega) (by omega) (by omega)]
        · rw [memmove_cell_other h (by omega) (by omega)]
          have := hdst j (by omega) (by omega)
          rw [← this]; congr 1; omega),
      memmove_succ_bwd h last output k hl ho hd]
    have e1 : last - 1 - k = last - (k + 1) := by omega
    have e2 : output - 1 - k = output - (k + 1) := by omega
    rw [e1, e2]

/-- Closed form of a successful `uninitialized_relocate_n`, on either path. -/
theorem uninitialized_relocate_n_ok_eq (h : Heap α) (first n output : Nat)
    (hd : output < first ∨ first + n ≤ output)
    (hsrc : ∀ j, j < n → ∃ v, h.cell (first + j) = Cell.obj v ∧
      (T.is_trivially_relocatable = false → E.moveThrows v = false))
    (hdst : ∀ j, j < n → ¬ (first ≤ output + j ∧ output + j < first + n) →
      h.cell (output + j) = Cell.raw) :
    uninitialized_relocate_n T E first n output h =
      .ok (memmove h output first n) (first + n) := by
  unfold uninitialized_relocate_n
  cases ht : T.is_trivially_relocatable with
  | true => simp
  | false =>
    have := relocate_n_loop_steps (T := T) (E := E) n 0 first output 0 h hd hsrc hdst
    simp only [Nat.add_zero] at this
    simp [this, relocate_n_loop]

/-- Closed form of `uninitialized_relocate_n` on the element-wise path when the
move of element `k` throws after `k` successful relocations. -/
theorem uninitialized_relocate_n_throw_eq (h : Heap α) (first n output k : Nat)
    (ht : T.is_trivially_relocatable = false) (hk : k < n)
    (hd : output < first ∨ first + n ≤ output)
    (hsrc : ∀ j, j < n → ∃ v, h.cell (first + j) = Cell.obj v ∧
      (j < k → E.moveThrows v = false) ∧ (j = k → E.moveThrows v = true))
    (hdst : ∀ j, j < n → ¬ (first ≤ output + j ∧ output + j < first + n) →
      h.cell (output + j) = Cell.raw) :
    uninitialized_relocate_n T E first n output h =
      .throw (((memmove h output first k).killRange (first + k) (n - k)).killRange output k) := by
  unfold uninitialized_relocate_n
  have e : n = k + ((n - k - 1) + 1) := by omega
  have hp := relocate_n_loop_steps (T := T) (E := E) k ((n - k - 1) + 1) first output 0 h
    (by omega)
    (by
      intro j hj
      obtain ⟨v, hv, h1, _⟩ := hsrc j (by omega)
      exact ⟨v, hv, fun _ => h1 hj⟩)
    (by
      intro j hj hn
      by_cases hc : first ≤ output + j ∧ output + j < first + n
      · omega
      · exact hdst j (by omega) hc)
  rw [← e] at hp
  obtain ⟨v, hv, _, hthrow⟩ := hsrc k hk
  have hsk : (memmove h output first k).cell (first + k) = Cell.obj v := by
    rw [memmove_cell_other h (by omega) (by omega), hv]
  have hdk : (memmove h output first k).cell (output + k) = Cell.raw := by
    by_cases hc : first ≤ output + k ∧ output + k < first + k
    · rw [memmove_cell_src h (by omega) hc.1 hc.2]
    · rw [memmove_cell_other h (by omega) hc]
      exact hdst k hk (by omega)
  have hloop : relocate_n_loop T E n first output 0 h =
      .throw (memmove h output first k, first + k, (n - k - 1) + 1, k) := by
    rw [hp]
    simp only [relocate_n_loop, relocate_at_throw (T := T) (E := E) _ ht hsk hdk (hthrow rfl),
      Nat.zero_add]
  have e2 : n - k - 1 + 1 = n - k := by omega
  rw [e2] at hloop
  have hl1 : ∀ j, j < n - k → ((memmove h output first k).cell (first + k + j)).isLive = true := by
    intro j hj
    obtain ⟨w, hw, _⟩ := hsrc (k + j) (by omega)
    rw [memmove_cell_other h (by omega) (by omega)]
    have e3 : first + k + j = first + (k + j) := by omega
    rw [e3, hw]; rfl
  have hl2 : ∀ j, j < k →
      (((memmove h output first k).killRange (first + k) (n - k)).cell (output + j)).isLive
        = true := by
    intro j hj
    obtain ⟨w, hw, _⟩ := hsrc j (by omega)
    simp only [Heap.killRange]
    rw [if_neg (by omega), memmove_cell_dst h (by omega) (by omega)]
    have e3 : output + j - output + first = first + j := by omega
    rw [e3, hw]; rfl
  simp only [ht, Bool.false_eq_true, if_false, hloop, destroy_n_ok _ _ _ hl1,
    destroy_n_ok _ _ _ hl2, Res.bind]

/-- Closed form of a successful `uninitialized_relocate`, on either path. -/
theorem uninitialized_relocate_ok_eq (h : Heap α) (first last output : Nat)
    (hle : first ≤ last)
    (hd : output < first ∨ last ≤ output)
    (hsrc : ∀ j, j < last - first → ∃ v, h.cell (first + j) = Cell.obj v ∧
      (T.is_trivially_relocatable = false → E.moveThrows v = false))
    (hdst : ∀ j, j < last - first → ¬ (first ≤ output + j ∧ output + j < last) →
      h.cell (output + j) = Cell.raw) :
    uninitialized_relocate T E first last output h =
      .ok (memmove h output first (last - first)) last := by
  unfold uninitialized_relocate
  have hnlt : ¬ last < first := by omega
  have e0 : first + (last - first) = last := by omega
  cases ht : T.is_trivially_relocatable with
  | true => simp [hnlt, e0]
  | false =>
    have := relocate_loop_steps (T := T) (E := E) (last - first) 0 first output h
      (by omega) hsrc (by
        intro j hj hn
        exact hdst j hj (by omega))
    simp only [Nat.add_zero] at this
    simp [this, relocate_loop, hnlt, e0]

/-- Closed form of `uninitialized_relocate` on the element-wise path when the
move of element `k` throws: the handler cleans up and the call returns. -/
theorem uninitialized_relocate_throw_eq (h : Heap α) (first last output k : Nat)
    (ht : T.is_trivially_relocatable = false) (hk : k < last - first)
    (hd : output < first ∨ last ≤ output)
    (hsrc : ∀ j, j < last - first → ∃ v, h.cell (first + j) = Cell.obj v ∧
      (j < k → E.moveThrows v = false) ∧ (j = k → E.moveThrows v = true))
    (hdst : ∀ j, j < last - first → ¬ (first ≤ output + j ∧ output + j < last) →
      h.cell (output + j) = Cell.raw) :
    uninitialized_relocate T E first last output h =
      .ok (((memmove h output first k).killRange (first + k) (last - first - k)).killRange
        output k) (first + k) := by
  unfold uninitialized_relocate
  have hnlt : ¬ last < first := by omega
  have e : last - first = k + ((last - first - k - 1) + 1) := by omega
  have hp := relocate_loop_steps (T := T) (E := E) k ((last - first - k - 1) + 1) first output h
    (by omega)
    (by
      intro j hj
      obtain ⟨v, hv, h1, _⟩ := hsrc j (by omega)
      exact ⟨v, hv, fun _ => h1 hj⟩)
    (by
      intro j hj hn
      by_cases hc : first ≤ output + j ∧ output + j < last
      · omega
      · exact hdst j (by omega) hc)
  rw [← e] at hp
  obtain ⟨v, hv, _, hthrow⟩ := hsrc k hk
  have hsk : (memmove h output first k).cell (first + k) = Cell.obj v := by
    rw [memmove_cell_other h (by omega) (by omega), hv]
  have hdk : (memmove h output first k).cell (output + k) = Cell.raw := by
    by_cases hc : first ≤ output + k ∧ output + k < first + k
    · rw [memmove_cell_src h (by omega) hc.1 hc.2]
    · rw [memmove_cell_other h (by omega) hc]
      exact hdst k hk (by omega)
  have hloop : relocate_loop T E (last - first) first output h =
      .throw (memmove h output first k, first + k, output + k) := by
    rw [hp]
    simp only [relocate_loop, relocate_at_throw (T := T) (E := E) _ ht hsk hdk (hthrow rfl)]
  have hl1 : ∀ j, j < last - (first + k) →
      ((memmove h output first k).cell (first + k + j)).isLive = true := by
    intro j hj
    obtain ⟨w, hw, _⟩ := hsrc (k + j) (by omega)
    rw [memmove_cell_other h (by omega) (by omega)]
    have e3 : first + k + j = first + (k + j) := by omega
    rw [e3, hw]; rfl
  have e4 : last - (first + k) = last - first - k := by omega
  have e5 : output + k - output = k := by omega
  have hl2 : ∀ j, j < output + k - output →
      (((memmove h output first k).killRange (first + k) (last - first - k)).cell
        (output + j)).isLive = true := by
    intro j hj
    obtain ⟨w, hw, _⟩ := hsrc j (by omega)
    simp only [Heap.killRange]
    rw [if_neg (by omega), memmove_cell_dst h (by omega) (by omega)]
    have e3 : output + j - output + first = first + j := by omega
    rw [e3, hw]; rfl
  have hd1 := destroy_ok (first + k) last (memmove h output first k) (by omega) hl1
  rw [e4] at hd1
  have hd2 := destroy_ok output (output + k)
    ((memmove h output first k).killRange (first + k) (last - first - k)) (by omega) hl2
  rw [e5] at hd2
  simp only [ht, Bool.false_eq_true, if_false, hloop, hnlt, hd1, hd2, Res.bind]

/-- Closed form of a successful `uninitialized_relocate_backward` on the bulk
path: it returns the end of the source range. -/
theorem uninitialized_relocate_backward_fast_eq (h : Heap α) (first last output : Nat)
    (ht : T.is_trivially_relocatable = true)
    (hle : first ≤ last) (ho : last - first ≤ output) :
    uninitialized_relocate_backward T E first last output h =
      .ok (memmove h (output - (last - first)) first (last - first)) last := by
  unfold uninitialized_relocate_backward
  have hn : ¬ (last < first ∨ output < last - first) := by omega
  have e0 : first + (last - first) = last := by omega
  simp [hn, ht, e0]

/-- Closed form of a successful `uninitialized_relocate_backward` on the
element-wise path: it returns the start of the source range. -/
theorem uninitialized_relocate_backward_slow_eq (h : Heap α) (first last output : Nat)
    (ht : T.is_trivially_relocatable = false)
    (hle : first ≤ last) (ho : last - first ≤ output)
    (hd : last < output ∨ output ≤ first)
    (hsrc : ∀ j, j < last - first → ∃ v, h.cell (first + j) = Cell.obj v ∧
      E.moveThrows v = false)
    (hdst : ∀ j, j < last - first →
      ¬ (first ≤ output - (last - first) + j ∧ output - (last - first) + j < last) →
      h.cell (output - (last - first) + j) = Cell.raw) :
    uninitialized_relocate_backward T E first last output h =
      .ok (memmove h (output - (last - first)) first (last - first)) first := by
  unfold uninitialized_relocate_backward
  have hn : ¬ (last < first ∨ output < last - first) := by omega
  have e0 : last - (last - first) = first := by omega
  have := relocate_backward_loop_steps (T := T) (E := E) (last - first) 0 last output h
    (by omega) ho (by omega)
    (by
      intro j hj
      obtain ⟨v, hv, hm⟩ := hsrc j hj
      rw [e0]
      exact ⟨v, hv, fun _ => hm⟩)
    (by
      intro j hj hc
      rw [e0] at hc
      exact hdst j hj hc)
  simp only [Nat.add_zero, e0] at this
  simp [this, relocate_backward_loop, hn, ht]

/-- Closed form of `uninitialized_relocate_backward` on the element-wise path
when the move of the source element with index `k` throws, after the
`last - first - 1 - k` elements to its right were relocated: the handler cleans
up and the call returns `first`. -/
theorem uninitialized_relocate_backward_throw_eq (h : Heap α) (first last output k : Nat)
    (ht : T.is_trivially_relocatable = false)
    (hk : k < last - first) (ho : last - first ≤ output)
    (hd : last < output ∨ output ≤ first)
    (hsrc : ∀ j, j < last - first → ∃ v, h.cell (first + j) = Cell.obj v ∧
      (k < j → E.moveThrows v = false) ∧ (j = k → E.moveThrows v = true))
    (hdst : ∀ j, j < last - first →
      ¬ (first ≤ output - (last - first) + j ∧ output - (last - first) + j < last) →
      h.cell (output - (last - first) + j) = Cell.raw) :
    uninitialized_relocate_backward T E first last output h =
      .ok (((memmove h (output - (last - first - 1 - k)) (last - (last - first - 1 - k))
              (last - first - 1 - k)).killRange first (k + 1)).killRange
            (output - (last - first - 1 - k)) (last - first - 1 - k)) first := by
  unfold uninitialized_relocate_backward
  have hn : ¬ (last < first ∨ output < last - first) := by omega
  generalize hc : last - first - 1 - k = c
  have e : last - first = c + (k + 1) := by omega
  have hp := relocate_backward_loop_steps (T := T) (E := E) c (k + 1) last output h
    (by omega) (by omega) (by omega)
    (by
      intro j hj
      obtain ⟨v, hv, h1, _⟩ := hsrc (k + 1 + j) (by omega)
      refine ⟨v, ?_, fun _ => h1 (by omega)⟩
      rw [← hv]; congr 1; omega)
    (by
      intro j hj hcond
      have := hdst (k + 1 + j) (by omega) (by omega)
      rw [← this]; congr 1; omega)
  rw [← e] at hp
  obtain ⟨v, hv, _, hthrow⟩ := hsrc k hk
  have hsk : (memmove h (output - c) (last - c) c).cell (last - c - 1) = Cell.obj v := by
    rw [memmove_cell_other h (by omega) (by omega), ← hv]; congr 1; omega
  have hdk : (memmove h (output - c) (last - c) c).cell (output - c - 1) = Cell.raw := by
    by_cases hcase : last - c ≤ output - c - 1 ∧ output - c - 1 < last - c + c
    · rw [memmove_cell_src h (by omega) hcase.1 hcase.2]
    · rw [memmove_cell_other h (by omega) hcase]
      have := hdst k hk (by omega)
      rw [← this]; congr 1; omega
  have hloop : relocate_backward_loop T E (last - first) last output h =
      .throw (memmove h (output - c) (last - c) c, last - c - 1, output - c - 1) := by
    rw [hp]
    simp only [relocate_backward_loop,
      relocate_at_throw (T := T) (E := E) _ ht hsk hdk (hthrow rfl)]
  have e1 : last - c - 1 + 1 = last - c := by omega
  have e2 : output - c - 1 + 1 = output - c := by omega
  have e3 : last - c - first = k + 1 := by omega
  have e4 : output - (output - c) = c := by omega
  have hl1 : ∀ j, j < last - c - first →
      ((memmove h (output - c) (last - c) c).cell (first + j)).isLive = true := by
    intro j hj
    obtain ⟨w, hw, _⟩ := hsrc j (by omega)
    rw [memmove_cell_other h (by omega) (by omega), hw]; rfl
  have hd1 := destroy_ok first (last - c) (memmove h (output - c) (last - c) c) (by omega) hl1
  rw [e3] at hd1
  have hl2 : ∀ j, j < output - (output - c) →
      (((memmove h (output - c) (last - c) c).killRange first (k + 1)).cell
        (output - c + j)).isLive = true := by
    intro j hj
    obtain ⟨w, hw, _⟩ := hsrc (k + 1 + j) (by omega)
    simp only [Heap.killRange]
    rw [if_neg (by omega), memmove_cell_dst h (by omega) (by omega)]
    have e5 : output - c + j - (output - c) + (last - c) = first + (k + 1 + j) := by omega
    rw [e5, hw]; rfl
  have hd2 := destroy_ok (output - c) output
    ((memmove h (output - c) (last - c) c).killRange first (k + 1)) (by omega) hl2
  rw [e4] at hd2
  simp only [ht, Bool.false_eq_true, if_false, hloop, hn, e1, e2, hd1, hd2, Res.bind]

theorem killRange_cell_in (h : Heap α) {first n a : Nat} (h1 : first ≤ a) (h2 : a < first + n) :
    (h.killRange first n).cell a = Cell.raw := by
  simp only [Heap.killRange]; rw [if_pos ⟨h1, h2⟩]

theorem killRange_cell_out (h : Heap α) {first n a : Nat} (h1 : ¬ (first ≤ a ∧ a < first + n)) :
    (h.killRange first n).cell a = h.cell a := by
  simp only [Heap.killRange]; rw [if_neg h1]

theorem killRange_ended_in (h : Heap α) {first n a : Nat} (h1 : first ≤ a) (h2 : a < first + n) :
    (h.killRange first n).ended a = h.ended a + 1 := by
  simp only [Heap.killRange]; rw [if_pos ⟨h1, h2⟩]

theorem killRange_ended_out (h : Heap α) {first n a : Nat} (h1 : ¬ (first ≤ a ∧ a < first + n)) :
    (h.killRange first n).ended a = h.ended a := by
  simp only [Heap.killRange]; rw [if_neg h1]

theorem destroy_n_isThrow : ∀ (n first : Nat) (h : Heap α),
    (destroy_n n first h).isThrow = false
  | 0, _, _ => rfl
  | n + 1, first, h => by
    simp only [destroy_n, destroy_at]
    cases h.cell first with
    | raw => rfl
    | obj v => exact destroy_n_isThrow n (first + 1) (h.kill first)

theorem destroy_isThrow (first last : Nat) (h : Heap α) :
    (destroy first last h).isThrow = false := by
  unfold destroy
  split
  · rfl
  · exact destroy_n_isThrow _ _ _

/-- The forward relocation never leaves by an exception: its handler does not
rethrow. -/
theorem uninitialized_relocate_isThrow (T : Traits) (E : Elem α) (first last output : Nat)
    (h : Heap α) : (uninitialized_relocate T E first last output h).isThrow = false := by
  unfold uninitialized_relocate
  split
  · rfl
  · split
    · rfl
    · split
      · rfl
      · rename_i h1 first1 output1 _
        have d1 := destroy_isThrow first1 last h1
        cases hd1 : destroy first1 last h1 with
        | ok h2 u =>
          have d2 := destroy_isThrow output output1 h2
          simp only [Res.bind]
          cases hd2 : destroy output output1 h2 with
          | ok h3 u => rfl
          | throw s => rw [hd2] at d2; cases d2
          | abort s => rfl
          | ub => rfl
        | throw s => rw [hd1] at d1; cases d1
        | abort s => rfl
        | ub => rfl
      · rfl
      · rfl

/-! ### Move assignment and copy loops -/

theorem assignRange_zero (h : Heap α) (dst src : Nat) : Heap.assignRange E h dst src 0 = h := by
  ext a
  · simp only [Heap.assignRange]
    rw [if_neg (by omega), if_neg (by omega)]
  all_goals rfl

theorem copyRange_zero (h : Heap α) (dst src : Nat) : h.copyRange dst src 0 = h := by
  ext a
  · simp only [Heap.copyRange]
    rw [if_neg (by omega)]
  all_goals rfl

theorem assignRange_cell_dst (h : Heap α) {dst src n a : Nat} (h1 : dst ≤ a) (h2 : a < dst + n) :
    (Heap.assignRange E h dst src n).cell a = h.cell (a - dst + src) := by
  simp only [Heap.assignRange]; rw [if_pos ⟨h1, h2⟩]

theorem assignRange_cell_src (h : Heap α) {dst src n a : Nat} {v : α}
    (h0 : ¬ (dst ≤ a ∧ a < dst + n)) (h1 : src ≤ a) (h2 : a < src + n)
    (hv : h.cell a = Cell.obj v) :
    (Heap.assignRange E h dst src n).cell a = Cell.obj (E.movedFrom v) := by
  simp only [Heap.assignRange]; rw [if_neg h0, if_pos ⟨h1, h2⟩, hv]

theorem assignRange_cell_other (h : Heap α) {dst src n a : Nat}
    (h0 : ¬ (dst ≤ a ∧ a < dst + n)) (h1 : ¬ (src ≤ a ∧ a < src + n)) :
    (Heap.assignRange E h dst src n).cell a = h.cell a := by
  simp only [Heap.assignRange]; rw [if_neg h0, if_neg h1]

theorem copyRange_cell_dst (h : Heap α) {dst src n a : Nat} (h1 : dst ≤ a) (h2 : a < dst + n) :
    (h.copyRange dst src n).cell a = h.cell (a - dst + src) := by
  simp only [Heap.copyRange]; rw [if_pos ⟨h1, h2⟩]

theorem copyRange_cell_other (h : Heap α) {dst src n a : Nat}
    (h0 : ¬ (dst ≤ a ∧ a < dst + n)) : (h.copyRange dst src n).cell a = h.cell a := by
  simp only [Heap.copyRange]; rw [if_neg h0]

theorem assignRange_succ_fwd (h : Heap α) (src dst n : Nat) (v : α)
    (hv : h.cell src = Cell.obj v) (hd : dst < src ∨ src + (n + 1) ≤ dst) :
    Heap.assignRange E ((h.set dst (Cell.obj v)).set src (Cell.obj (E.movedFrom v)))
        (dst + 1) (src + 1) n =
      Heap.assignRange E h dst src (n + 1) := by
  ext a
  · simp only [Heap.assignRange, Heap.set]
    by_cases h1 : dst + 1 ≤ a ∧ a < dst + 1 + n
    · rw [if_pos h1, if_neg (by omega), if_neg (by omega), if_pos (by omega)]
      congr 1; omega
    · rw [if_neg h1]
      by_cases h2 : a = dst
      · subst h2
        rw [if_neg (by omega), if_neg (by omega), if_pos rfl, if_pos (by omega)]
        have e : a - a + src = src := by omega
        rw [e, hv]
      · by_cases h3 : a = src
        · subst h3
          rw [if_neg (by omega), if_pos rfl, if_neg (by omega), if_pos (by omega), hv]
        · by_cases h4 : a ∈ Set.Ico (src + 1) (src + 1 + n)
          · rw [Set.mem_Ico] at h4
            rw [if_pos h4, if_neg h3, if_neg h2, if_neg (by omega), if_pos (by omega)]
          · rw [Set.mem_Ico] at h4
            rw [if_neg h4, if_neg h3, if_neg h2, if_neg (by omega), if_neg (by omega)]
  all_goals rfl

theorem assignRange_succ_bwd (h : Heap α) (last d_last n : Nat) (v : α)
    (hn : n + 1 ≤ last) (hn2 : n + 1 ≤ d_last)
    (hv : h.cell (last - 1) = Cell.obj v) (hd : last < d_last ∨ d_last ≤ last - (n + 1)) :
    Heap.assignRange E
        ((h.set (d_last - 1) (Cell.obj v)).set (last - 1) (Cell.obj (E.movedFrom v)))
        (d_last - 1 - n) (last - 1 - n) n =
      Heap.assignRange E h (d_last - (n + 1)) (last - (n + 1)) (n + 1) := by
  ext a
  · simp only [Heap.assignRange, Heap.set]
    by_cases h1 : d_last - 1 - n ≤ a ∧ a < d_last - 1 - n + n
    · rw [if_pos h1, if_neg (by omega), if_neg (by omega), if_pos (by omega)]
      congr 1; omega
    · rw [if_neg h1]
      by_cases h2 : a = d_last - 1
      · subst h2
        rw [if_neg (by omega), if_neg (by omega), if_pos rfl, if_pos (by omega)]
        have e : d_last - 1 - (d_last - (n + 1)) + (last - (n + 1)) = last - 1 := by omega
        rw [e, hv]
      · by_cases h3 : a = last - 1
        · subst h3
          rw [if_neg (by omega), if_pos rfl, if_neg (by omega), if_pos (by omega), hv]
        · by_cases h4 : a ∈ Set.Ico (last - 1 - n) (last - 1 - n + n)
          · rw [Set.mem_Ico] at h4
            rw [if_pos h4, if_neg h3, if_neg h2, if_neg (by omega), if_pos (by omega)]
          · rw [Set.mem_Ico] at h4
            rw [if_neg h4, if_neg h3, if_neg h2, if_neg (by omega), if_neg (by omega)]
  all_goals rfl

theorem copyRange_succ (h : Heap α) (src dst n : Nat) (v : α)
    (hv : h.cell src = Cell.obj v) (hd : dst + (n + 1) ≤ src ∨ src + (n + 1) ≤ dst) :
    (h.set dst (Cell.obj v)).copyRange (dst + 1) (src + 1) n = h.copyRange dst src (n + 1) := by
  ext a
  · simp only [Heap.copyRange, Heap.set]
    by_cases h1 : dst + 1 ≤ a ∧ a < dst + 1 + n
    · rw [if_pos h1, if_neg (by omega), if_pos (by omega)]
      congr 1; omega
    · rw [if_neg h1]
      by_cases h2 : a = dst
      · subst h2
        rw [if_pos rfl, if_pos (by omega)]
        have e : a - a + src = src := by omega
        rw [e, hv]
      · rw [if_neg h2, if_neg (by omega)]
  all_goals rfl

theorem move_assign_ok (h : Heap α) {dest source : Nat} {a b : α}
    (hd : h.cell dest = Cell.obj a) (hs : h.cell source = Cell.obj b)
    (hq : E.assignThrows a b = false) :
    move_assign E dest source h =
      .ok ((h.set dest (Cell.obj b)).set source (Cell.obj (E.movedFrom b))) () := by
  simp [move_assign, hd, hs, hq]

theorem move_construct_at_ok (h : Heap α) {dest source : Nat} {v : α}
    (hs : h.cell source = Cell.obj v) (hd : h.cell dest = Cell.raw)
    (hq : E.moveThrows v = false) :
    move_construct_at E dest source h =
      .ok ((h.set dest (Cell.obj v)).set source (Cell.obj (E.movedFrom v))) () := by
  simp [move_construct_at, hd, hs, hq]

theorem copy_construct_from_ok (h : Heap α) {dest source : Nat} {v : α}
    (hs : h.cell source = Cell.obj v) (hd : h.cell dest = Cell.raw)
    (hq : E.copyThrows v = false) :
    copy_construct_from E dest source h = .ok (h.set dest (Cell.obj v)) () := by
  simp [copy_construct_from, copy_construct_at, hd, hs, hq]

/-- Move-assigning the first `k` elements left to right, none of which throws. -/
theorem move_loop_steps : ∀ (k m first d_first : Nat) (h : Heap α),
    (d_first < first ∨ first + k ≤ d_first) →
    (∀ j, j < k → ∃ v, h.cell (first + j) = Cell.obj v ∧ ∀ a, E.assignThrows a v = false) →
    (∀ j, j < k → (h.cell (d_first + j)).isLive = true) →
    move_loop E (k + m) first d_first h =
      move_loop E m (first + k) (d_first + k) (Heap.assignRange E h d_first first k)
  | 0, m, first, d_first, h, _, _, _ => by simp [assignRange_zero]
  | k + 1, m, first, d_first, h, hd, hsrc, hdst => by
    obtain ⟨v, hv, hq⟩ := hsrc 0 (by omega)
    simp only [Nat.add_zero] at hv
    have hl := hdst 0 (by omega)
    simp only [Nat.add_zero] at hl
    cases hc : h.cell d_first with
    | raw => rw [hc] at hl; cases hl
    | obj a =>
      have e : k + 1 + m = (k + m) + 1 := by omega
      rw [e]
      simp only [move_loop, move_assign_ok h hc hv (hq a)]
      rw [move_loop_steps k m (first + 1) (d_first + 1) _ (by omega)
        (by
          intro j hj
          obtain ⟨w, hw, hqw⟩ := hsrc (j + 1) (by omega)
          refine ⟨w, ?_, hqw⟩
          simp only [Heap.set]
          rw [if_neg (by omega), if_neg (by omega), ← hw]; congr 1; omega)
        (by
          intro j hj
          simp only [Heap.set]
          by_cases h1 : d_first + 1 + j = first
          · rw [if_pos h1]; rfl
          · rw [if_neg h1, if_neg (by omega)]
            have := hdst (j + 1) (by omega)
            rw [← this]; congr 2; omega),
        assignRange_succ_fwd h first d_first k v hv hd]
      have e1 : first + 1 + k = first + (k + 1) := by omega
      have e2 : d_first + 1 + k = d_first + (k + 1) := by omega
      rw [e1, e2]

/-- Move-assigning the last `k` elements right to left, none of which throws. -/
theorem move_backward_loop_steps : ∀ (k m last d_last : Nat) (h : Heap α),
    k ≤ last → k ≤ d_last →
    (last < d_last ∨ d_last ≤ last - k) →
    (∀ j, j < k → ∃ v, h.cell (last - k + j) = Cell.obj v ∧ ∀ a, E.assignThrows a v = false) →
    (∀ j, j < k → (h.cell (d_last - k + j)).isLive = true) →
    move_backward_loop E (k + m) last d_last h =
      move_backward_loop E m (last - k) (d_last - k)
        (Heap.assignRange E h (d_last - k) (last - k) k)
  | 0, m, last, d_last, h, _, _, _, _, _ => by simp [assignRange_zero]
  | k + 1, m, last, d_last, h, hl, ho, hd, hsrc, hdst => by
    obtain ⟨v, hv, hq⟩ := hsrc k (by omega)
    have e0 : last - (k + 1) + k = last - 1 := by omega
    rw [e0] at hv
    have hlive := hdst k (by omega)
    have e00 : d_last - (k + 1) + k = d_last - 1 := by omega
    rw [e00] at hlive
    cases hc : h.cell (d_last - 1) with
    | raw => rw [hc] at hlive; cases hlive
    | obj a =>
      have e : k + 1 + m = (k + m) + 1 := by omega
      rw [e]
      simp only [move_backward_loop, move_assign_ok h hc hv (hq a)]
      rw [move_backward_loop_steps k m (last - 1) (d_last - 1) _
        (by omega) (by omega) (by omega)
        (by
          intro j hj
          obtain ⟨w, hw, hqw⟩ := hsrc j (by omega)
          refine ⟨w, ?_, hqw⟩
          simp only [Heap.set]
          rw [if_neg (by omega), if_neg (by omega), ← hw]; congr 1; omega)
        (by
          intro j hj
          simp only [Heap.set]
          by_cases h1 : d_last - 1 - k + j = last - 1
          · rw [if_pos h1]; rfl
          · rw [if_neg h1, if_neg (by omega)]
            have := hdst j (by omega)
            rw [← this]; congr 2; omega),
        assignRange_succ_bwd h last d_last k v hl ho hv hd]
      have e1 : last - 1 - k = last - (k + 1) := by omega
      have e2 : d_last - 1 - k = d_last - (k + 1) := by omega
      rw [e1, e2]

/-- Move-constructing `n` elements into a disjoint raw destination. -/
theorem uninitialized_move_loop_ok : ∀ (n first output count : Nat) (h : Heap α),
    (output + n ≤ first ∨ first + n ≤ output) →
    (∀ j, j < n → ∃ v, h.cell (first + j) = Cell.obj v ∧ E.moveThrows v = false) →
    (∀ j, j < n → h.cell (output + j) = Cell.raw) →
    uninitialized_move_loop E n first output count h =
      .ok (Heap.assignRange E h output first n, count + n) ()
  | 0, first, output, count, h, _, _, _ => by
    simp [uninitialized_move_loop, assignRange_zero]
  | n + 1, first, output, count, h, hd, hsrc, hdst => by
    obtain ⟨v, hv, hq⟩ := hsrc 0 (by omega)
    simp only [Nat.add_zero] at hv
    have hraw := hdst 0 (by omega)
    simp only [Nat.add_zero] at hraw
    simp only [uninitialized_move_loop, move_construct_at_ok h hv hraw hq]
    rw [uninitialized_move_loop_ok n (first + 1) (output + 1) (count + 1) _ (by omega)
      (by
        intro j hj
        obtain ⟨w, hw, hqw⟩ := hsrc (j + 1) (by omega)
        refine ⟨w, ?_, hqw⟩
        simp only [Heap.set]
        rw [if_neg (by omega), if_neg (by omega), ← hw]; congr 1; omega)
      (by
        intro j hj
        simp only [Heap.set]
        rw [if_neg (by omega), if_neg (by omega)]
        have := hdst (j + 1) (by omega)
        rw [← this]; congr 1; omega),
      assignRange_succ_fwd h first output n v hv (by omega)]
    have e3 : count + 1 + n = count + (n + 1) := by omega
    rw [e3]

/-- Copy-constructing `n` elements into a disjoint raw destination. -/
theorem uninitialized_copy_loop_ok : ∀ (n first output count : Nat) (h : Heap α),
    (output + n ≤ first ∨ first + n ≤ output) →
    (∀ j, j < n → ∃ v, h.cell (first + j) = Cell.obj v ∧ E.copyThrows v = false) →
    (∀ j, j < n → h.cell (output + j) = Cell.raw) →
    uninitialized_copy_loop E n first output count h =
      .ok (h.copyRange output first n, count + n) ()
  | 0, first, output, count, h, _, _, _ => by
    simp [uninitialized_copy_loop, copyRange_zero]
  | n + 1, first, output, count, h, hd, hsrc, hdst => by
    obtain ⟨v, hv, hq⟩ := hsrc 0 (by omega)
    simp only [Nat.add_zero] at hv
    have hraw := hdst 0 (by omega)
    simp only [Nat.add_zero] at hraw
    simp only [uninitialized_copy_loop, copy_construct_from_ok h hv hraw hq]
    rw [uninitialized_copy_loop_ok n (first + 1) (output + 1) (count + 1) _ (by omega)
      (by
        intro j hj
        obtain ⟨w, hw, hqw⟩ := hsrc (j + 1) (by omega)
        refine ⟨w, ?_, hqw⟩
        simp only [Heap.set]
        rw [if_neg (by omega), ← hw]; congr 1; omega)
      (by
        intro j hj
        simp only [Heap.set]
        rw [if_neg (by omega)]
        have := hdst (j + 1) (by omega)
        rw [← this]; congr 1; omega),
      copyRange_succ h first output n v hv (by omega)]
    have e3 : count + 1 + n = count + (n + 1) := by omega
    rw [e3]

/-! ### Reallocation -/

theorem killRange_copyRange (h : Heap α) (dst src n : Nat)
    (hd : dst + n ≤ src ∨ src + n ≤ dst)
    (hl : ∀ j, j < n → (h.cell (src + j)).isLive = true) :
    (h.copyRange dst src n).killRange src n = memmove h dst src n := by
  ext a
  · by_cases h1 : src ≤ a ∧ a < src + n
    · rw [killRange_cell_in _ h1.1 h1.2, memmove_cell_src h (by omega) h1.1 h1.2]
    · rw [killRange_cell_out _ h1]
      by_cases h2 : dst ≤ a ∧ a < dst + n
      · rw [copyRange_cell_dst _ h2.1 h2.2, memmove_cell_dst h h2.1 h2.2]
      · rw [copyRange_cell_other _ h2, memmove_cell_other h h2 h1]
  · by_cases h1 : src ≤ a ∧ a < src + n
    · have := hl (a - src) (by omega)
      have e : src + (a - src) = a := by omega
      rw [e] at this
      rw [killRange_ended_in _ h1.1 h1.2, memmove_ended_src h h1.1 h1.2 this]
      rfl
    · rw [killRange_ended_out _ h1, memmove_ended_other h h1]
      rfl
  all_goals rfl

theorem killRange_assignRange (h : Heap α) (dst src n : Nat)
    (hd : dst + n ≤ src ∨ src + n ≤ dst)
    (hl : ∀ j, j < n → (h.cell (src + j)).isLive = true) :
    (Heap.assignRange E h dst src n).killRange src n = memmove h dst src n := by
  ext a
  · by_cases h1 : src ≤ a ∧ a < src + n
    · rw [killRange_cell_in _ h1.1 h1.2, memmove_cell_src h (by omega) h1.1 h1.2]
    · rw [killRange_cell_out _ h1]
      by_cases h2 : dst ≤ a ∧ a < dst + n
      · rw [assignRange_cell_dst _ h2.1 h2.2, memmove_cell_dst h h2.1 h2.2]
      · rw [assignRange_cell_other _ h2 h1, memmove_cell_other h h2 h1]
  · by_cases h1 : src ≤ a ∧ a < src + n
    · have := hl (a - src) (by omega)
      have e : src + (a - src) = a := by omega
      rw [e] at this
      rw [killRange_ended_in _ h1.1 h1.2, memmove_ended_src h h1.1 h1.2 this]
      rfl
    · rw [killRange_ended_out _ h1, memmove_ended_other h h1]
      rfl
  all_goals rfl

theorem malloc_ok (h : Heap α) (n : Nat) (hm : h.brk + n ≤ h.limit) :
    malloc h n = (h.grow n, h.brk) := by
  simp [malloc, hm, Heap.grow]

theorem grow_cell (h : Heap α) (n a : Nat) : (h.grow n).cell a = h.cell a := rfl

theorem grow_ended (h : Heap α) (n a : Nat) : (h.grow n).ended a = h.ended a := rfl

theorem free_cell (h : Heap α) (p a : Nat) : (free h p).cell a = h.cell a := by
  unfold free; split <;> rfl

theorem free_ended (h : Heap α) (p a : Nat) : (free h p).ended a = h.ended a := by
  unfold free; split <;> rfl

theorem free_brk (h : Heap α) (p : Nat) : (free h p).brk = h.brk := by
  unfold free; split <;> rfl

/-- Closed form of a reallocation that takes place and in which nothing throws:
on every path the elements end up in the fresh block, the old slots are dead and
the old block is given back. -/
theorem reallocate_ok_eq (h : Heap α) (v : my_vector) (vals : Nat → α) (c : Nat)
    (hH : Holds h v vals) (hq : ∀ k, k < v.m_size → E.quiet (vals k))
    (hc : v.m_size ≤ c) (hne : c ≠ v.m_capacity) (hm : h.brk + c ≤ h.limit) :
    reallocate T E c (h, v) =
      .ok (free (memmove (h.grow c) h.brk v.m_begin v.m_size) v.m_begin,
           { m_begin := h.brk, m_size := v.m_size, m_capacity := c }) () := by
  obtain ⟨h1, h2, h3, h4, h5⟩ := hH
  have hsrc : ∀ j, j < v.m_size → (h.grow c).cell (v.m_begin + j) = Cell.obj (vals j) :=
    fun j hj => h3 j hj
  have hdst : ∀ j, j < v.m_size → (h.grow c).cell (h.brk + j) = Cell.raw :=
    fun j _ => h5 _ (by omega)
  have hlive : ∀ j, j < v.m_size → ((h.grow c).cell (v.m_begin + j)).isLive = true := by
    intro j hj
    rw [hsrc j hj]; rfl
  have hbody : (if T.is_nothrow_move_constructible = true then
        (uninitialized_relocate_n T E v.m_begin v.m_size h.brk (h.grow c)).bind
          fun h2 _ => Res.ok h2 ()
      else
        (if T.is_copy_constructible = true then
          uninitialized_copy_n E v.m_begin v.m_size h.brk (h.grow c)
        else
          uninitialized_move_n E v.m_begin v.m_size h.brk (h.grow c)).bind
          fun h2 _ => destroy_n v.m_size v.m_begin h2) =
      .ok (memmove (h.grow c) h.brk v.m_begin v.m_size) () := by
    split
    · rw [uninitialized_relocate_n_ok_eq (h.grow c) v.m_begin v.m_size h.brk (by omega)
        (fun j hj => ⟨vals j, hsrc j hj, fun _ => (hq j hj).1⟩)
        (fun j hj _ => hdst j hj)]
      rfl
    · split
      · have hl := uninitialized_copy_loop_ok (E := E) v.m_size v.m_begin h.brk 0
          (h.grow c) (by omega)
          (fun j hj => ⟨vals j, hsrc j hj, (hq j hj).2.1⟩) hdst
        simp only [uninitialized_copy_n, hl, Res.bind]
        rw [destroy_n_ok _ _ ((h.grow c).copyRange h.brk v.m_begin v.m_size) (by
          intro k hk
          rw [copyRange_cell_other _ (by omega)]
          exact hlive k hk), killRange_copyRange _ _ _ _ (by omega) hlive]
      · have hl := uninitialized_move_loop_ok (E := E) v.m_size v.m_begin h.brk 0
          (h.grow c) (by omega)
          (fun j hj => ⟨vals j, hsrc j hj, (hq j hj).1⟩) hdst
        simp only [uninitialized_move_n, hl, Res.bind]
        rw [destroy_n_ok _ _ (Heap.assignRange E (h.grow c) h.brk v.m_begin v.m_size) (by
          intro k hk
          rw [assignRange_cell_src (v := vals k) (h.grow c) (by omega) (by omega) (by omega)
            (hsrc k hk)]
          rfl), killRange_assignRange _ _ _ _ (by omega) hlive]
  unfold reallocate
  have hge : ¬ ¬ (c ≥ v.m_size) := by omega
  simp only [hge, if_false, hne, malloc_ok h c hm, hbody]
  simp only [my_vector.swap, my_vector.destructor, destroy_n, Res.bind, Res.lift]

/-- After a reallocation the sequence holds the same values in its new block. -/
theorem reallocate_holds (h : Heap α) (v : my_vector) (vals : Nat → α) (c : Nat)
    (hH : Holds h v vals) (hc : v.m_size ≤ c) :
    Holds (free (memmove (h.grow c) h.brk v.m_begin v.m_size) v.m_begin)
      { m_begin := h.brk, m_size := v.m_size, m_capacity := c } vals := by
  obtain ⟨h1, h2, h3, h4, h5⟩ := hH
  refine ⟨hc, ?_, ?_, ?_, ?_⟩
  · rw [free_brk]; exact Nat.le_refl _
  · intro k hk
    have hk0 : k < v.m_size := hk
    show (free _ _).cell (h.brk + k) = _
    rw [free_cell, memmove_cell_dst _ (by omega) (by omega), grow_cell]
    have e : h.brk + k - h.brk + v.m_begin = v.m_begin + k := by omega
    rw [e]; exact h3 k hk
  · intro k hk1 hk2
    have hk3 : k < c := hk1
    have hk4 : v.m_size ≤ k := hk2
    show (free _ _).cell (h.brk + k) = _
    rw [free_cell, memmove_cell_other _ (by omega) (by omega), grow_cell]
    exact h5 _ (by omega)
  · intro a ha
    rw [free_brk] at ha
    have ha2 : h.brk + c ≤ a := ha
    rw [free_cell, memmove_cell_other _ (by omega) (by omega), grow_cell]
    exact h5 _ (by omega)

theorem free_nalloc (h : Heap α) (p : Nat) : (free h p).nalloc = h.nalloc := by
  unfold free; split <;> rfl

theorem free_freed (h : Heap α) (p : Nat) :
    (free h p).freed = if p = 0 then h.freed else p :: h.freed := by
  unfold free; split <;> rfl

/-- What `maybeReallocate` achieves when nothing throws and the provider has
room: the same values, and room for one more element. -/
theorem maybeReallocate_ok (h : Heap α) (v : my_vector) (vals : Nat → α)
    (hH : Holds h v vals) (hq : ∀ k, k < v.m_size → E.quiet (vals k))
    (hm : v.m_size = v.m_capacity → h.brk + (v.m_capacity + 32) ≤ h.limit) :
    ∃ h1 v1, maybeReallocate T E (h, v) = .ok (h1, v1) () ∧ Holds h1 v1 vals ∧
      v1.m_size = v.m_size ∧ v1.m_size < v1.m_capacity ∧
      v1.m_capacity = (if v.m_size = v.m_capacity then v.m_capacity + 32 else v.m_capacity) ∧
      h1.nalloc = h.nalloc + (if v.m_size = v.m_capacity then 1 else 0) ∧
      h1.limit = h.limit := by
  unfold maybeReallocate
  by_cases hfull : v.m_size = v.m_capacity
  · have hfull0 : (h, v).2.m_size = (h, v).2.m_capacity := hfull
    rw [if_pos hfull0]
    refine ⟨_, _, reallocate_ok_eq h v vals (v.m_capacity + 32) hH hq (by omega) (by omega)
      (hm hfull), reallocate_holds h v vals (v.m_capacity + 32) hH (by omega), rfl, ?_, ?_, ?_, ?_⟩
    · show v.m_size < v.m_capacity + 32
      omega
    · rw [if_pos hfull]
    · rw [if_pos hfull, free_nalloc]; rfl
    · unfold free; split <;> rfl
  · have hfull0 : ¬ (h, v).2.m_size = (h, v).2.m_capacity := hfull
    rw [if_neg hfull0]
    refine ⟨h, v, rfl, hH, rfl, ?_, ?_, ?_, rfl⟩
    · have := hH.1; omega
    · rw [if_neg hfull]
    · rw [if_neg hfull]; rfl

/-- Building one more element at the end of a sequence that has room. -/
theorem holds_push (h : Heap α) (v : my_vector) (vals : Nat → α) (x : α)
    (hH : Holds h v vals) (hroom : v.m_size < v.m_capacity) :
    Holds (h.set (v.m_begin + v.m_size) (Cell.obj x))
      { m_begin := v.m_begin, m_size := v.m_size + 1, m_capacity := v.m_capacity }
      (fun k => if k = v.m_size then x else vals k) := by
  obtain ⟨h1, h2, h3, h4, h5⟩ := hH
  refine ⟨hroom, h2, ?_, ?_, ?_⟩
  · intro k hk
    have hk0 : k < v.m_size + 1 := hk
    show (if v.m_begin + k = v.m_begin + v.m_size then Cell.obj x else h.cell (v.m_begin + k)) = _
    by_cases hc : k = v.m_size
    · rw [if_pos (by omega)]
      show _ = Cell.obj (if k = v.m_size then x else vals k)
      rw [if_pos hc]
    · rw [if_neg (by omega)]
      show _ = Cell.obj (if k = v.m_size then x else vals k)
      rw [if_neg hc]
      exact h3 k (by omega)
  · intro k hk1 hk2
    have hk3 : k < v.m_capacity := hk1
    have hk4 : v.m_size + 1 ≤ k := hk2
    show (if v.m_begin + k = v.m_begin + v.m_size then Cell.obj x else h.cell (v.m_begin + k)) = _
    rw [if_neg (by omega)]
    exact h4 k hk3 (by omega)
  · intro a ha
    have ha2 : h.brk ≤ a := ha
    show (if a = v.m_begin + v.m_size then Cell.obj x else h.cell a) = _
    rw [if_neg (by omega)]
    exact h5 a ha2

/-! ### Erasing -/

theorem holds_congr (h : Heap α) (v : my_vector) (vals vals' : Nat → α)
    (he : ∀ k, k < v.m_size → vals k = vals' k) (hH : Holds h v vals) : Holds h v vals' := by
  obtain ⟨h1, h2, h3, h4, h5⟩ := hH
  exact ⟨h1, h2, fun k hk => by rw [← he k hk]; exact h3 k hk, h4, h5⟩

/-- The relocation-based branch of `erase` leaves the sequence without the
erased range. -/
theorem erase_reloc_holds (h : Heap α) (v : my_vector) (vals : Nat → α) (f l : Nat)
    (hH : Holds h v vals) (hfl : f < l) (hl : l ≤ v.m_size) :
    Holds (memmove (h.killRange (v.m_begin + f) (l - f)) (v.m_begin + f) (v.m_begin + l)
        (v.m_size - l))
      { m_begin := v.m_begin, m_size := v.m_size - (l - f), m_capacity := v.m_capacity }
      (fun k => if k < f then vals k else vals (k + (l - f))) := by
  obtain ⟨h1, h2, h3, h4, h5⟩ := hH
  refine ⟨?_, h2, ?_, ?_, ?_⟩
  · show v.m_size - (l - f) ≤ v.m_capacity
    omega
  · intro k hk
    have hk0 : k < v.m_size - (l - f) := hk
    dsimp only
    by_cases hc : k < f
    · rw [if_pos hc, memmove_cell_other _ (by omega) (by omega),
        killRange_cell_out _ (by omega)]
      exact h3 k (by omega)
    · rw [if_neg hc, memmove_cell_dst _ (by omega) (by omega),
        killRange_cell_out _ (by omega)]
      have e : v.m_begin + k - (v.m_begin + f) + (v.m_begin + l) = v.m_begin + (k + (l - f)) := by
        omega
      rw [e]
      exact h3 _ (by omega)
  · intro k hk1 hk2
    have hk3 : k < v.m_capacity := hk1
    have hk4 : v.m_size - (l - f) ≤ k := hk2
    dsimp only
    by_cases hc : l ≤ k ∧ k < v.m_size
    · rw [memmove_cell_src _ (by omega) (by omega) (by omega)]
    · by_cases hc2 : k < l
      · rw [memmove_cell_other _ (by omega) (by omega),
          killRange_cell_in _ (by omega) (by omega)]
      · rw [memmove_cell_other _ (by omega) (by omega), killRange_cell_out _ (by omega)]
        exact h4 k hk3 (by omega)
  · intro a ha
    have ha0 : h.brk ≤ a := ha
    rw [memmove_cell_other _ (by omega) (by omega), killRange_cell_out _ (by omega)]
    exact h5 a ha0

/-- The assignment-based branch of `erase` leaves the sequence without the
erased range. -/
theorem erase_assign_holds (h : Heap α) (v : my_vector) (vals : Nat → α) (f l : Nat)
    (hH : Holds h v vals) (hfl : f < l) (hl : l ≤ v.m_size) :
    Holds ((Heap.assignRange E h (v.m_begin + f) (v.m_begin + l) (v.m_size - l)).killRange
        (v.m_begin + f + (v.m_size - l)) (l - f))
      { m_begin := v.m_begin, m_size := v.m_size - (l - f), m_capacity := v.m_capacity }
      (fun k => if k < f then vals k else vals (k + (l - f))) := by
  obtain ⟨h1, h2, h3, h4, h5⟩ := hH
  refine ⟨?_, h2, ?_, ?_, ?_⟩
  · show v.m_size - (l - f) ≤ v.m_capacity
    omega
  · intro k hk
    have hk0 : k < v.m_size - (l - f) := hk
    dsimp only
    rw [killRange_cell_out _ (by omega)]
    by_cases hc : k < f
    · rw [if_pos hc, assignRange_cell_other _ (by omega) (by omega)]
      exact h3 k (by omega)
    · rw [if_neg hc, assignRange_cell_dst _ (by omega) (by omega)]
      have e : v.m_begin + k - (v.m_begin + f) + (v.m_begin + l) = v.m_begin + (k + (l - f)) := by
        omega
      rw [e]
      exact h3 _ (by omega)
  · intro k hk1 hk2
    have hk3 : k < v.m_capacity := hk1
    have hk4 : v.m_size - (l - f) ≤ k := hk2
    dsimp only
    by_cases hc : k < v.m_size
    · rw [killRange_cell_in _ (by omega) (by omega)]
    · rw [killRange_cell_out _ (by omega), assignRange_cell_other _ (by omega) (by omega)]
      exact h4 k hk3 (by omega)
  · intro a ha
    have ha0 : h.brk ≤ a := ha
    rw [killRange_cell_out _ (by omega), assignRange_cell_other _ (by omega) (by omega)]
    exact h5 a ha0

/-- Closed form of the relocation-based branch of `erase`. -/
theorem erase_reloc_eq (h : Heap α) (v : my_vector) (vals : Nat → α) (f l : Nat)
    (hH : Holds h v vals) (hq : ∀ k, k < v.m_size → E.quiet (vals k))
    (hfl : f < l) (hl : l ≤ v.m_size)
    (hb : (T.is_replaceable && T.is_nothrow_move_constructible) = true) :
    erase T E (v.m_begin + f) (v.m_begin + l) (h, v) =
      .ok (memmove (h.killRange (v.m_begin + f) (l - f)) (v.m_begin + f) (v.m_begin + l)
            (v.m_size - l),
          { m_begin := v.m_begin, m_size := v.m_size - (l - f), m_capacity := v.m_capacity })
        (v.m_begin + f) := by
  obtain ⟨h1, h2, h3, h4, h5⟩ := hH
  have e1 : v.m_begin + l - (v.m_begin + f) = l - f := by omega
  have e2 : v.m_begin + v.m_size - (v.m_begin + l) = v.m_size - l := by omega
  have hd := destroy_ok (v.m_begin + f) (v.m_begin + l) h (by omega) (by
    intro k hk
    have := h3 (f + k) (by omega)
    have e : v.m_begin + (f + k) = v.m_begin + f + k := by omega
    rw [e] at this
    rw [this]; rfl)
  rw [e1] at hd
  have hr := uninitialized_relocate_ok_eq (T := T) (E := E)
    (h.killRange (v.m_begin + f) (l - f)) (v.m_begin + l) (v.m_begin + v.m_size)
    (v.m_begin + f) (by omega) (by omega)
    (by
      intro j hj
      refine ⟨vals (l + j), ?_, fun _ => (hq (l + j) (by omega)).1⟩
      rw [killRange_cell_out _ (by omega)]
      have := h3 (l + j) (by omega)
      rw [← this]; congr 1; omega)
    (by
      intro j hj hn
      rw [killRange_cell_in _ (by omega) (by omega)])
  rw [e2] at hr
  unfold erase
  have c1 : ¬ ¬ (v.m_begin + f ≤ v.m_begin + l) := by omega
  have c2 : ¬ ¬ (v.m_begin + l ≤ v.m_begin + v.m_size) := by omega
  have c3 : ¬ (l - f = 0) := by omega
  have cb : ¬ (v.m_begin + f < v.m_begin) := by omega
  simp only [my_vector.end_, my_vector.begin, c1, c2, if_false, e1, c3, cb, hb, if_true, hd,
    Res.lift, Res.bind, hr]

/-- Closed form of the assignment-based branch of `erase`. -/
theorem erase_assign_eq (h : Heap α) (v : my_vector) (vals : Nat → α) (f l : Nat)
    (hH : Holds h v vals) (hq : ∀ k, k < v.m_size → E.quiet (vals k))
    (hfl : f < l) (hl : l ≤ v.m_size)
    (hb : (T.is_replaceable && T.is_nothrow_move_constructible) = false) :
    erase T E (v.m_begin + f) (v.m_begin + l) (h, v) =
      .ok ((Heap.assignRange E h (v.m_begin + f) (v.m_begin + l) (v.m_size - l)).killRange
            (v.m_begin + f + (v.m_size - l)) (l - f),
          { m_begin := v.m_begin, m_size := v.m_size - (l - f), m_capacity := v.m_capacity })
        (v.m_begin + f) := by
  obtain ⟨h1, h2, h3, h4, h5⟩ := hH
  have e1 : v.m_begin + l - (v.m_begin + f) = l - f := by omega
  have e2 : v.m_begin + v.m_size - (v.m_begin + l) = v.m_size - l := by omega
  have e3 : v.m_begin + v.m_size - (v.m_begin + f + (v.m_size - l)) = l - f := by omega
  have hmv := move_loop_steps (E := E) (v.m_size - l) 0 (v.m_begin + l) (v.m_begin + f) h
    (by omega)
    (by
      intro j hj
      refine ⟨vals (l + j), ?_, (hq (l + j) (by omega)).2.2⟩
      have := h3 (l + j) (by omega)
      rw [← this]; congr 1; omega)
    (by
      intro j hj
      have := h3 (f + j) (by omega)
      have e : v.m_begin + (f + j) = v.m_begin + f + j := by omega
      rw [e] at this
      rw [this]; rfl)
  simp only [Nat.add_zero, move_loop] at hmv
  have hd := destroy_ok (v.m_begin + f + (v.m_size - l)) (v.m_begin + v.m_size)
    (Heap.assignRange E h (v.m_begin + f) (v.m_begin + l) (v.m_size - l)) (by omega) (by
    intro k hk
    by_cases hc : v.m_begin + l ≤ v.m_begin + f + (v.m_size - l) + k
    · have := h3 (f + (v.m_size - l) + k) (by omega)
      have e : v.m_begin + (f + (v.m_size - l) + k) = v.m_begin + f + (v.m_size - l) + k := by
        omega
      rw [e] at this
      rw [assignRange_cell_src _ (by omega) hc (by omega) this]
      rfl
    · rw [assignRange_cell_other _ (by omega) (by omega)]
      have := h3 (f + (v.m_size - l) + k) (by omega)
      have e : v.m_begin + (f + (v.m_size - l) + k) = v.m_begin + f + (v.m_size - l) + k := by
        omega
      rw [e] at this
      rw [this]; rfl)
  rw [e3] at hd
  unfold erase
  have c1 : ¬ ¬ (v.m_begin + f ≤ v.m_begin + l) := by omega
  have c2 : ¬ ¬ (v.m_begin + l ≤ v.m_begin + v.m_size) := by omega
  have c3 : ¬ (l - f = 0) := by omega
  have c4 : ¬ (v.m_begin + v.m_size < v.m_begin + l) := by omega
  have cb : ¬ (v.m_begin + f < v.m_begin) := by omega
  simp only [my_vector.end_, my_vector.begin, c1, c2, if_false, e1, c3, cb, hb,
    Bool.false_eq_true, std_move, c4, e2, hmv, Res.lift, Res.bind, hd]

/-! ### Emplacing -/

/-- Closed form of `emplace` at the end of the sequence. -/
theorem emplace_end_eq (h h1 : Heap α) (v v1 : my_vector) (vals : Nat → α) (value : α)
    (hmr : maybeReallocate T E (h, v) = .ok (h1, v1) ())
    (hH : Holds h1 v1 vals) (hs : v1.m_size = v.m_size) (hroom : v1.m_size < v1.m_capacity)
    (hv : E.quiet value) :
    emplace T E (v.m_begin + v.m_size) value (h, v) =
      .ok (h1.set (v1.m_begin + v1.m_size) (Cell.obj value),
          { m_begin := v1.m_begin, m_size := v1.m_size + 1, m_capacity := v1.m_capacity })
        (v1.m_begin + v1.m_size) := by
  have hraw : h1.cell (v1.m_begin + v1.m_size) = Cell.raw :=
    hH.2.2.2.1 v1.m_size hroom (Nat.le_refl _)
  have c0 : ¬ (v.m_begin + v.m_size < v.m_begin) := by omega
  have e0 : v.m_begin + v.m_size - v.m_begin = v1.m_size := by omega
  unfold emplace
  simp only [my_vector.begin, my_vector.end_, c0, if_false, hmr, Res.bind, e0, if_true,
    copy_construct_at, hraw, hv.2.1, Bool.false_eq_true, Res.lift]

/-- Closed form of `emplace` before the end, replaceable branch (either
relocation path). -/
theorem emplace_replaceable_eq (h h1 : Heap α) (v v1 : my_vector) (vals : Nat → α)
    (value : α) (i : Nat)
    (hmr : maybeReallocate T E (h, v) = .ok (h1, v1) ())
    (hH : Holds h1 v1 vals) (hs : v1.m_size = v.m_size) (hroom : v1.m_size < v1.m_capacity)
    (hq : ∀ k, k < v.m_size → E.quiet (vals k)) (hv : E.quiet value)
    (hi : i < v.m_size) (hrep : T.is_replaceable = true) :
    emplace T E (v.m_begin + i) value (h, v) =
      .ok ((memmove h1 (v1.m_begin + i + 1) (v1.m_begin + i) (v1.m_size - i)).set
            (v1.m_begin + i) (Cell.obj value),
          { m_begin := v1.m_begin, m_size := v1.m_size + 1, m_capacity := v1.m_capacity })
        (v1.m_begin + i) := by
  obtain ⟨g1, g2, g3, g4, g5⟩ := hH
  have c0 : ¬ (v.m_begin + i < v.m_begin) := by omega
  have e0 : v.m_begin + i - v.m_begin = i := by omega
  have c1 : ¬ (v1.m_begin + i = v1.m_begin + v1.m_size) := by omega
  have e1 : v1.m_begin + v1.m_size - (v1.m_begin + i) = v1.m_size - i := by omega
  have e2 : v1.m_begin + v1.m_size + 1 - (v1.m_size - i) = v1.m_begin + i + 1 := by omega
  have hrel : ∃ r, uninitialized_relocate_backward T E (v1.m_begin + i) (v1.m_begin + v1.m_size)
      (v1.m_begin + v1.m_size + 1) h1 =
      .ok (memmove h1 (v1.m_begin + i + 1) (v1.m_begin + i) (v1.m_size - i)) r := by
    cases ht : T.is_trivially_relocatable with
    | true =>
      have := uninitialized_relocate_backward_fast_eq (T := T) (E := E) h1 (v1.m_begin + i)
        (v1.m_begin + v1.m_size) (v1.m_begin + v1.m_size + 1) ht (by omega) (by omega)
      rw [e1, e2] at this
      exact ⟨_, this⟩
    | false =>
      have := uninitialized_relocate_backward_slow_eq (T := T) (E := E) h1 (v1.m_begin + i)
        (v1.m_begin + v1.m_size) (v1.m_begin + v1.m_size + 1) ht (by omega) (by omega)
        (by omega)
        (by
          intro j hj
          refine ⟨vals (i + j), ?_, (hq (i + j) (by omega)).1⟩
          have := g3 (i + j) (by omega)
          rw [← this]; congr 1; omega)
        (by
          intro j hj hn
          have := g4 v1.m_size hroom (Nat.le_refl _)
          rw [← this]; congr 1; omega)
      rw [e1, e2] at this
      exact ⟨_, this⟩
  obtain ⟨r, hrel⟩ := hrel
  have hraw : (memmove h1 (v1.m_begin + i + 1) (v1.m_begin + i) (v1.m_size - i)).cell
      (v1.m_begin + i) = Cell.raw := memmove_cell_src h1 (by omega) (by omega) (by omega)
  unfold emplace
  simp only [my_vector.begin, my_vector.end_, c0, if_false, hmr, Res.bind, e0, c1, hv.2.1,
    Bool.false_eq_true, hrep, if_true, hrel, Res.lift, move_construct_from_local, hraw, hv.1,
    Res.onThrow]

/-- Closed form of `emplace` before the end, non-replaceable branch. -/
theorem emplace_assign_eq (h h1 : Heap α) (v v1 : my_vector) (vals : Nat → α)
    (value : α) (i : Nat)
    (hmr : maybeReallocate T E (h, v) = .ok (h1, v1) ())
    (hH : Holds h1 v1 vals) (hs : v1.m_size = v.m_size) (hroom : v1.m_size < v1.m_capacity)
    (hq : ∀ k, k < v.m_size → E.quiet (vals k)) (hv : E.quiet value)
    (hi : i < v.m_size) (hrep : T.is_replaceable = false) :
    emplace T E (v.m_begin + i) value (h, v) =
      .ok ((Heap.assignRange E
              ((h1.set (v1.m_begin + v1.m_size) (Cell.obj (vals (v1.m_size - 1)))).set
                (v1.m_begin + v1.m_size - 1) (Cell.obj (E.movedFrom (vals (v1.m_size - 1)))))
              (v1.m_begin + i + 1) (v1.m_begin + i) (v1.m_size - 1 - i)).set
            (v1.m_begin + i) (Cell.obj value),
          { m_begin := v1.m_begin, m_size := v1.m_size + 1, m_capacity := v1.m_capacity })
        (v1.m_begin + i) := by
  obtain ⟨g1, g2, g3, g4, g5⟩ := hH
  have c0 : ¬ (v.m_begin + i < v.m_begin) := by omega
  have e0 : v.m_begin + i - v.m_begin = i := by omega
  have c1 : ¬ (v1.m_begin + i = v1.m_begin + v1.m_size) := by omega
  have hsrc0 : h1.cell (v1.m_begin + v1.m_size - 1) = Cell.obj (vals (v1.m_size - 1)) := by
    have := g3 (v1.m_size - 1) (by omega)
    rw [← this]; congr 1; omega
  have hdst0 : h1.cell (v1.m_begin + v1.m_size) = Cell.raw := g4 v1.m_size hroom (Nat.le_refl _)
  have hmc := move_construct_at_ok (E := E) h1 hsrc0 hdst0 (hq (v1.m_size - 1) (by omega)).1
  generalize hA : (h1.set (v1.m_begin + v1.m_size) (Cell.obj (vals (v1.m_size - 1)))).set
      (v1.m_begin + v1.m_size - 1) (Cell.obj (E.movedFrom (vals (v1.m_size - 1)))) = hA0 at hmc ⊢
  have hAcell : ∀ a, hA0.cell a =
      if a = v1.m_begin + v1.m_size - 1 then Cell.obj (E.movedFrom (vals (v1.m_size - 1)))
      else if a = v1.m_begin + v1.m_size then Cell.obj (vals (v1.m_size - 1))
      else h1.cell a := by
    intro a; rw [← hA]; rfl
  have e3 : v1.m_begin + (v1.m_size + 1) - 2 = v1.m_begin + v1.m_size - 1 := by omega
  have e4 : v1.m_begin + (v1.m_size + 1) - 1 = v1.m_begin + v1.m_size := by omega
  have e5 : v1.m_begin + v1.m_size - 1 - (v1.m_begin + i) = v1.m_size - 1 - i := by omega
  have c2 : ¬ (v1.m_begin + v1.m_size - 1 < v1.m_begin + i ∨
      v1.m_begin + v1.m_size < v1.m_size - 1 - i) := by omega
  have hmb := move_backward_loop_steps (E := E) (v1.m_size - 1 - i) 0
    (v1.m_begin + v1.m_size - 1) (v1.m_begin + v1.m_size) hA0
    (by omega) (by omega) (by omega)
    (by
      intro j hj
      refine ⟨vals (i + j), ?_, (hq (i + j) (by omega)).2.2⟩
      rw [hAcell, if_neg (by omega), if_neg (by omega)]
      have := g3 (i + j) (by omega)
      rw [← this]; congr 1; omega)
    (by
      intro j hj
      rw [hAcell]
      by_cases hc : v1.m_begin + v1.m_size - (v1.m_size - 1 - i) + j = v1.m_begin + v1.m_size - 1
      · rw [if_pos hc]; rfl
      · rw [if_neg hc, if_neg (by omega)]
        have := g3 (i + 1 + j) (by omega)
        have e : v1.m_begin + v1.m_size - (v1.m_size - 1 - i) + j = v1.m_begin + (i + 1 + j) := by
          omega
        rw [e, this]; rfl)
  have e6 : v1.m_begin + v1.m_size - (v1.m_size - 1 - i) = v1.m_begin + i + 1 := by omega
  have e7 : v1.m_begin + v1.m_size - 1 - (v1.m_size - 1 - i) = v1.m_begin + i := by omega
  simp only [Nat.add_zero, move_backward_loop, e6, e7] at hmb
  have hpos : (Heap.assignRange E hA0 (v1.m_begin + i + 1) (v1.m_begin + i)
      (v1.m_size - 1 - i)).cell (v1.m_begin + i) = Cell.obj (E.movedFrom (vals i)) := by
    by_cases hc : i = v1.m_size - 1
    · rw [assignRange_cell_other _ (by omega) (by omega), hAcell, if_pos (by omega), hc]
    · have hval : hA0.cell (v1.m_begin + i) = Cell.obj (vals i) := by
        rw [hAcell, if_neg (by omega), if_neg (by omega)]
        exact g3 i (by omega)
      rw [assignRange_cell_src _ (by omega) (by omega) (by omega) hval]
  unfold emplace
  simp only [my_vector.begin, my_vector.end_, c0, if_false, hmr, Res.bind, e0, c1, hv.2.1,
    Bool.false_eq_true, hrep, hmc, Res.lift, std_move_backward, e3, e4, e5, c2, hmb,
    move_assign_from_local, hpos, hv.2.2]

/-- The sequence after the replaceable branch of `emplace`. -/
theorem emplace_replaceable_holds (h1 : Heap α) (v1 : my_vector) (vals : Nat → α)
    (value : α) (i : Nat)
    (hH : Holds h1 v1 vals) (hroom : v1.m_size < v1.m_capacity) (hi : i < v1.m_size) :
    Holds ((memmove h1 (v1.m_begin + i + 1) (v1.m_begin + i) (v1.m_size - i)).set
        (v1.m_begin + i) (Cell.obj value))
      { m_begin := v1.m_begin, m_size := v1.m_size + 1, m_capacity := v1.m_capacity }
      (fun k => if k < i then vals k else if k = i then value else vals (k - 1)) := by
  obtain ⟨g1, g2, g3, g4, g5⟩ := hH
  refine ⟨hroom, g2, ?_, ?_, ?_⟩
  · intro k hk
    have hk0 : k < v1.m_size + 1 := hk
    dsimp only [Heap.set]
    by_cases hc1 : k < i
    · rw [if_neg (by omega), if_pos hc1, memmove_cell_other _ (by omega) (by omega)]
      exact g3 k (by omega)
    · by_cases hc2 : k = i
      · rw [if_pos (by omega), if_neg hc1, if_pos hc2]
      · rw [if_neg (by omega), if_neg hc1, if_neg hc2,
          memmove_cell_dst _ (by omega) (by omega)]
        have e : v1.m_begin + k - (v1.m_begin + i + 1) + (v1.m_begin + i) =
            v1.m_begin + (k - 1) := by omega
        rw [e]
        exact g3 (k - 1) (by omega)
  · intro k hk1 hk2
    have hk3 : k < v1.m_capacity := hk1
    have hk4 : v1.m_size + 1 ≤ k := hk2
    dsimp only [Heap.set]
    rw [if_neg (by omega), memmove_cell_other _ (by omega) (by omega)]
    exact g4 k hk3 (by omega)
  · intro a ha
    have ha0 : h1.brk ≤ a := ha
    dsimp only [Heap.set]
    rw [if_neg (by omega), memmove_cell_other _ (by omega) (by omega)]
    exact g5 a ha0

/-- The sequence after the non-replaceable branch of `emplace`. -/
theorem emplace_assign_holds (h1 : Heap α) (v1 : my_vector) (vals : Nat → α)
    (value : α) (i : Nat)
    (hH : Holds h1 v1 vals) (hroom : v1.m_size < v1.m_capacity) (hi : i < v1.m_size) :
    Holds ((Heap.assignRange E
              ((h1.set (v1.m_begin + v1.m_size) (Cell.obj (vals (v1.m_size - 1)))).set
                (v1.m_begin + v1.m_size - 1) (Cell.obj (E.movedFrom (vals (v1.m_size - 1)))))
              (v1.m_begin + i + 1) (v1.m_begin + i) (v1.m_size - 1 - i)).set
            (v1.m_begin + i) (Cell.obj value))
      { m_begin := v1.m_begin, m_size := v1.m_size + 1, m_capacity := v1.m_capacity }
      (fun k => if k < i then vals k else if k = i then value else vals (k - 1)) := by
  obtain ⟨g1, g2, g3, g4, g5⟩ := hH
  generalize hA : (h1.set (v1.m_begin + v1.m_size) (Cell.obj (vals (v1.m_size - 1)))).set
      (v1.m_begin + v1.m_size - 1) (Cell.obj (E.movedFrom (vals (v1.m_size - 1)))) = hA0
  have hAcell : ∀ a, hA0.cell a =
      if a = v1.m_begin + v1.m_size - 1 then Cell.obj (E.movedFrom (vals (v1.m_size - 1)))
      else if a = v1.m_begin + v1.m_size then Cell.obj (vals (v1.m_size - 1))
      else h1.cell a := by
    intro a; rw [← hA]; rfl
  have hAbrk : hA0.brk = h1.brk := by rw [← hA]; rfl
  refine ⟨hroom, ?_, ?_, ?_, ?_⟩
  · show v1.m_begin + v1.m_capacity ≤ hA0.brk
    rw [hAbrk]; exact g2
  · intro k hk
    have hk0 : k < v1.m_size + 1 := hk
    dsimp only [Heap.set]
    by_cases hc1 : k < i
    · rw [if_neg (by omega), if_pos hc1, assignRange_cell_other _ (by omega) (by omega),
        hAcell, if_neg (by omega), if_neg (by omega)]
      exact g3 k (by omega)
    · by_cases hc2 : k = i
      · rw [if_pos (by omega), if_neg hc1, if_pos hc2]
      · rw [if_neg (by omega), if_neg hc1, if_neg hc2]
        by_cases hc3 : k = v1.m_size
        · rw [assignRange_cell_other _ (by omega) (by omega), hAcell, if_neg (by omega),
            if_pos (by omega), hc3]
        · rw [assignRange_cell_dst _ (by omega) (by omega), hAcell, if_neg (by omega),
            if_neg (by omega)]
          have e : v1.m_begin + k - (v1.m_begin + i + 1) + (v1.m_begin + i) =
              v1.m_begin + (k - 1) := by omega
          rw [e]
          exact g3 (k - 1) (by omega)
  · intro k hk1 hk2
    have hk3 : k < v1.m_capacity := hk1
    have hk4 : v1.m_size + 1 ≤ k := hk2
    dsimp only [Heap.set]
    rw [if_neg (by omega), assignRange_cell_other _ (by omega) (by omega), hAcell,
      if_neg (by omega), if_neg (by omega)]
    exact g4 k hk3 (by omega)
  · intro a ha
    have ha0 : hA0.brk ≤ a := ha
    rw [hAbrk] at ha0
    dsimp only [Heap.set]
    rw [if_neg (by omega), assignRange_cell_other _ (by omega) (by omega), hAcell,
      if_neg (by omega), if_neg (by omega)]
    exact g5 a ha0

/-! ### Exits of composed code -/

theorem bind_isAbort {σ ρ τ : Type} (r : Res σ ρ) (f : σ → ρ → Res σ τ)
    (h1 : r.isAbort = false) (h2 : ∀ s a, (f s a).isAbort = false) :
    (r.bind f).isAbort = false := by
  cases r with
  | ok s a => exact h2 s a
  | throw s => rfl
  | abort s => cases h1
  | ub => rfl

theorem lift_isAbort {σ τ ρ : Type} (r : Res σ ρ) (f : σ → τ) :
    (r.lift f).isAbort = r.isAbort := by
  cases r <;> rfl

theorem onThrow_isAbort {σ ρ : Type} (r : Res σ ρ) (handler : σ → Res σ ρ)
    (h1 : r.isAbort = false) (h2 : ∀ s, (handler s).isAbort = false) :
    (r.onThrow handler).isAbort = false := by
  cases r with
  | ok s a => rfl
  | throw s => exact h2 s
  | abort s => cases h1
  | ub => rfl

theorem bind_isThrow {σ ρ τ : Type} (r : Res σ ρ) (f : σ → ρ → Res σ τ)
    (h1 : r.isThrow = false) (h2 : ∀ s a, (f s a).isThrow = false) :
    (r.bind f).isThrow = false := by
  cases r with
  | ok s a => exact h2 s a
  | throw s => cases h1
  | abort s => rfl
  | ub => rfl

theorem lift_isThrow {σ τ ρ : Type} (r : Res σ ρ) (f : σ → τ) :
    (r.lift f).isThrow = r.isThrow := by
  cases r <;> rfl

theorem sat_bind {σ ρ τ : Type} (r : Res σ ρ) (f : σ → ρ → Res σ τ)
    (Q : σ → ρ → Prop) (Pok : σ → τ → Prop) (Pfail : σ → Prop)
    (h1 : r.sat Q Pfail) (h2 : ∀ s a, Q s a → (f s a).sat Pok Pfail) :
    (r.bind f).sat Pok Pfail := by
  cases r with
  | ok s a => exact h2 s a h1
  | throw s => exact h1
  | abort s => exact h1
  | ub => trivial

theorem sat_lift {σ τ ρ : Type} (r : Res σ ρ) (f : σ → τ)
    (Pok : τ → ρ → Prop) (Pfail : τ → Prop)
    (h1 : r.sat (fun s a => Pok (f s) a) (fun s => Pfail (f s))) :
    (r.lift f).sat Pok Pfail := by
  cases r with
  | ok s a => exact h1
  | throw s => exact h1
  | abort s => exact h1
  | ub => trivial

theorem sat_onThrow {σ ρ : Type} (r : Res σ ρ) (handler : σ → Res σ ρ)
    (Q : σ → Prop) (Pok : σ → ρ → Prop) (Pfail : σ → Prop)
    (h1 : r.sat Pok Q) (h2 : ∀ s, Q s → Pfail s)
    (h3 : ∀ s, Q s → (handler s).sat Pok Pfail) :
    (r.onThrow handler).sat Pok Pfail := by
  cases r with
  | ok s a => exact h1
  | throw s => exact h3 s h1
  | abort s => exact h2 s h1
  | ub => trivial

theorem sat_mono {σ ρ : Type} (r : Res σ ρ) (Pok Pok' : σ → ρ → Prop) (Pfail Pfail' : σ → Prop)
    (h1 : r.sat Pok Pfail) (h2 : ∀ s a, Pok s a → Pok' s a) (h3 : ∀ s, Pfail s → Pfail' s) :
    r.sat Pok' Pfail' := by
  cases r with
  | ok s a => exact h2 s a h1
  | throw s => exact h3 s h1
  | abort s => exact h3 s h1
  | ub => trivial

/-- Whatever a callee working on the heap does, the members stay as they are. -/
theorem sat_lift_const {ρ : Type} (r : Res (Heap α) ρ) (v : my_vector) :
    (r.lift fun h => (h, v)).sat (fun s _ => s.2 = v) (fun s => s.2 = v) := by
  cases r <;> simp [Res.lift, Res.sat]

/-! ### No assertion in the algorithms -/

theorem destroy_at_isAbort (p : Nat) (h : Heap α) : (destroy_at p h).isAbort = false := by
  unfold destroy_at; split <;> rfl

theorem move_construct_at_isAbort (d s : Nat) (h : Heap α) :
    (move_construct_at E d s h).isAbort = false := by
  unfold move_construct_at; split
  · split <;> rfl
  · rfl

theorem copy_construct_at_isAbort (d : Nat) (x : α) (h : Heap α) :
    (copy_construct_at E d x h).isAbort = false := by
  unfold copy_construct_at; split
  · split <;> rfl
  · rfl

theorem copy_construct_from_isAbort (d s : Nat) (h : Heap α) :
    (copy_construct_from E d s h).isAbort = false := by
  unfold copy_construct_from; split
  · exact copy_construct_at_isAbort _ _ _
  · rfl

theorem move_construct_from_local_isAbort (d : Nat) (x : α) (h : Heap α) :
    (move_construct_from_local E d x h).isAbort = false := by
  unfold move_construct_from_local; split
  · split <;> rfl
  · rfl

theorem move_assign_isAbort (d s : Nat) (h : Heap α) :
    (move_assign E d s h).isAbort = false := by
  unfold move_assign; split
  · split <;> rfl
  · rfl

theorem move_assign_from_local_isAbort (d : Nat) (x : α) (h : Heap α) :
    (move_assign_from_local E d x h).isAbort = false := by
  unfold move_assign_from_local; split
  · split <;> rfl
  · rfl

theorem destroy_n_isAbort : ∀ (n first : Nat) (h : Heap α),
    (destroy_n n first h).isAbort = false
  | 0, _, _ => rfl
  | n + 1, first, h => by
    simp only [destroy_n, destroy_at]
    cases h.cell first with
    | raw => rfl
    | obj v => exact destroy_n_isAbort n (first + 1) (h.kill first)

theorem destroy_isAbort (first last : Nat) (h : Heap α) :
    (destroy first last h).isAbort = false := by
  unfold destroy
  split
  · rfl
  · exact destroy_n_isAbort _ _ _

theorem relocate_at_isAbort (d s : Nat) (h : Heap α) :
    (relocate_at T E d s h).isAbort = false := by
  unfold relocate_at
  split
  · rfl
  · exact bind_isAbort _ _ (move_construct_at_isAbort _ _ _)
      (fun h1 _ => bind_isAbort _ _ (destroy_at_isAbort _ _) (fun _ _ => rfl))

theorem relocate_loop_isAbort : ∀ (n first output : Nat) (h : Heap α),
    (relocate_loop T E n first output h).isAbort = false
  | 0, _, _, _ => rfl
  | n + 1, first, output, h => by
    have ha := relocate_at_isAbort (T := T) (E := E) output first h
    simp only [relocate_loop]
    cases hr : relocate_at T E output first h with
    | ok h1 a => exact relocate_loop_isAbort n (first + 1) (output + 1) h1
    | throw h1 => rfl
    | abort h1 => rw [hr] at ha; cases ha
    | ub => rfl

theorem relocate_backward_loop_isAbort : ∀ (n last output : Nat) (h : Heap α),
    (relocate_backward_loop T E n last output h).isAbort = false
  | 0, _, _, _ => rfl
  | n + 1, last, output, h => by
    have ha := relocate_at_isAbort (T := T) (E := E) (output - 1) (last - 1) h
    simp only [relocate_backward_loop]
    cases hr : relocate_at T E (output - 1) (last - 1) h with
    | ok h1 a => exact relocate_backward_loop_isAbort n (last - 1) (output - 1) h1
    | throw h1 => rfl
    | abort h1 => rw [hr] at ha; cases ha
    | ub => rfl

theorem relocate_n_loop_isAbort : ∀ (n first output count : Nat) (h : Heap α),
    (relocate_n_loop T E n first output count h).isAbort = false
  | 0, _, _, _, _ => rfl
  | n + 1, first, output, count, h => by
    have ha := relocate_at_isAbort (T := T) (E := E) output first h
    simp only [relocate_n_loop]
    cases hr : relocate_at T E output first h with
    | ok h1 a => exact relocate_n_loop_isAbort n (first + 1) (output + 1) (count + 1) h1
    | throw h1 => rfl
    | abort h1 => rw [hr] at ha; cases ha
    | ub => rfl

theorem uninitialized_relocate_isAbort (first last output : Nat) (h : Heap α) :
    (uninitialized_relocate T E first last output h).isAbort = false := by
  unfold uninitialized_relocate
  split
  · rfl
  · split
    · rfl
    · have hl := relocate_loop_isAbort (T := T) (E := E) (last - first) first output h
      split
      · rfl
      · exact bind_isAbort _ _ (destroy_isAbort _ _ _)
          (fun _ _ => bind_isAbort _ _ (destroy_isAbort _ _ _) (fun _ _ => rfl))
      · rename_i heq
        rw [heq] at hl; cases hl
      · rfl

theorem uninitialized_relocate_backward_isAbort (first last output : Nat) (h : Heap α) :
    (uninitialized_relocate_backward T E first last output h).isAbort = false := by
  unfold uninitialized_relocate_backward
  split
  · rfl
  · split
    · rfl
    · have hl := relocate_backward_loop_isAbort (T := T) (E := E) (last - first) last output h
      split
      · rfl
      · exact bind_isAbort _ _ (destroy_isAbort _ _ _)
          (fun _ _ => bind_isAbort _ _ (destroy_isAbort _ _ _) (fun _ _ => rfl))
      · rename_i heq
        rw [heq] at hl; cases hl
      · rfl

theorem uninitialized_relocate_n_isAbort (first size output : Nat) (h : Heap α) :
    (uninitialized_relocate_n T E first size output h).isAbort = false := by
  unfold uninitialized_relocate_n
  split
  · rfl
  · have hl := relocate_n_loop_isAbort (T := T) (E := E) size first output 0 h
    split
    · rfl
    · exact bind_isAbort _ _ (destroy_n_isAbort _ _ _)
        (fun _ _ => bind_isAbort _ _ (destroy_n_isAbort _ _ _) (fun _ _ => rfl))
    · rename_i heq
      rw [heq] at hl; cases hl
    · rfl

theorem move_loop_isAbort : ∀ (n first d_first : Nat) (h : Heap α),
    (move_loop E n first d_first h).isAbort = false
  | 0, _, _, _ => rfl
  | n + 1, first, d_first, h => by
    have ha := move_assign_isAbort (E := E) d_first first h
    simp only [move_loop]
    cases hr : move_assign E d_first first h with
    | ok h1 a => exact move_loop_isAbort n (first + 1) (d_first + 1) h1
    | throw h1 => rfl
    | abort h1 => rw [hr] at ha; cases ha
    | ub => rfl

theorem std_move_isAbort (first last d_first : Nat) (h : Heap α) :
    (std_move E first last d_first h).isAbort = false := by
  unfold std_move
  split
  · rfl
  · exact move_loop_isAbort _ _ _ _

theorem move_backward_loop_isAbort : ∀ (n last d_last : Nat) (h : Heap α),
    (move_backward_loop E n last d_last h).isAbort = false
  | 0, _, _, _ => rfl
  | n + 1, last, d_last, h => by
    have ha := move_assign_isAbort (E := E) (d_last - 1) (last - 1) h
    simp only [move_backward_loop]
    cases hr : move_assign E (d_last - 1) (last - 1) h with
    | ok h1 a => exact move_backward_loop_isAbort n (last - 1) (d_last - 1) h1
    | throw h1 => rfl
    | abort h1 => rw [hr] at ha; cases ha
    | ub => rfl

theorem std_move_backward_isAbort (first last d_last : Nat) (h : Heap α) :
    (std_move_backward E first last d_last h).isAbort = false := by
  unfold std_move_backward
  split
  · rfl
  · exact move_backward_loop_isAbort _ _ _ _

theorem uninitialized_copy_loop_isAbort : ∀ (n first output count : Nat) (h : Heap α),
    (uninitialized_copy_loop E n first output count h).isAbort = false
  | 0, _, _, _, _ => rfl
  | n + 1, first, output, count, h => by
    have ha := copy_construct_from_isAbort (E := E) output first h
    simp only [uninitialized_copy_loop]
    cases hr : copy_construct_from E output first h with
    | ok h1 a => exact uninitialized_copy_loop_isAbort n (first + 1) (output + 1) (count + 1) h1
    | throw h1 => rfl
    | abort h1 => rw [hr] at ha; cases ha
    | ub => rfl

theorem uninitialized_copy_n_isAbort (first n output : Nat) (h : Heap α) :
    (uninitialized_copy_n E first n output h).isAbort = false := by
  unfold uninitialized_copy_n
  have hl := uninitialized_copy_loop_isAbort (E := E) n first output 0 h
  split
  · rfl
  · exact bind_isAbort _ _ (destroy_n_isAbort _ _ _) (fun _ _ => rfl)
  · rename_i heq
    rw [heq] at hl; cases hl
  · rfl

theorem uninitialized_move_loop_isAbort : ∀ (n first output count : Nat) (h : Heap α),
    (uninitialized_move_loop E n first output count h).isAbort = false
  | 0, _, _, _, _ => rfl
  | n + 1, first, output, count, h => by
    have ha := move_construct_at_isAbort (E := E) output first h
    simp only [uninitialized_move_loop]
    cases hr : move_construct_at E output first h with
    | ok h1 a => exact uninitialized_move_loop_isAbort n (first + 1) (output + 1) (count + 1) h1
    | throw h1 => rfl
    | abort h1 => rw [hr] at ha; cases ha
    | ub => rfl

theorem uninitialized_move_n_isAbort (first n output : Nat) (h : Heap α) :
    (uninitialized_move_n E first n output h).isAbort = false := by
  unfold uninitialized_move_n
  have hl := uninitialized_move_loop_isAbort (E := E) n first output 0 h
  split
  · rfl
  · exact bind_isAbort _ _ (destroy_n_isAbort _ _ _) (fun _ _ => rfl)
  · rename_i heq
    rw [heq] at hl; cases hl
  · rfl

theorem destructor_isAbort (h : Heap α) (v : my_vector) :
    (my_vector.destructor h v).isAbort = false :=
  bind_isAbort _ _ (destroy_n_isAbort _ _ _) (fun _ _ => rfl)

theorem destructor_isThrow (h : Heap α) (v : my_vector) :
    (my_vector.destructor h v).isThrow = false :=
  bind_isThrow _ _ (destroy_n_isThrow _ _ _) (fun _ _ => rfl)

/-! ### Exits of the members -/

/-- The relocating or copying step of `reallocate` holds no assertion. -/
theorem reallocate_body_isAbort (first size output : Nat) (h : Heap α) :
    (if T.is_nothrow_move_constructible = true then
        (uninitialized_relocate_n T E first size output h).bind fun h2 _ => Res.ok h2 ()
      else
        (if T.is_copy_constructible = true then uninitialized_copy_n E first size output h
         else uninitialized_move_n E first size output h).bind
          fun h2 _ => destroy_n size first h2).isAbort = false := by
  split
  · exact bind_isAbort _ _ (uninitialized_relocate_n_isAbort _ _ _ _) (fun _ _ => rfl)
  · refine bind_isAbort _ _ ?_ (fun _ _ => destroy_n_isAbort _ _ _)
    split
    · exact uninitialized_copy_n_isAbort _ _ _ _
    · exact uninitialized_move_n_isAbort _ _ _ _

/-- The members on every exit of `reallocate`: on normal return the size is
kept and the capacity is the requested one, on a failing exit nothing changed. -/
theorem reallocate_sat (c : Nat) (s : Heap α × my_vector) :
    (reallocate T E c s).sat
      (fun s' _ => s'.2.m_size = s.2.m_size ∧ s'.2.m_capacity = c ∧ s.2.m_size ≤ c)
      (fun s' => s'.2 = s.2) := by
  unfold reallocate
  split
  · exact rfl
  · rename_i hge
    split
    · rename_i heq
      exact ⟨rfl, heq.symm, by omega⟩
    · dsimp only
      split
      · rename_i h3 _ _
        have d1 := destructor_isThrow h3
          (my_vector.swap { m_begin := s.2.m_begin, m_size := 0, m_capacity := s.2.m_capacity }
            { m_begin := (malloc s.1 c).2, m_size := s.2.m_size, m_capacity := c }).2
        have d2 := destructor_isAbort h3
          (my_vector.swap { m_begin := s.2.m_begin, m_size := 0, m_capacity := s.2.m_capacity }
            { m_begin := (malloc s.1 c).2, m_size := s.2.m_size, m_capacity := c }).2
        cases hd : my_vector.destructor h3
          (my_vector.swap { m_begin := s.2.m_begin, m_size := 0, m_capacity := s.2.m_capacity }
            { m_begin := (malloc s.1 c).2, m_size := s.2.m_size, m_capacity := c }).2 with
        | ok h4 u => exact ⟨rfl, rfl, by omega⟩
        | throw h4 => rw [hd] at d1; cases d1
        | abort h4 => rw [hd] at d2; cases d2
        | ub => trivial
      · rename_i h3 _
        cases my_vector.destructor h3 { m_begin := (malloc s.1 c).2, m_size := 0, m_capacity := c }
          <;> first | exact rfl | trivial
      · exact rfl
      · trivial

/-- The only assertion of `reallocate` is `newCapacity >= m_size`. -/
theorem reallocate_isAbort (c : Nat) (s : Heap α × my_vector) (hc : s.2.m_size ≤ c) :
    (reallocate T E c s).isAbort = false := by
  unfold reallocate
  have hge : ¬ ¬ (c ≥ s.2.m_size) := by omega
  rw [if_neg hge]
  split
  · rfl
  · dsimp only
    have hb := reallocate_body_isAbort (T := T) (E := E) s.2.m_begin s.2.m_size
      (malloc s.1 c).2 (malloc s.1 c).1
    split
    · rw [lift_isAbort]; exact destructor_isAbort _ _
    · refine bind_isAbort _ _ ?_ (fun _ _ => rfl)
      rw [lift_isAbort]; exact destructor_isAbort _ _
    · rename_i heq
      rw [heq] at hb; cases hb
    · rfl

theorem maybeReallocate_isAbort (s : Heap α × my_vector) :
    (maybeReallocate T E s).isAbort = false := by
  unfold maybeReallocate
  split
  · exact reallocate_isAbort _ _ (by omega)
  · rfl

/-- The members on every exit of `maybeReallocate`: on normal return there is
room for one more element, on a failing exit nothing changed. -/
theorem maybeReallocate_sat (s : Heap α × my_vector) (hinv : s.2.m_size ≤ s.2.m_capacity) :
    (maybeReallocate T E s).sat
      (fun s' _ => s'.2.m_size = s.2.m_size ∧ s'.2.m_size < s'.2.m_capacity)
      (fun s' => s'.2 = s.2) := by
  unfold maybeReallocate
  split
  · rename_i hfull
    refine sat_mono _ _ _ _ _ (reallocate_sat (T := T) (E := E) (s.2.m_capacity + 32) s) ?_
      (fun _ h => h)
    intro s' _ hs
    refine ⟨hs.1, ?_⟩
    rw [hs.2.1, hs.1]
    omega
  · rename_i hfull
    exact ⟨rfl, by omega⟩

theorem sat_lift_bind {ρ τ : Type} (r : Res (Heap α) ρ) (v : my_vector)
    (f : Heap α × my_vector → ρ → Res (Heap α × my_vector) τ)
    (Pok : Heap α × my_vector → τ → Prop) (Pfail : Heap α × my_vector → Prop)
    (h1 : ∀ h, Pfail (h, v)) (h2 : ∀ h a, (f (h, v) a).sat Pok Pfail) :
    ((r.lift fun h => (h, v)).bind f).sat Pok Pfail := by
  cases r with
  | ok s a => exact h2 s a
  | throw s => exact h1 s
  | abort s => exact h1 s
  | ub => trivial

theorem reserve_sat (c : Nat) (s : Heap α × my_vector) (hinv : s.2.m_size ≤ s.2.m_capacity) :
    (reserve T E c s).sat (fun s' _ => s'.2.m_size ≤ s'.2.m_capacity)
      (fun s' => s'.2.m_size ≤ s'.2.m_capacity) := by
  unfold reserve
  split
  · exact hinv
  · refine sat_mono _ _ _ _ _ (reallocate_sat (T := T) (E := E) c s) ?_ ?_
    · intro s' _ hs
      rw [hs.1, hs.2.1]; exact hs.2.2
    · intro s' hs
      rw [hs]; exact hinv

theorem push_back_sat (value : α) (s : Heap α × my_vector)
    (hinv : s.2.m_size ≤ s.2.m_capacity) :
    (push_back T E value s).sat (fun s' _ => s'.2.m_size ≤ s'.2.m_capacity)
      (fun s' => s'.2.m_size ≤ s'.2.m_capacity) := by
  unfold push_back
  refine sat_bind _ _ (fun s' _ => s'.2.m_size < s'.2.m_capacity) _ _
    (sat_mono _ _ _ _ _ (maybeReallocate_sat (T := T) (E := E) s hinv)
      (fun _ _ hs => hs.2) (fun s' hs => by rw [hs]; exact hinv)) ?_
  intro s1 _ hroom
  refine sat_lift_bind _ _ _ _ _ (fun _ => Nat.le_of_lt hroom) ?_
  intro h2 _
  exact hroom

/-- Every exit of `erase` that leaves a state: on normal return the size has
gone down by exactly `last - first` (the subtraction `m_size -= distance` never
wraps around) and the storage pointer and the capacity are unchanged; on an
exception or a failed `assert` the members are unchanged. -/
theorem erase_sat_exact (first last : Nat) (s : Heap α × my_vector) :
    (erase T E first last s).sat
      (fun s' _ => s'.2.m_size + (last - first) = s.2.m_size ∧
        s'.2.m_capacity = s.2.m_capacity ∧ s'.2.m_begin = s.2.m_begin)
      (fun s' => s'.2 = s.2) := by
  unfold erase
  split
  · exact rfl
  · split
    · exact rfl
    · rename_i c1 c2
      dsimp only
      split
      · rename_i c3
        exact ⟨by show s.2.m_size + (last - first) = s.2.m_size; omega, rfl, rfl⟩
      · split
        · trivial
        · rename_i c3 c4
          have hd : last - first ≤ s.2.m_size := by
            have c2' : last ≤ s.2.m_begin + s.2.m_size := Decidable.not_not.mp c2
            have c4' : ¬ (first < s.2.m_begin) := c4
            omega
          have hfin : s.2.m_size - (last - first) + (last - first) = s.2.m_size := by omega
          split
          · refine sat_lift_bind _ _ _ _ _ (fun _ => rfl) ?_
            intro h1 _
            refine sat_lift_bind _ _ _ _ _ (fun _ => rfl) ?_
            intro h2 _
            exact ⟨hfin, rfl, rfl⟩
          · refine sat_lift_bind _ _ _ _ _ (fun _ => rfl) ?_
            intro h1 _
            refine sat_lift_bind _ _ _ _ _ (fun _ => rfl) ?_
            intro h2 _
            exact ⟨hfin, rfl, rfl⟩

theorem erase_sat (first last : Nat) (s : Heap α × my_vector)
    (hinv : s.2.m_size ≤ s.2.m_capacity) :
    (erase T E first last s).sat (fun s' _ => s'.2.m_size ≤ s'.2.m_capacity)
      (fun s' => s'.2.m_size ≤ s'.2.m_capacity) := by
  refine sat_mono _ _ _ _ _ (erase_sat_exact (T := T) (E := E) first last s) ?_ ?_
  · intro s' _ hs
    rw [hs.2.1]
    omega
  · intro s' hs
    rw [hs]
    exact hinv

/-- A non-empty range that starts before `begin()` and passes both `assert`s
is undefined. -/
theorem erase_before_begin (first last : Nat) (s : Heap α × my_vector)
    (h0 : first < s.2.begin) (h1 : first < last) (h2 : last ≤ s.2.end_) :
    erase T E first last s = .ub := by
  unfold erase
  have c1 : ¬ ¬ (first ≤ last) := by omega
  have c2 : ¬ ¬ (last ≤ s.2.end_) := by omega
  have c3 : ¬ (last - first = 0) := by omega
  rw [if_neg c1, if_neg c2]
  dsimp only
  rw [if_neg c3, if_pos h0]

theorem uninitialized_relocate_backward_reversed (first last output : Nat) (h : Heap α)
    (hlt : last < first) : uninitialized_relocate_backward T E first last output h = .ub := by
  unfold uninitialized_relocate_backward
  rw [if_pos (Or.inl hlt)]

theorem std_move_backward_reversed (first last d_last : Nat) (h : Heap α)
    (hlt : last < first) : std_move_backward E first last d_last h = .ub := by
  unfold std_move_backward
  rw [if_pos (Or.inl hlt)]

/-- The tail of `emplace` after `maybeReallocate`, replaceable branch. -/
theorem emplace_replaceable_sat (position : Nat) (tmp : α) (s1 : Heap α × my_vector)
    (hroom : s1.2.m_size < s1.2.m_capacity) (hne : position ≠ s1.2.end_)
    (hge : s1.2.begin ≤ position) :
    ((Res.onThrow
        (((uninitialized_relocate_backward T E position s1.2.end_ (s1.2.end_ + 1) s1.1).lift
            fun h2 => (h2, s1.2)).bind fun s2 _ =>
          Res.onThrow
            (((move_construct_from_local E position tmp s2.1).lift
                fun h3 => (h3, s2.2)).bind fun s3 _ =>
              Res.ok (s3.1, { s3.2 with m_size := s3.2.m_size + 1 }) ())
            (fun s3 =>
              ((destroy (position + 1) (s3.2.end_ + 1) s3.1).lift
                  fun h4 => (h4, s3.2)).bind fun s4 _ =>
              Res.throw s4))
        (fun s5 => Res.throw (s5.1, { s5.2 with m_size := position - s5.2.begin }))).bind
        fun s6 _ => Res.ok s6 position).sat
      (fun s' _ => s'.2.m_size ≤ s'.2.m_capacity) (fun s' => s'.2.m_size ≤ s'.2.m_capacity) := by
  by_cases hpos : s1.2.end_ < position
  · rw [uninitialized_relocate_backward_reversed _ _ _ _ hpos]
    trivial
  · have hidx : position - s1.2.begin < s1.2.m_size := by
      unfold my_vector.end_ at hpos hne
      unfold my_vector.begin at hge ⊢
      omega
    refine sat_bind _ _ (fun s' _ => s'.2.m_size ≤ s'.2.m_capacity) _ _ ?_ (fun _ _ h => h)
    refine sat_onThrow _ _ (fun s' => s'.2 = s1.2) _ _ ?_ ?_ ?_
    · refine sat_lift_bind _ _ _ _ _ (fun _ => rfl) ?_
      intro h2 _
      refine sat_onThrow _ _ (fun s' => s'.2 = s1.2) _ _ ?_ (fun _ h => h) ?_
      · refine sat_lift_bind _ _ _ _ _ (fun _ => rfl) ?_
        intro h3 _
        exact hroom
      · intro s3 hs3
        rw [hs3]
        refine sat_lift_bind _ _ _ _ _ (fun _ => rfl) ?_
        intro h4 _
        exact rfl
    · intro s5 hs5
      rw [hs5]; exact Nat.le_of_lt hroom
    · intro s5 hs5
      show position - s5.2.begin ≤ s5.2.m_capacity
      rw [hs5]
      omega

/-- The tail of `emplace` after `maybeReallocate`, non-replaceable branch. -/
theorem emplace_assign_sat (position : Nat) (tmp : α) (s1 : Heap α × my_vector)
    (hroom : s1.2.m_size < s1.2.m_capacity) :
    (((move_construct_at E s1.2.end_ (s1.2.end_ - 1) s1.1).lift
        fun h2 => (h2, s1.2)).bind fun s2 _ =>
      ((std_move_backward E position
          (my_vector.end_ { s2.2 with m_size := s2.2.m_size + 1 } - 2)
          (my_vector.end_ { s2.2 with m_size := s2.2.m_size + 1 } - 1) s2.1).lift
        fun h3 => (h3, { s2.2 with m_size := s2.2.m_size + 1 })).bind fun s3 _ =>
      ((move_assign_from_local E position tmp s3.1).lift
        fun h4 => (h4, s3.2)).bind fun s4 _ =>
      Res.ok s4 position).sat
      (fun s' _ => s'.2.m_size ≤ s'.2.m_capacity) (fun s' => s'.2.m_size ≤ s'.2.m_capacity) := by
  refine sat_lift_bind _ _ _ _ _ (fun _ => Nat.le_of_lt hroom) ?_
  intro h2 _
  refine sat_lift_bind _ _ _ _ _ (fun _ => hroom) ?_
  intro h3 _
  refine sat_lift_bind _ _ _ _ _ (fun _ => hroom) ?_
  intro h4 _
  exact hroom

theorem emplace_sat (position : Nat) (value : α) (s : Heap α × my_vector)
    (hinv : s.2.m_size ≤ s.2.m_capacity) :
    (emplace T E position value s).sat (fun s' _ => s'.2.m_size ≤ s'.2.m_capacity)
      (fun s' => s'.2.m_size ≤ s'.2.m_capacity) := by
  unfold emplace
  split
  · trivial
  · dsimp only
    refine sat_bind _ _ (fun s' _ => s'.2.m_size < s'.2.m_capacity) _ _
      (sat_mono _ _ _ _ _ (maybeReallocate_sat (T := T) (E := E) s hinv)
        (fun _ _ hs => hs.2) (fun s' hs => by rw [hs]; exact hinv)) ?_
    intro s1 _ hroom
    split
    · refine sat_lift_bind _ _ _ _ _ (fun _ => Nat.le_of_lt hroom) ?_
      intro h2 _
      exact hroom
    · rename_i hne
      split
      · exact Nat.le_of_lt hroom
      · split
        · exact emplace_replaceable_sat _ _ s1 hroom hne (by unfold my_vector.begin; omega)
        · exact emplace_assign_sat _ _ s1 hroom

theorem push_back_loop_sat (element : α) : ∀ (count : Nat) (s : Heap α × my_vector),
    s.2.m_size ≤ s.2.m_capacity →
    (push_back_loop T E element count s).sat (fun s' _ => s'.2.m_size ≤ s'.2.m_capacity)
      (fun s' => s'.2.m_size ≤ s'.2.m_capacity)
  | 0, _, hinv => hinv
  | count + 1, s, hinv => by
    simp only [push_back_loop]
    exact sat_bind _ _ _ _ _ (push_back_sat (T := T) (E := E) element s hinv)
      (fun s1 _ h1 => push_back_loop_sat element count s1 h1)

theorem construct_fill_sat (count : Nat) (element : α) (h : Heap α) :
    (my_vector.construct_fill T E count element h).sat
      (fun _ v => v.m_size ≤ v.m_capacity) (fun _ => True) := by
  unfold my_vector.construct_fill
  dsimp only
  have hx : ((reserve T E count (h, ({} : my_vector))).bind
      fun s1 _ => push_back_loop T E element count s1).sat
      (fun s' _ => s'.2.m_size ≤ s'.2.m_capacity) (fun s' => s'.2.m_size ≤ s'.2.m_capacity) :=
    sat_bind _ _ _ _ _ (reserve_sat (T := T) (E := E) count (h, {}) (Nat.le_refl _))
      (fun s1 _ h1 => push_back_loop_sat element count s1 h1)
  split
  · rename_i s2 _ heq
    rw [heq] at hx
    exact sat_bind _ _ (fun _ _ => True) _ _
      (by cases my_vector.destructor s2.1 (my_vector.swap {} s2.2).2 <;> trivial)
      (fun _ _ _ => hx)
  · rename_i s2 heq
    cases my_vector.destructor s2.1 s2.2 <;> trivial
  · trivial
  · trivial

theorem construct_copy_sat (other : my_vector) (h : Heap α)
    (hinv : other.m_size ≤ other.m_capacity) :
    (my_vector.construct_copy E other h).sat
      (fun _ v => v.m_size ≤ v.m_capacity) (fun _ => True) := by
  unfold my_vector.construct_copy
  dsimp only
  split
  · rename_i h2 _ heq
    exact sat_bind _ _ (fun _ _ => True) _ _
      (by cases my_vector.destructor h2
            (my_vector.swap {}
              { m_begin := (malloc h other.m_capacity).2, m_size := other.m_size,
                m_capacity := other.m_capacity }).2 <;> trivial)
      (fun _ _ _ => hinv)
  · rename_i h2 heq
    cases my_vector.destructor h2
      { m_begin := (malloc h other.m_capacity).2, m_size := 0, m_capacity := other.m_capacity }
      <;> trivial
  · trivial
  · trivial

/-- The assertions of `erase` are its only way to stop at a failed `assert`. -/
theorem erase_isAbort_of_valid (first last : Nat) (s : Heap α × my_vector)
    (h1 : first ≤ last) (h2 : last ≤ s.2.end_) :
    (erase T E first last s).isAbort = false := by
  unfold erase
  have c1 : ¬ ¬ (first ≤ last) := by omega
  have c2 : ¬ ¬ (last ≤ s.2.end_) := by omega
  rw [if_neg c1, if_neg c2]
  dsimp only
  split
  · rfl
  · split
    · rfl
    · split
      · refine bind_isAbort _ _ (by rw [lift_isAbort]; exact destroy_isAbort _ _ _) ?_
        intro s1 _
        refine bind_isAbort _ _
          (by rw [lift_isAbort]; exact uninitialized_relocate_isAbort _ _ _ _) ?_
        intro s2 _
        rfl
      · refine bind_isAbort _ _ (by rw [lift_isAbort]; exact std_move_isAbort _ _ _ _) ?_
        intro s1 _
        refine bind_isAbort _ _ (by rw [lift_isAbort]; exact destroy_isAbort _ _ _) ?_
        intro s2 _
        rfl

theorem erase_abort_of_invalid (first last : Nat) (s : Heap α × my_vector)
    (hbad : last < first ∨ s.2.end_ < last) :
    erase T E first last s = .abort s := by
  unfold erase
  by_cases h1 : first ≤ last
  · have c1 : ¬ ¬ (first ≤ last) := by omega
    have c2 : ¬ (last ≤ s.2.end_) := by omega
    rw [if_neg c1, if_pos c2]
  · rw [if_pos h1]

/-- No exit of `emplace` is a failed `assert`. -/
theorem emplace_isAbort (position : Nat) (value : α) (s : Heap α × my_vector) :
    (emplace T E position value s).isAbort = false := by
  unfold emplace
  split
  · rfl
  · dsimp only
    refine bind_isAbort _ _ (maybeReallocate_isAbort _) ?_
    intro s1 _
    split
    · refine bind_isAbort _ _ (by rw [lift_isAbort]; exact copy_construct_at_isAbort _ _ _) ?_
      intro s2 _
      rfl
    · split
      · rfl
      · split
        · refine bind_isAbort _ _ ?_ (fun _ _ => rfl)
          refine onThrow_isAbort _ _ ?_ (fun _ => rfl)
          refine bind_isAbort _ _
            (by rw [lift_isAbort]; exact uninitialized_relocate_backward_isAbort _ _ _ _) ?_
          intro s2 _
          refine onThrow_isAbort _ _ ?_ ?_
          · refine bind_isAbort _ _
              (by rw [lift_isAbort]; exact move_construct_from_local_isAbort _ _ _) ?_
            intro s3 _
            rfl
          · intro s3
            refine bind_isAbort _ _ (by rw [lift_isAbort]; exact destroy_isAbort _ _ _) ?_
            intro s4 _
            rfl
        · refine bind_isAbort _ _
            (by rw [lift_isAbort]; exact move_construct_at_isAbort _ _ _) ?_
          intro s2 _
          dsimp only
          refine bind_isAbort _ _
            (by rw [lift_isAbort]; exact std_move_backward_isAbort _ _ _ _) ?_
          intro s3 _
          refine bind_isAbort _ _
            (by rw [lift_isAbort]; exact move_assign_from_local_isAbort _ _ _) ?_
          intro s4 _
          rfl

/-! ### A throwing copy during reallocation -/

/-- Copy-constructing the first `k` elements, none of which throws. -/
theorem uninitialized_copy_loop_steps : ∀ (k m first output count : Nat) (h : Heap α),
    (output + k ≤ first ∨ first + k ≤ output) →
    (∀ j, j < k → ∃ v, h.cell (first + j) = Cell.obj v ∧ E.copyThrows v = false) →
    (∀ j, j < k → h.cell (output + j) = Cell.raw) →
    uninitialized_copy_loop E (k + m) first output count h =
      uninitialized_copy_loop E m (first + k) (output + k) (count + k)
        (h.copyRange output first k)
  | 0, m, first, output, count, h, _, _, _ => by simp [copyRange_zero]
  | k + 1, m, first, output, count, h, hd, hsrc, hdst => by
    obtain ⟨v, hv, hq⟩ := hsrc 0 (by omega)
    simp only [Nat.add_zero] at hv
    have hraw := hdst 0 (by omega)
    simp only [Nat.add_zero] at hraw
    have e : k + 1 + m = (k + m) + 1 := by omega
    rw [e]
    simp only [uninitialized_copy_loop, copy_construct_from_ok h hv hraw hq]
    rw [uninitialized_copy_loop_steps k m (first + 1) (output + 1) (count + 1)
      (h.set output (Cell.obj v)) (by omega)
      (by
        intro j hj
        obtain ⟨w, hw, hqw⟩ := hsrc (j + 1) (by omega)
        refine ⟨w, ?_, hqw⟩
        simp only [Heap.set]
        rw [if_neg (by omega), ← hw]; congr 1; omega)
      (by
        intro j hj
        simp only [Heap.set]
        rw [if_neg (by omega)]
        have := hdst (j + 1) (by omega)
        rw [← this]; congr 1; omega),
      copyRange_succ h first output k v hv (by omega)]
    have e1 : first + 1 + k = first + (k + 1) := by omega
    have e2 : output + 1 + k = output + (k + 1) := by omega
    have e3 : count + 1 + k = count + (k + 1) := by omega
    rw [e1, e2, e3]

/-- Closed form of `uninitialized_copy_n` into a disjoint raw destination when
the copy of element `k` throws after `k` successful copies. -/
theorem uninitialized_copy_n_throw_eq (h : Heap α) (first n output k : Nat) (hk : k < n)
    (hd : output + n ≤ first ∨ first + n ≤ output)
    (hsrc : ∀ j, j < n → ∃ v, h.cell (first + j) = Cell.obj v ∧
      (j < k → E.copyThrows v = false) ∧ (j = k → E.copyThrows v = true))
    (hdst : ∀ j, j < n → h.cell (output + j) = Cell.raw) :
    uninitialized_copy_n E first n output h =
      .throw ((h.copyRange output first k).killRange output k) := by
  have e : n = k + ((n - k - 1) + 1) := by omega
  have hp := uninitialized_copy_loop_steps (E := E) k ((n - k - 1) + 1) first output 0 h
    (by omega)
    (by
      intro j hj
      obtain ⟨v, hv, h1, _⟩ := hsrc j (by omega)
      exact ⟨v, hv, h1 hj⟩)
    (fun j hj => hdst j (by omega))
  rw [← e] at hp
  obtain ⟨v, hv, _, hthrow⟩ := hsrc k hk
  have hsk : (h.copyRange output first k).cell (first + k) = Cell.obj v := by
    rw [copyRange_cell_other _ (by omega), hv]
  have hdk : (h.copyRange output first k).cell (output + k) = Cell.raw := by
    rw [copyRange_cell_other _ (by omega)]
    exact hdst k hk
  have hloop : uninitialized_copy_loop E n first output 0 h =
      .throw (h.copyRange output first k, k) := by
    rw [hp]
    simp only [uninitialized_copy_loop, copy_construct_from, copy_construct_at, hsk, hdk,
      hthrow rfl, if_true, Nat.zero_add]
  have hl : ∀ j, j < k → ((h.copyRange output first k).cell (output + j)).isLive = true := by
    intro j hj
    obtain ⟨w, hw, _⟩ := hsrc j (by omega)
    rw [copyRange_cell_dst _ (by omega) (by omega)]
    have e3 : output + j - output + first = first + j := by omega
    rw [e3, hw]; rfl
  simp only [uninitialized_copy_n, hloop, destroy_n_ok _ _ _ hl, Res.bind]

/-- Closed form of a reallocation on the copying path when the copy of element
`k` throws: the copies built so far are destroyed, the fresh block is given back
and the members are unchanged. -/
theorem reallocate_copy_throw_eq (h : Heap α) (v : my_vector) (vals : Nat → α) (c k : Nat)
    (hH : Holds h v vals)
    (hnt : T.is_nothrow_move_constructible = false) (hcp : T.is_copy_constructible = true)
    (hc : v.m_size ≤ c) (hne : c ≠ v.m_capacity) (hm : h.brk + c ≤ h.limit)
    (hk : k < v.m_size)
    (hok : ∀ j, j < k → E.copyThrows (vals j) = false)
    (hbad : E.copyThrows (vals k) = true) :
    reallocate T E c (h, v) =
      .throw (free (((h.grow c).copyRange h.brk v.m_begin k).killRange h.brk k) h.brk, v) := by
  obtain ⟨h1, h2, h3, h4, h5⟩ := hH
  have hcopy := uninitialized_copy_n_throw_eq (E := E) (h.grow c) v.m_begin v.m_size h.brk k hk
    (by omega)
    (fun j hj => ⟨vals j, h3 j hj, fun hjk => hok j hjk, fun e => by rw [e]; exact hbad⟩)
    (fun j _ => h5 _ (by omega))
  unfold reallocate
  have hge : ¬ ¬ (c ≥ v.m_size) := by omega
  simp only [hge, if_false, hne, malloc_ok h c hm, hnt, Bool.false_eq_true, hcp, if_true, hcopy,
    Res.bind]
  simp only [my_vector.destructor, destroy_n, Res.bind, Res.lift]

/-! ### A throwing move assignment in `erase` -/

/-- Move-assigning the first `k` elements left to right when none of these
assignments throws, the condition being on the very target each source meets. -/
theorem move_loop_steps_exact : ∀ (k m first d_first : Nat) (h : Heap α),
    (d_first < first ∨ first + k ≤ d_first) →
    (∀ j, j < k → ∃ a v,
      (Heap.assignRange E h d_first first j).cell (d_first + j) = Cell.obj a ∧
      h.cell (first + j) = Cell.obj v ∧ E.assignThrows a v = false) →
    move_loop E (k + m) first d_first h =
      move_loop E m (first + k) (d_first + k) (Heap.assignRange E h d_first first k)
  | 0, m, first, d_first, h, _, _ => by simp [assignRange_zero]
  | k + 1, m, first, d_first, h, hd, hstep => by
    obtain ⟨a, v, ha, hv, hq⟩ := hstep 0 (by omega)
    rw [assignRange_zero] at ha
    simp only [Nat.add_zero] at ha hv
    have e : k + 1 + m = (k + m) + 1 := by omega
    rw [e]
    simp only [move_loop, move_assign_ok h ha hv hq]
    rw [move_loop_steps_exact k m (first + 1) (d_first + 1) _ (by omega)
        (by
          intro j hj
          obtain ⟨b, w, hb, hw, hqw⟩ := hstep (j + 1) (by omega)
          refine ⟨b, w, ?_, ?_, hqw⟩
          · rw [assignRange_succ_fwd h first d_first j v hv (by omega), ← hb]
            congr 1; omega
          · simp only [Heap.set]
            rw [if_neg (by omega), if_neg (by omega), ← hw]; congr 1; omega),
      assignRange_succ_fwd h first d_first k v hv hd]
    have e1 : first + 1 + k = first + (k + 1) := by omega
    have e2 : d_first + 1 + k = d_first + (k + 1) := by omega
    rw [e1, e2]

/-- The value the `i`-th assignment of the shift of `erase` finds in its target:
an element of the erased range, or an element of the tail already moved from. -/
theorem erase_target_cell (h : Heap α) (v : my_vector) (vals : Nat → α) (f l i : Nat)
    (hH : Holds h v vals) (hfl : f < l) (hi : l + i < v.m_size) :
    (Heap.assignRange E h (v.m_begin + f) (v.m_begin + l) i).cell (v.m_begin + f + i) =
      Cell.obj (if f + i < l then vals (f + i) else E.movedFrom (vals (f + i))) := by
  have hval : h.cell (v.m_begin + f + i) = Cell.obj (vals (f + i)) := by
    have := hH.2.2.1 (f + i) (by omega)
    rw [← this]; congr 1; omega
  by_cases hc : f + i < l
  · rw [if_pos hc, assignRange_cell_other _ (by omega) (by omega), hval]
  · rw [if_neg hc, assignRange_cell_src _ (by omega) (by omega) (by omega) hval]

/-- Closed form of the assignment-based branch of `erase` when the `j`-th move
assignment throws after `j` successful ones: the exception leaves `erase` with
the members unchanged and the first `j` assignments done. -/
theorem erase_assign_throw_eq (h : Heap α) (v : my_vector) (vals : Nat → α) (f l j : Nat)
    (hH : Holds h v vals) (hfl : f < l) (hl : l ≤ v.m_size)
    (hb : (T.is_replaceable && T.is_nothrow_move_constructible) = false)
    (hj : l + j < v.m_size)
    (hok : ∀ i, i < j → E.assignThrows
      (if f + i < l then vals (f + i) else E.movedFrom (vals (f + i))) (vals (l + i)) = false)
    (hbad : E.assignThrows
      (if f + j < l then vals (f + j) else E.movedFrom (vals (f + j))) (vals (l + j)) = true) :
    erase T E (v.m_begin + f) (v.m_begin + l) (h, v) =
      .throw (Heap.assignRange E h (v.m_begin + f) (v.m_begin + l) j, v) := by
  have h3 := hH.2.2.1
  have e1 : v.m_begin + l - (v.m_begin + f) = l - f := by omega
  have e2 : v.m_begin + v.m_size - (v.m_begin + l) = v.m_size - l := by omega
  have e : v.m_size - l = j + ((v.m_size - l - j - 1) + 1) := by omega
  have hmv := move_loop_steps_exact (E := E) j ((v.m_size - l - j - 1) + 1) (v.m_begin + l)
    (v.m_begin + f) h (by omega)
    (by
      intro i hi
      refine ⟨_, vals (l + i), erase_target_cell h v vals f l i hH hfl (by omega), ?_, hok i hi⟩
      have := h3 (l + i) (by omega)
      rw [← this]; congr 1; omega)
  rw [← e] at hmv
  have hsrc : (Heap.assignRange E h (v.m_begin + f) (v.m_begin + l) j).cell
      (v.m_begin + l + j) = Cell.obj (vals (l + j)) := by
    rw [assignRange_cell_other _ (by omega) (by omega)]
    have := h3 (l + j) hj
    rw [← this]; congr 1; omega
  have hloop : move_loop E (v.m_size - l) (v.m_begin + l) (v.m_begin + f) h =
      .throw (Heap.assignRange E h (v.m_begin + f) (v.m_begin + l) j) := by
    rw [hmv]
    simp only [move_loop, move_assign, erase_target_cell h v vals f l j hH hfl hj, hsrc, hbad,
      if_true]
  unfold erase
  have c1 : ¬ ¬ (v.m_begin + f ≤ v.m_begin + l) := by omega
  have c2 : ¬ ¬ (v.m_begin + l ≤ v.m_begin + v.m_size) := by omega
  have c3 : ¬ (l - f = 0) := by omega
  have c4 : ¬ (v.m_begin + v.m_size < v.m_begin + l) := by omega
  have cb : ¬ (v.m_begin + f < v.m_begin) := by omega
  simp only [my_vector.end_, my_vector.begin, c1, c2, if_false, e1, c3, cb, hb,
    Bool.false_eq_true, std_move, c4, e2, hloop, Res.lift, Res.bind]

/-! ### A throwing construction into the gap of `emplace` -/

/-- Opening the gap of `emplace` succeeds on either relocation path when no
element move throws. -/
theorem emplace_gap_eq (h1 : Heap α) (v1 : my_vector) (vals : Nat → α) (i : Nat)
    (hH : Holds h1 v1 vals) (hroom : v1.m_size < v1.m_capacity) (hi : i < v1.m_size)
    (hq : ∀ k, k < v1.m_size → E.moveThrows (vals k) = false) :
    ∃ r, uninitialized_relocate_backward T E (v1.m_begin + i) (v1.m_begin + v1.m_size)
        (v1.m_begin + v1.m_size + 1) h1 =
      .ok (memmove h1 (v1.m_begin + i + 1) (v1.m_begin + i) (v1.m_size - i)) r := by
  obtain ⟨g1, g2, g3, g4, g5⟩ := hH
  have e1 : v1.m_begin + v1.m_size - (v1.m_begin + i) = v1.m_size - i := by omega
  have e2 : v1.m_begin + v1.m_size + 1 - (v1.m_size - i) = v1.m_begin + i + 1 := by omega
  cases ht : T.is_trivially_relocatable with
  | true =>
    have := uninitialized_relocate_backward_fast_eq (T := T) (E := E) h1 (v1.m_begin + i)
      (v1.m_begin + v1.m_size) (v1.m_begin + v1.m_size + 1) ht (by omega) (by omega)
    rw [e1, e2] at this
    exact ⟨_, this⟩
  | false =>
    have := uninitialized_relocate_backward_slow_eq (T := T) (E := E) h1 (v1.m_begin + i)
      (v1.m_begin + v1.m_size) (v1.m_begin + v1.m_size + 1) ht (by omega) (by omega)
      (by omega)
      (by
        intro j hj
        refine ⟨vals (i + j), ?_, hq (i + j) (by omega)⟩
        have := g3 (i + j) (by omega)
        rw [← this]; congr 1; omega)
      (by
        intro j hj hn
        have := g4 v1.m_size hroom (Nat.le_refl _)
        rw [← this]; congr 1; omega)
    rw [e1, e2] at this
    exact ⟨_, this⟩

/-- Closed form of `emplace` before the end, replaceable branch, when the gap
is opened and move-constructing the temporary into it throws. -/
theorem emplace_construct_throw_eq (h h1 : Heap α) (v v1 : my_vector) (vals : Nat → α)
    (value : α) (i : Nat)
    (hmr : maybeReallocate T E (h, v) = .ok (h1, v1) ())
    (hH : Holds h1 v1 vals) (hs : v1.m_size = v.m_size) (hroom : v1.m_size < v1.m_capacity)
    (hq : ∀ k, k < v.m_size → E.moveThrows (vals k) = false)
    (hcopy : E.copyThrows value = false) (hmove : E.moveThrows value = true)
    (hi : i < v.m_size) (hrep : T.is_replaceable = true) :
    emplace T E (v.m_begin + i) value (h, v) =
      .throw ((memmove h1 (v1.m_begin + i + 1) (v1.m_begin + i) (v1.m_size - i)).killRange
            (v1.m_begin + i + 1) (v1.m_size - i),
          { m_begin := v1.m_begin, m_size := i, m_capacity := v1.m_capacity }) := by
  obtain ⟨r, hrel⟩ := emplace_gap_eq (T := T) (E := E) h1 v1 vals i hH hroom (by omega)
    (fun k hk => hq k (by omega))
  obtain ⟨g1, g2, g3, g4, g5⟩ := hH
  have c0 : ¬ (v.m_begin + i < v.m_begin) := by omega
  have e0 : v.m_begin + i - v.m_begin = i := by omega
  have c1 : ¬ (v1.m_begin + i = v1.m_begin + v1.m_size) := by omega
  have e3 : v1.m_begin + i - v1.m_begin = i := by omega
  have hraw : (memmove h1 (v1.m_begin + i + 1) (v1.m_begin + i) (v1.m_size - i)).cell
      (v1.m_begin + i) = Cell.raw := memmove_cell_src h1 (by omega) (by omega) (by omega)
  have hd := destroy_ok (v1.m_begin + i + 1) (v1.m_begin + v1.m_size + 1)
    (memmove h1 (v1.m_begin + i + 1) (v1.m_begin + i) (v1.m_size - i)) (by omega) (by
    intro k hk
    rw [memmove_cell_dst _ (by omega) (by omega)]
    have := g3 (i + k) (by omega)
    have e : v1.m_begin + i + 1 + k - (v1.m_begin + i + 1) + (v1.m_begin + i) =
        v1.m_begin + (i + k) := by omega
    rw [e, this]; rfl)
  have e4 : v1.m_begin + v1.m_size + 1 - (v1.m_begin + i + 1) = v1.m_size - i := by omega
  rw [e4] at hd
  unfold emplace
  simp only [my_vector.begin, my_vector.end_, c0, if_false, hmr, Res.bind, e0, c1, hcopy,
    Bool.false_eq_true, hrep, if_true, hrel, Res.lift, move_construct_from_local, hraw, hmove,
    Res.onThrow, hd, e3]

/-- The sequence left by `emplace` when the construction into the gap throws:
the first `i` elements, and nothing else alive in the block. -/
theorem emplace_construct_throw_holds (h1 : Heap α) (v1 : my_vector) (vals : Nat → α) (i : Nat)
    (hH : Holds h1 v1 vals) (hroom : v1.m_size < v1.m_capacity) (hi : i < v1.m_size) :
    Holds ((memmove h1 (v1.m_begin + i + 1) (v1.m_begin + i) (v1.m_size - i)).killRange
        (v1.m_begin + i + 1) (v1.m_size - i))
      { m_begin := v1.m_begin, m_size := i, m_capacity := v1.m_capacity } vals := by
  obtain ⟨g1, g2, g3, g4, g5⟩ := hH
  refine ⟨?_, g2, ?_, ?_, ?_⟩
  · show i ≤ v1.m_capacity
    omega
  · intro k hk
    have hk0 : k < i := hk
    dsimp only
    rw [killRange_cell_out _ (by omega), memmove_cell_other _ (by omega) (by omega)]
    exact g3 k (by omega)
  · intro k hk1 hk2
    have hk3 : k < v1.m_capacity := hk1
    have hk4 : i ≤ k := hk2
    dsimp only
    by_cases hc : k = i
    · rw [killRange_cell_out _ (by omega), memmove_cell_src _ (by omega) (by omega) (by omega)]
    · by_cases hc2 : k ≤ v1.m_size
      · rw [killRange_cell_in _ (by omega) (by omega)]
      · rw [killRange_cell_out _ (by omega), memmove_cell_other _ (by omega) (by omega)]
        exact g4 k hk3 (by omega)
  · intro a ha
    have ha0 : h1.brk ≤ a := ha
    rw [killRange_cell_out _ (by omega), memmove_cell_other _ (by omega) (by omega)]
    exact g5 a ha0

/-! ### Independence of two sequences -/

/-- A sequence keeps its state when the heap changes only inside the block of
another sequence and in storage handed out later. -/
theorem holds_of_frame (h h' : Heap α) (other w : my_vector) (vals : Nat → α)
    (hH : Holds h other vals) (hbrk : h.brk ≤ h'.brk)
    (hframe : ∀ a, a < h.brk → ¬ (w.m_begin ≤ a ∧ a < w.m_begin + w.m_capacity) →
      h'.cell a = h.cell a)
    (hdisj : other.m_begin + other.m_capacity ≤ w.m_begin ∨
      w.m_begin + w.m_capacity ≤ other.m_begin)
    (hfresh : ∀ a, h'.brk ≤ a → h'.cell a = Cell.raw) :
    Holds h' other vals := by
  obtain ⟨h1, h2, h3, h4, h5⟩ := hH
  refine ⟨h1, by omega, ?_, ?_, hfresh⟩
  · intro k hk
    rw [hframe _ (by omega) (by omega)]
    exact h3 k hk
  · intro k hk1 hk2
    rw [hframe _ (by omega) (by omega)]
    exact h4 k hk1 hk2

/-- Closed form of `maybeReallocate` when nothing throws and the provider has
room. -/
theorem maybeReallocate_eq (h : Heap α) (v : my_vector) (vals : Nat → α)
    (hH : Holds h v vals) (hq : ∀ k, k < v.m_size → E.quiet (vals k))
    (hm : v.m_size = v.m_capacity → h.brk + (v.m_capacity + 32) ≤ h.limit) :
    maybeReallocate T E (h, v) =
      .ok (if v.m_size = v.m_capacity then
            (free (memmove (h.grow (v.m_capacity + 32)) h.brk v.m_begin v.m_size) v.m_begin,
             { m_begin := h.brk, m_size := v.m_size, m_capacity := v.m_capacity + 32 })
          else (h, v)) () := by
  unfold maybeReallocate
  by_cases hfull : v.m_size = v.m_capacity
  · have hfull0 : (h, v).2.m_size = (h, v).2.m_capacity := hfull
    rw [if_pos hfull0, if_pos hfull]
    exact reallocate_ok_eq h v vals (v.m_capacity + 32) hH hq (by omega) (by omega) (hm hfull)
  · have hfull0 : ¬ (h, v).2.m_size = (h, v).2.m_capacity := hfull
    rw [if_neg hfull0, if_neg hfull]

/-- What `maybeReallocate` leaves alone: the heap outside the block of the
sequence, the new block being the old one or a fresh one. -/
theorem maybeReallocate_frame (h : Heap α) (v : my_vector) (vals : Nat → α)
    (hH : Holds h v vals) (hq : ∀ k, k < v.m_size → E.quiet (vals k))
    (hm : v.m_size = v.m_capacity → h.brk + (v.m_capacity + 32) ≤ h.limit) :
    ∃ h1 v1, maybeReallocate T E (h, v) = .ok (h1, v1) () ∧ Holds h1 v1 vals ∧
      v1.m_size = v.m_size ∧ v1.m_size < v1.m_capacity ∧
      h.brk ≤ h1.brk ∧
      (∀ a, a < h.brk → ¬ (v.m_begin ≤ a ∧ a < v.m_begin + v.m_capacity) →
        h1.cell a = h.cell a ∧ ¬ (v1.m_begin ≤ a ∧ a < v1.m_begin + v1.m_capacity)) := by
  have heq := maybeReallocate_eq (T := T) (E := E) h v vals hH hq hm
  by_cases hfull : v.m_size = v.m_capacity
  · rw [if_pos hfull] at heq
    refine ⟨_, _, heq, reallocate_holds h v vals (v.m_capacity + 32) hH (by omega), rfl, ?_, ?_,
      ?_⟩
    · show v.m_size < v.m_capacity + 32
      omega
    · rw [free_brk]
      show h.brk ≤ h.brk + (v.m_capacity + 32)
      omega
    · intro a ha hout
      constructor
      · have hs := hH.1
        rw [free_cell, memmove_cell_other _ (by omega) (by omega), grow_cell]
      · show ¬ (h.brk ≤ a ∧ a < h.brk + (v.m_capacity + 32))
        omega
  · rw [if_neg hfull] at heq
    have hs := hH.1
    exact ⟨h, v, heq, hH, rfl, by omega, Nat.le_refl _, fun a _ hout => ⟨rfl, hout⟩⟩

/-- Closed form of the copy constructor when no copy throws and the provider
has room. -/
theorem construct_copy_eq (h : Heap α) (other : my_vector) (vals : Nat → α)
    (hH : Holds h other vals) (hq : ∀ k, k < other.m_size → E.copyThrows (vals k) = false)
    (hm : h.brk + other.m_capacity ≤ h.limit) :
    my_vector.construct_copy E other h =
      .ok ((h.grow other.m_capacity).copyRange h.brk other.m_begin other.m_size)
        { m_begin := h.brk, m_size := other.m_size, m_capacity := other.m_capacity } := by
  obtain ⟨h1, h2, h3, h4, h5⟩ := hH
  have hl := uninitialized_copy_loop_ok (E := E) other.m_size other.m_begin h.brk 0
    (h.grow other.m_capacity) (by omega)
    (fun j hj => ⟨vals j, h3 j hj, hq j hj⟩)
    (fun j _ => h5 _ (by omega))
  unfold my_vector.construct_copy
  simp only [malloc_ok h other.m_capacity hm, uninitialized_copy_n, hl]
  simp only [my_vector.swap, my_vector.destructor, destroy_n, Res.bind, free, if_true]

/-- After the copy constructor both sequences hold the values, in disjoint
blocks. -/
theorem construct_copy_holds (h : Heap α) (other : my_vector) (vals : Nat → α)
    (hH : Holds h other vals) :
    Holds ((h.grow other.m_capacity).copyRange h.brk other.m_begin other.m_size)
      { m_begin := h.brk, m_size := other.m_size, m_capacity := other.m_capacity } vals ∧
    Holds ((h.grow other.m_capacity).copyRange h.brk other.m_begin other.m_size) other vals := by
  obtain ⟨h1, h2, h3, h4, h5⟩ := hH
  constructor
  · refine ⟨h1, Nat.le_refl _, ?_, ?_, ?_⟩
    · intro k hk
      have hk0 : k < other.m_size := hk
      show (Heap.copyRange _ _ _ _).cell (h.brk + k) = _
      rw [copyRange_cell_dst _ (by omega) (by omega), grow_cell]
      have e : h.brk + k - h.brk + other.m_begin = other.m_begin + k := by omega
      rw [e]; exact h3 k hk0
    · intro k hk1 hk2
      have hk3 : other.m_size ≤ k := hk2
      show (Heap.copyRange _ _ _ _).cell (h.brk + k) = _
      rw [copyRange_cell_other _ (by omega), grow_cell]
      exact h5 _ (by omega)
    · intro a ha
      have ha0 : h.brk + other.m_capacity ≤ a := ha
      rw [copyRange_cell_other _ (by omega), grow_cell]
      exact h5 _ (by omega)
  · refine ⟨h1, ?_, ?_, ?_, ?_⟩
    · show other.m_begin + other.m_capacity ≤ h.brk + other.m_capacity
      omega
    · intro k hk
      rw [copyRange_cell_other _ (by omega), grow_cell]
      exact h3 k hk
    · intro k hk1 hk2
      rw [copyRange_cell_other _ (by omega), grow_cell]
      exact h4 k hk1 hk2
    · intro a ha
      have ha0 : h.brk + other.m_capacity ≤ a := ha
      rw [copyRange_cell_other _ (by omega), grow_cell]
      exact h5 _ (by omega)

/-- A successful `erase` touches the heap only inside the block of the sequence. -/
theorem erase_frame (h : Heap α) (v : my_vector) (vals : Nat → α) (f l : Nat)
    (hH : Holds h v vals) (hq : ∀ k, k < v.m_size → E.quiet (vals k))
    (hfl : f ≤ l) (hl : l ≤ v.m_size) :
    ∃ h' v' r, erase T E (v.m_begin + f) (v.m_begin + l) (h, v) = .ok (h', v') r ∧
      h.brk ≤ h'.brk ∧
      (∀ a, a < h.brk → ¬ (v.m_begin ≤ a ∧ a < v.m_begin + v.m_capacity) →
        h'.cell a = h.cell a) ∧
      (∀ a, h'.brk ≤ a → h'.cell a = Cell.raw) := by
  have hs := hH.1
  by_cases hlt : f < l
  · cases hb : (T.is_replaceable && T.is_nothrow_move_constructible) with
    | true =>
      have hh := erase_reloc_holds h v vals f l hH hlt hl
      refine ⟨_, _, _, erase_reloc_eq h v vals f l hH hq hlt hl hb, Nat.le_refl _, ?_,
        hh.2.2.2.2⟩
      intro a _ hout
      rw [memmove_cell_other _ (by omega) (by omega), killRange_cell_out _ (by omega)]
    | false =>
      have hh := erase_assign_holds (E := E) h v vals f l hH hlt hl
      refine ⟨_, _, _, erase_assign_eq h v vals f l hH hq hlt hl hb, Nat.le_refl _, ?_,
        hh.2.2.2.2⟩
      intro a _ hout
      rw [killRange_cell_out _ (by omega), assignRange_cell_other _ (by omega) (by omega)]
  · have hfl0 : f = l := by omega
    subst hfl0
    refine ⟨h, v, v.m_begin + f, ?_, Nat.le_refl _, fun _ _ _ => rfl, hH.2.2.2.2⟩
    unfold erase
    have c1 : ¬ ¬ (v.m_begin + f ≤ v.m_begin + f) := by omega
    have c2 : ¬ ¬ (v.m_begin + f ≤ (h, v).2.end_) := by
      show ¬ ¬ (v.m_begin + f ≤ v.m_begin + v.m_size)
      omega
    have c3 : v.m_begin + f - (v.m_begin + f) = 0 := by omega
    simp only [c1, c2, if_false, c3, if_true]

/-- A successful `reserve` touches the heap only inside the block of the
sequence and in storage handed out by the call. -/
theorem reserve_frame (h : Heap α) (v : my_vector) (vals : Nat → α) (c : Nat)
    (hH : Holds h v vals) (hq : ∀ k, k < v.m_size → E.quiet (vals k))
    (hm : h.brk + c ≤ h.limit) :
    ∃ h' v', reserve T E c (h, v) = .ok (h', v') () ∧
      h.brk ≤ h'.brk ∧
      (∀ a, a < h.brk → ¬ (v.m_begin ≤ a ∧ a < v.m_begin + v.m_capacity) →
        h'.cell a = h.cell a) ∧
      (∀ a, h'.brk ≤ a → h'.cell a = Cell.raw) := by
  have hs := hH.1
  unfold reserve
  by_cases h1 : c < v.m_size
  · have h10 : c < (h, v).2.m_size := h1
    rw [if_pos h10]
    exact ⟨h, v, rfl, Nat.le_refl _, fun _ _ _ => rfl, hH.2.2.2.2⟩
  · have h10 : ¬ c < (h, v).2.m_size := h1
    rw [if_neg h10]
    by_cases h2 : c = v.m_capacity
    · have hge : ¬ ¬ (c ≥ (h, v).2.m_size) := by
        show ¬ ¬ (c ≥ v.m_size)
        omega
      have h20 : c = (h, v).2.m_capacity := h2
      refine ⟨h, v, ?_, Nat.le_refl _, fun _ _ _ => rfl, hH.2.2.2.2⟩
      unfold reallocate
      rw [if_neg hge, if_pos h20]
    · have hr := reallocate_holds h v vals c hH (by omega)
      refine ⟨_, _, reallocate_ok_eq h v vals c hH hq (by omega) h2 hm, ?_, ?_, hr.2.2.2.2⟩
      · rw [free_brk]
        show h.brk ≤ h.brk + c
        omega
      · intro a ha hout
        rw [free_cell, memmove_cell_other _ (by omega) (by omega), grow_cell]

/-- A successful `push_back` touches the heap only inside the block of the
sequence and in storage handed out by the call. -/
theorem push_back_frame (h : Heap α) (v : my_vector) (vals : Nat → α) (value : α)
    (hH : Holds h v vals) (hq : ∀ k, k < v.m_size → E.quiet (vals k))
    (hv : E.quiet value)
    (hm : v.m_size = v.m_capacity → h.brk + (v.m_capacity + 32) ≤ h.limit) :
    ∃ h' v', push_back T E value (h, v) = .ok (h', v') () ∧
      h.brk ≤ h'.brk ∧
      (∀ a, a < h.brk → ¬ (v.m_begin ≤ a ∧ a < v.m_begin + v.m_capacity) →
        h'.cell a = h.cell a) ∧
      (∀ a, h'.brk ≤ a → h'.cell a = Cell.raw) := by
  obtain ⟨h1, v1, hr, hH1, hs1, hroom, hbrk, hfr⟩ :=
    maybeReallocate_frame (T := T) (E := E) h v vals hH hq hm
  have hraw : h1.cell (v1.m_begin + v1.m_size) = Cell.raw :=
    hH1.2.2.2.1 v1.m_size hroom (Nat.le_refl _)
  have hpush := holds_push h1 v1 vals value hH1 hroom
  refine ⟨h1.set (v1.m_begin + v1.m_size) (Cell.obj value),
    { m_begin := v1.m_begin, m_size := v1.m_size + 1, m_capacity := v1.m_capacity }, ?_, hbrk,
    ?_, hpush.2.2.2.2⟩
  · simp [push_back, hr, Res.bind, Res.lift, copy_construct_at, hraw, hv.2.1]
  · intro a ha hout
    obtain ⟨f1, f2⟩ := hfr a ha hout
    show (if a = v1.m_begin + v1.m_size then Cell.obj value else h1.cell a) = _
    rw [if_neg (by omega), f1]

/-- A successful `emplace` touches the heap only inside the block of the
sequence and in storage handed out by the call. -/
theorem emplace_frame (h : Heap α) (v : my_vector) (vals : Nat → α) (value : α) (i : Nat)
    (hH : Holds h v vals) (hq : ∀ k, k < v.m_size → E.quiet (vals k))
    (hv : E.quiet value) (hi : i ≤ v.m_size)
    (hm : v.m_size = v.m_capacity → h.brk + (v.m_capacity + 32) ≤ h.limit) :
    ∃ h' v' r, emplace T E (v.m_begin + i) value (h, v) = .ok (h', v') r ∧
      h.brk ≤ h'.brk ∧
      (∀ a, a < h.brk → ¬ (v.m_begin ≤ a ∧ a < v.m_begin + v.m_capacity) →
        h'.cell a = h.cell a) ∧
      (∀ a, h'.brk ≤ a → h'.cell a = Cell.raw) := by
  obtain ⟨h1, v1, hr, hH1, hs1, hroom, hbrk, hfr⟩ :=
    maybeReallocate_frame (T := T) (E := E) h v vals hH hq hm
  by_cases hend : i = v.m_size
  · subst hend
    have heq := emplace_end_eq h h1 v v1 vals value hr hH1 hs1 hroom hv
    have hh := holds_push h1 v1 vals value hH1 hroom
    refine ⟨_, _, _, heq, hbrk, ?_, hh.2.2.2.2⟩
    intro a ha hout
    obtain ⟨f1, f2⟩ := hfr a ha hout
    show (if a = v1.m_begin + v1.m_size then Cell.obj value else h1.cell a) = _
    rw [if_neg (by omega), f1]
  · have hlt : i < v.m_size := by omega
    cases hrep : T.is_replaceable with
    | true =>
      have heq := emplace_replaceable_eq h h1 v v1 vals value i hr hH1 hs1 hroom hq hv hlt hrep
      have hh := emplace_replaceable_holds h1 v1 vals value i hH1 hroom (by omega)
      refine ⟨_, _, _, heq, hbrk, ?_, hh.2.2.2.2⟩
      intro a ha hout
      obtain ⟨f1, f2⟩ := hfr a ha hout
      show (if a = v1.m_begin + i then Cell.obj value else
        (memmove h1 (v1.m_begin + i + 1) (v1.m_begin + i) (v1.m_size - i)).cell a) = _
      rw [if_neg (by omega), memmove_cell_other _ (by omega) (by omega), f1]
    | false =>
      have heq := emplace_assign_eq h h1 v v1 vals value i hr hH1 hs1 hroom hq hv hlt hrep
      have hh := emplace_assign_holds (E := E) h1 v1 vals value i hH1 hroom (by omega)
      refine ⟨_, _, _, heq, ?_, ?_, hh.2.2.2.2⟩
      · exact hbrk
      · intro a ha hout
        obtain ⟨f1, f2⟩ := hfr a ha hout
        show (if a = v1.m_begin + i then Cell.obj value else
          (Heap.assignRange E
            ((h1.set (v1.m_begin + v1.m_size) (Cell.obj (vals (v1.m_size - 1)))).set
              (v1.m_begin + v1.m_size - 1) (Cell.obj (E.movedFrom (vals (v1.m_size - 1)))))
            (v1.m_begin + i + 1) (v1.m_begin + i) (v1.m_size - 1 - i)).cell a) = _
        rw [if_neg (by omega), assignRange_cell_other _ (by omega) (by omega)]
        show (if a = v1.m_begin + v1.m_size - 1 then _ else
          if a = v1.m_begin + v1.m_size then _ else h1.cell a) = _
        rw [if_neg (by omega), if_neg (by omega), f1]

/-! ### Unchecked position and unchecked allocation -/

/-- With a position past `end()`, once the growth step and the temporary have
succeeded, `emplace` runs the shift of the tail on a reversed range. -/
theorem emplace_out_of_range_ub (h : Heap α) (v : my_vector) (vals : Nat → α) (value : α)
    (i : Nat)
    (hH : Holds h v vals) (hq : ∀ k, k < v.m_size → E.quiet (vals k))
    (hcopy : E.copyThrows value = false) (hi : v.m_size < i)
    (hm : v.m_size = v.m_capacity → h.brk + (v.m_capacity + 32) ≤ h.limit)
    (hcase : T.is_replaceable = true ∨ 0 < v.m_size) :
    emplace T E (v.m_begin + i) value (h, v) = .ub := by
  obtain ⟨h1, v1, hr, hH1, hs1, hroom, _, _, _⟩ :=
    maybeReallocate_ok (T := T) (E := E) h v vals hH hq hm
  obtain ⟨g1, g2, g3, g4, g5⟩ := hH1
  have c0 : ¬ (v.m_begin + i < v.m_begin) := by omega
  have e0 : v.m_begin + i - v.m_begin = i := by omega
  have c1 : ¬ (v1.m_begin + i = v1.m_begin + v1.m_size) := by omega
  cases hrep : T.is_replaceable with
  | true =>
    have hrev := uninitialized_relocate_backward_reversed (T := T) (E := E) (v1.m_begin + i)
      (v1.m_begin + v1.m_size) (v1.m_begin + v1.m_size + 1) h1 (by omega)
    unfold emplace
    simp only [my_vector.begin, my_vector.end_, c0, if_false, hr, Res.bind, e0, c1, hcopy,
      Bool.false_eq_true, hrep, if_true, hrev, Res.lift, Res.onThrow]
  | false =>
    have hpos : 0 < v.m_size := by
      cases hcase with
      | inl hc => rw [hrep] at hc; cases hc
      | inr hc => exact hc
    have hsrc0 : h1.cell (v1.m_begin + v1.m_size - 1) = Cell.obj (vals (v1.m_size - 1)) := by
      have := g3 (v1.m_size - 1) (by omega)
      rw [← this]; congr 1; omega
    have hdst0 : h1.cell (v1.m_begin + v1.m_size) = Cell.raw := g4 v1.m_size hroom (Nat.le_refl _)
    have hmc := move_construct_at_ok (E := E) h1 hsrc0 hdst0 (hq (v1.m_size - 1) (by omega)).1
    have hrev : ∀ g : Heap α, std_move_backward E (v1.m_begin + i)
        (v1.m_begin + (v1.m_size + 1) - 2) (v1.m_begin + (v1.m_size + 1) - 1) g = .ub :=
      fun g => std_move_backward_reversed _ _ _ g (by omega)
    unfold emplace
    simp only [my_vector.begin, my_vector.end_, c0, if_false, hr, Res.bind, e0, c1, hcopy,
      Bool.false_eq_true, hrep, hmc, Res.lift, hrev]

theorem malloc_fail (h : Heap α) (n : Nat) (hm : ¬ (h.brk + n ≤ h.limit)) :
    malloc h n = (h, 0) := by
  simp [malloc, hm]

/-- Relocating, copying or moving no element does nothing, on every path. -/
theorem reallocate_body_empty (first output : Nat) (h : Heap α) :
    (if T.is_nothrow_move_constructible = true then
        (uninitialized_relocate_n T E first 0 output h).bind fun h2 _ => Res.ok h2 ()
      else
        (if T.is_copy_constructible = true then uninitialized_copy_n E first 0 output h
         else uninitialized_move_n E first 0 output h).bind
          fun h2 _ => destroy_n 0 first h2) = .ok h () := by
  split
  · unfold uninitialized_relocate_n
    split
    · simp [memmove_zero, Res.bind]
    · simp [relocate_n_loop, Res.bind]
  · split
    · simp [uninitialized_copy_n, uninitialized_copy_loop, Res.bind, destroy_n]
    · simp [uninitialized_move_n, uninitialized_move_loop, Res.bind, destroy_n]

/-- Closed form of a reallocation of an empty sequence when `malloc` fails:
the null pointer is adopted as the storage. -/
theorem reallocate_null_eq (h : Heap α) (v : my_vector) (c : Nat)
    (hs : v.m_size = 0) (hne : c ≠ v.m_capacity) (hm : ¬ (h.brk + c ≤ h.limit)) :
    reallocate T E c (h, v) =
      .ok (free h v.m_begin, { m_begin := 0, m_size := 0, m_capacity := c }) () := by
  unfold reallocate
  have hge : ¬ ¬ (c ≥ 0) := by omega
  simp only [hs, hge, if_false, hne, malloc_fail h c hm,
    reallocate_body_empty (T := T) (E := E) v.m_begin 0 h]
  simp only [my_vector.swap, my_vector.destructor, destroy_n, Res.bind, Res.lift]

/-- Closed form of the copy constructor for an empty `other` when `malloc`
fails. -/
theorem construct_copy_null_eq (h : Heap α) (other : my_vector)
    (hs : other.m_size = 0) (hm : ¬ (h.brk + other.m_capacity ≤ h.limit)) :
    my_vector.construct_copy E other h =
      .ok h { m_begin := 0, m_size := 0, m_capacity := other.m_capacity } := by
  unfold my_vector.construct_copy
  simp only [malloc_fail h other.m_capacity hm, hs, uninitialized_copy_n,
    uninitialized_copy_loop]
  simp only [my_vector.swap, my_vector.destructor, destroy_n, Res.bind, free, if_true]

/-! ### The two relocation paths -/

theorem isOk_of_eq {σ ρ : Type} {r : Res σ ρ} {s : σ} {a : ρ} (h : r = .ok s a) :
    r.isOk = true := by
  rw [h]; rfl

/-- The outcome of a successful `erase` depends on the traits only through the
choice of the branch. -/
theorem erase_paths_eq (T T' : Traits) (h : Heap α) (v : my_vector) (vals : Nat → α)
    (f l : Nat)
    (hT : (T.is_replaceable && T.is_nothrow_move_constructible) =
      (T'.is_replaceable && T'.is_nothrow_move_constructible))
    (hH : Holds h v vals) (hq : ∀ k, k < v.m_size → E.quiet (vals k))
    (hfl : f ≤ l) (hl : l ≤ v.m_size) :
    erase T E (v.m_begin + f) (v.m_begin + l) (h, v) =
      erase T' E (v.m_begin + f) (v.m_begin + l) (h, v) ∧
    (erase T E (v.m_begin + f) (v.m_begin + l) (h, v)).isOk = true := by
  by_cases hlt : f < l
  · cases hb : (T.is_replaceable && T.is_nothrow_move_constructible) with
    | true =>
      have e1 := erase_reloc_eq (T := T) (E := E) h v vals f l hH hq hlt hl hb
      have e2 := erase_reloc_eq (T := T') (E := E) h v vals f l hH hq hlt hl (by rw [← hT, hb])
      exact ⟨e1.trans e2.symm, isOk_of_eq e1⟩
    | false =>
      have e1 := erase_assign_eq (T := T) (E := E) h v vals f l hH hq hlt hl hb
      have e2 := erase_assign_eq (T := T') (E := E) h v vals f l hH hq hlt hl (by rw [← hT, hb])
      exact ⟨e1.trans e2.symm, isOk_of_eq e1⟩
  · have hfl0 : f = l := by omega
    subst hfl0
    have key : ∀ T0 : Traits, erase T0 E (v.m_begin + f) (v.m_begin + f) (h, v) =
        .ok (h, v) (v.m_begin + f) := by
      intro T0
      unfold erase
      have c1 : ¬ ¬ (v.m_begin + f ≤ v.m_begin + f) := by omega
      have c2 : ¬ ¬ (v.m_begin + f ≤ (h, v).2.end_) := by
        show ¬ ¬ (v.m_begin + f ≤ v.m_begin + v.m_size)
        omega
      have c3 : v.m_begin + f - (v.m_begin + f) = 0 := by omega
      simp only [c1, c2, if_false, c3, if_true]
    exact ⟨(key T).trans (key T').symm, isOk_of_eq (key T)⟩

/-- The outcome of a successful `reserve` does not depend on the traits. -/
theorem reserve_paths_eq (T T' : Traits) (h : Heap α) (v : my_vector) (vals : Nat → α)
    (c : Nat)
    (hH : Holds h v vals) (hq : ∀ k, k < v.m_size → E.quiet (vals k))
    (hm : h.brk + c ≤ h.limit) :
    reserve T E c (h, v) = reserve T' E c (h, v) ∧ (reserve T E c (h, v)).isOk = true := by
  have hs := hH.1
  have key : ∀ T0 : Traits, ∃ s', reserve T0 E c (h, v) = .ok s' () ∧
      s' = (if c < v.m_size ∨ c = v.m_capacity then (h, v)
        else (free (memmove (h.grow c) h.brk v.m_begin v.m_size) v.m_begin,
              { m_begin := h.brk, m_size := v.m_size, m_capacity := c })) := by
    intro T0
    unfold reserve
    by_cases h1 : c < v.m_size
    · have h10 : c < (h, v).2.m_size := h1
      rw [if_pos h10, if_pos (Or.inl h1)]
      exact ⟨_, rfl, rfl⟩
    · have h10 : ¬ c < (h, v).2.m_size := h1
      rw [if_neg h10]
      by_cases h2 : c = v.m_capacity
      · have hge : ¬ ¬ (c ≥ (h, v).2.m_size) := by
          show ¬ ¬ (c ≥ v.m_size)
          omega
        have h20 : c = (h, v).2.m_capacity := h2
        rw [if_pos (Or.inr h2)]
        refine ⟨_, ?_, rfl⟩
        unfold reallocate
        rw [if_neg hge, if_pos h20]
      · rw [if_neg (by omega)]
        exact ⟨_, reallocate_ok_eq h v vals c hH hq (by omega) h2 hm, rfl⟩
  obtain ⟨s1, e1, d1⟩ := key T
  obtain ⟨s2, e2, d2⟩ := key T'
  refine ⟨?_, isOk_of_eq e1⟩
  rw [e1, e2, d1, d2]

/-- The outcome of a successful `emplace` depends on the traits only through
the choice of the branch. -/
theorem emplace_paths_eq (T T' : Traits) (h : Heap α) (v : my_vector) (vals : Nat → α)
    (value : α) (i : Nat)
    (hT : T.is_replaceable = T'.is_replaceable)
    (hH : Holds h v vals) (hq : ∀ k, k < v.m_size → E.quiet (vals k))
    (hv : E.quiet value) (hi : i ≤ v.m_size)
    (hm : v.m_size = v.m_capacity → h.brk + (v.m_capacity + 32) ≤ h.limit) :
    emplace T E (v.m_begin + i) value (h, v) = emplace T' E (v.m_begin + i) value (h, v) ∧
    (emplace T E (v.m_begin + i) value (h, v)).isOk = true := by
  obtain ⟨h1, v1, hr, hH1, hs1, hroom, _, _, _⟩ :=
    maybeReallocate_ok (T := T) (E := E) h v vals hH hq hm
  have hr' : maybeReallocate T' E (h, v) = .ok (h1, v1) () := by
    rw [maybeReallocate_eq (T := T') (E := E) h v vals hH hq hm, ← hr,
      maybeReallocate_eq (T := T) (E := E) h v vals hH hq hm]
  by_cases hend : i = v.m_size
  · subst hend
    have e1 := emplace_end_eq (T := T) h h1 v v1 vals value hr hH1 hs1 hroom hv
    have e2 := emplace_end_eq (T := T') h h1 v v1 vals value hr' hH1 hs1 hroom hv
    exact ⟨e1.trans e2.symm, isOk_of_eq e1⟩
  · have hlt : i < v.m_size := by omega
    cases hrep : T.is_replaceable with
    | true =>
      have e1 := emplace_replaceable_eq (T := T) h h1 v v1 vals value i hr hH1 hs1 hroom hq hv
        hlt hrep
      have e2 := emplace_replaceable_eq (T := T') h h1 v v1 vals value i hr' hH1 hs1 hroom hq hv
        hlt (by rw [← hT, hrep])
      exact ⟨e1.trans e2.symm, isOk_of_eq e1⟩
    | false =>
      have e1 := emplace_assign_eq (T := T) h h1 v v1 vals value i hr hH1 hs1 hroom hq hv
        hlt hrep
      have e2 := emplace_assign_eq (T := T') h h1 v v1 vals value i hr' hH1 hs1 hroom hq hv
        hlt (by rw [← hT, hrep])
      exact ⟨e1.trans e2.symm, isOk_of_eq e1⟩

/-! ### Filling a sequence that has room -/

/-- Closed form of `push_back` on a sequence that is not full: no growth. -/
theorem push_back_room_eq (h : Heap α) (v : my_vector) (vals : Nat → α) (value : α)
    (hH : Holds h v vals) (hroom : v.m_size < v.m_capacity)
    (hv : E.copyThrows value = false) :
    push_back T E value (h, v) =
      .ok (h.set (v.m_begin + v.m_size) (Cell.obj value),
           { m_begin := v.m_begin, m_size := v.m_size + 1, m_capacity := v.m_capacity }) () := by
  have hraw : h.cell (v.m_begin + v.m_size) = Cell.raw :=
    hH.2.2.2.1 v.m_size hroom (Nat.le_refl _)
  have hne : ¬ ((h, v).2.m_size = (h, v).2.m_capacity) := by
    show ¬ (v.m_size = v.m_capacity)
    omega
  unfold push_back maybeReallocate
  rw [if_neg hne]
  simp [Res.bind, Res.lift, copy_construct_at, hraw, hv]

/-- The loop of the fill constructor on a sequence with room for `count` more
elements: `count` elements are appended, the storage is kept and nothing is
allocated. -/
theorem push_back_loop_fill (element : α) (hv : E.copyThrows element = false) :
    ∀ (count : Nat) (h : Heap α) (v : my_vector) (vals : Nat → α),
    Holds h v vals → v.m_size + count ≤ v.m_capacity →
    ∃ h', push_back_loop T E element count (h, v) =
        .ok (h', { m_begin := v.m_begin, m_size := v.m_size + count,
                   m_capacity := v.m_capacity }) () ∧
      Holds h' { m_begin := v.m_begin, m_size := v.m_size + count, m_capacity := v.m_capacity }
        (fun k => if k < v.m_size then vals k else element) ∧
      h'.nalloc = h.nalloc ∧ h'.brk = h.brk ∧ h'.freed = h.freed
  | 0, h, v, vals, hH, _ =>
      ⟨h, rfl, holds_congr h v vals _ (fun k hk => by rw [if_pos hk]) hH, rfl, rfl, rfl⟩
  | count + 1, h, v, vals, hH, hc => by
      have heq := push_back_room_eq (T := T) (E := E) h v vals element hH (by omega) hv
      have hh := holds_push h v vals element hH (by omega)
      obtain ⟨h', e1, e2, e3, e4, e5⟩ := push_back_loop_fill element hv count
        (h.set (v.m_begin + v.m_size) (Cell.obj element))
        { m_begin := v.m_begin, m_size := v.m_size + 1, m_capacity := v.m_capacity }
        (fun k => if k = v.m_size then element else vals k) hh
        (by show v.m_size + 1 + count ≤ v.m_capacity; omega)
      have es : v.m_size + 1 + count = v.m_size + (count + 1) := by omega
      dsimp only at e1 e2
      rw [es] at e1 e2
      refine ⟨h', ?_, ?_, e3, e4, e5⟩
      · show (push_back T E element (h, v)).bind _ = _
        rw [heq]
        exact e1
      · refine holds_congr _ _ _ _ ?_ e2
        intro k _
        by_cases h1 : k < v.m_size
        · rw [if_pos (by omega), if_neg (by omega), if_pos h1]
        · by_cases h2 : k = v.m_size
          · rw [if_pos (by omega), if_pos h2, if_neg h1]
          · rw [if_neg (by omega), if_neg h1]

/-- Closed form of the fill constructor when the copies do not throw and the
provider has room: one block of exactly `count` slots, none for `count == 0`. -/
theorem construct_fill_eq (count : Nat) (element : α) (h : Heap α)
    (hfresh : ∀ a, h.brk ≤ a → h.cell a = Cell.raw)
    (hm : h.brk + count ≤ h.limit) (hv : E.copyThrows element = false) :
    ∃ h', my_vector.construct_fill T E count element h =
        .ok h' { m_begin := if count = 0 then 0 else h.brk, m_size := count,
                 m_capacity := count } ∧
      Holds h' { m_begin := if count = 0 then 0 else h.brk, m_size := count,
                 m_capacity := count } (fun _ => element) ∧
      h'.nalloc = h.nalloc + (if count = 0 then 0 else 1) := by
  have hH0 : Holds h ({} : my_vector) (fun _ => element) :=
    ⟨Nat.le_refl _, Nat.zero_le _, fun k hk => absurd hk (Nat.not_lt_zero _),
      fun k hk _ => absurd hk (Nat.not_lt_zero _), hfresh⟩
  by_cases hc : count = 0
  · subst hc
    exact ⟨h, rfl, hH0, rfl⟩
  · have hr := reallocate_ok_eq (T := T) (E := E) h {} (fun _ => element) count hH0
      (fun k hk => absurd hk (Nat.not_lt_zero _)) (Nat.zero_le _) hc hm
    have hh := reallocate_holds h {} (fun _ => element) count hH0 (Nat.zero_le _)
    obtain ⟨h', e1, e2, e3, _, _⟩ := push_back_loop_fill (T := T) element hv count _ _ _ hh
      (by show 0 + count ≤ count; omega)
    have e0 : (0 : Nat) + count = count := Nat.zero_add _
    have e1' : push_back_loop T E element count
        (free (memmove (h.grow count) h.brk 0 0) 0,
          { m_begin := h.brk, m_size := 0, m_capacity := count }) =
        .ok (h', { m_begin := h.brk, m_size := count, m_capacity := count }) () := by
      have e1c := e1
      dsimp only at e1c
      rw [e0] at e1c
      exact e1c
    have e2' : Holds h' { m_begin := h.brk, m_size := count, m_capacity := count }
        (fun _ => element) := by
      have : Holds h' { m_begin := h.brk, m_size := 0 + count, m_capacity := count }
          (fun k => if k < 0 then element else element) := e2
      rw [e0] at this
      exact holds_congr _ _ _ _ (fun k _ => by rw [if_neg (Nat.not_lt_zero _)]) this
    have hres : reserve T E count (h, ({} : my_vector)) =
        .ok (free (memmove (h.grow count) h.brk 0 0) 0,
          { m_begin := h.brk, m_size := 0, m_capacity := count }) () := by
      unfold reserve
      rw [if_neg (Nat.not_lt_zero _)]
      exact hr
    refine ⟨h', ?_, ?_, ?_⟩
    · unfold my_vector.construct_fill
      simp only [hres, Res.bind, e1']
      simp only [my_vector.swap, my_vector.destructor, destroy_n, free, if_true, Res.bind,
        if_neg hc]
    · rw [if_neg hc]
      exact e2'
    · rw [if_neg hc, e3, free_nalloc]
      rfl

/-! ### Writes after the growth step -/

end Lemmas

/-! ## The relocation algorithms: success and failure -/

/-- C6: `uninitialized_relocate_n(first, n, output)` on a run of `n` live values
and a disjoint destination of `n` raw slots, when no move construction throws:
it returns `first + n`, destination slot `k` holds the original value `k`, every
source slot is dead and its object's lifetime ended exactly once; no slot
outside the two ranges is touched.  This holds on both paths. -/
theorem uninitialized_relocate_n_relocates (T : Traits) (E : Elem α) (h : Heap α)
    (first n output : Nat) (vals : Nat → α)
    (hdisj : first + n ≤ output ∨ output + n ≤ first)
    (hsrc : ∀ k, k < n → h.cell (first + k) = Cell.obj (vals k))
    (hdst : ∀ k, k < n → h.cell (output + k) = Cell.raw)
    (hmove : ∀ k, k < n → E.moveThrows (vals k) = false) :
    ∃ h', uninitialized_relocate_n T E first n output h = .ok h' (first + n) ∧
      (∀ k, k < n → h'.cell (output + k) = Cell.obj (vals k)) ∧
      (∀ k, k < n → h'.cell (first + k) = Cell.raw) ∧
      (∀ k, k < n → h'.ended (first + k) = h.ended (first + k) + 1) ∧
      (∀ k, k < n → h'.ended (output + k) = h.ended (output + k)) ∧
      (∀ a, ¬ (first ≤ a ∧ a < first + n) → ¬ (output ≤ a ∧ a < output + n) →
        h'.cell a = h.cell a ∧ h'.ended a = h.ended a) := by
  refine ⟨_, uninitialized_relocate_n_ok_eq h first n output (by omega)
    (fun j hj => ⟨vals j, hsrc j hj, fun _ => hmove j hj⟩)
    (fun j hj _ => hdst j hj), ?_, ?_, ?_, ?_, ?_⟩
  · intro k hk
    rw [memmove_cell_dst h (by omega) (by omega), ← hsrc k hk]
    congr 1; omega
  · intro k hk
    rw [memmove_cell_src h (by omega) (by omega) (by omega)]
  · intro k hk
    rw [memmove_ended_src h (by omega) (by omega) (by rw [hsrc k hk]; rfl)]
  · intro k hk
    rw [memmove_ended_other h (by omega)]
  · intro a h1 h2
    exact ⟨memmove_cell_other h h2 h1, memmove_ended_other h h1⟩

/-- Witness for C6: two strings relocated on the element-wise path. -/
theorem uninitialized_relocate_n_relocates_witness :
    ∃ h', uninitialized_relocate_n Traits.std_string Elem.nothrow 10 2 14
        (Heap.ofList [7, 8] 10 20 100) = .ok h' (10 + 2) ∧
      (∀ k, k < 2 → h'.cell (14 + k) = Cell.obj ([7, 8].getD k 0)) ∧
      (∀ k, k < 2 → h'.cell (10 + k) = Cell.raw) ∧
      (∀ k, k < 2 → h'.ended (10 + k) = (Heap.ofList [7, 8] 10 20 100).ended (10 + k) + 1) ∧
      (∀ k, k < 2 → h'.ended (14 + k) = (Heap.ofList [7, 8] 10 20 100).ended (14 + k)) ∧
      (∀ a, ¬ (10 ≤ a ∧ a < 10 + 2) → ¬ (14 ≤ a ∧ a < 14 + 2) →
        h'.cell a = (Heap.ofList [7, 8] 10 20 100).cell a ∧
        h'.ended a = (Heap.ofList [7, 8] 10 20 100).ended a) :=
  uninitialized_relocate_n_relocates Traits.std_string Elem.nothrow
    (Heap.ofList [7, 8] 10 20 100) 10 2 14 (fun k => [7, 8].getD k 0)
    (by decide) (by decide) (by decide) (by decide)

/-- C9: on the element-wise path of `uninitialized_relocate_n`, when the move of
element `k` throws after `k` successful relocations, the handler destroys the
`n - k` remaining source elements from `first + k` on and the `k` destination
elements built so far, then rethrows.  Afterwards no slot of either range is
live, the lifetime of every source element and of every built destination
element ended exactly once, the destination slots from `k` on were never
touched, and nothing ran into a double destruction (the outcome is a throw, not
undefined behaviour). -/
theorem uninitialized_relocate_n_failure (T : Traits) (E : Elem α) (h : Heap α)
    (first n output k : Nat) (vals : Nat → α)
    (ht : T.is_trivially_relocatable = false) (hk : k < n)
    (hdisj : first + n ≤ output ∨ output + n ≤ first)
    (hsrc : ∀ j, j < n → h.cell (first + j) = Cell.obj (vals j))
    (hdst : ∀ j, j < n → h.cell (output + j) = Cell.raw)
    (hok : ∀ j, j < k → E.moveThrows (vals j) = false)
    (hfail : E.moveThrows (vals k) = true) :
    ∃ h', uninitialized_relocate_n T E first n output h = .throw h' ∧
      h' = ((memmove h output first k).killRange (first + k) (n - k)).killRange output k ∧
      (∀ j, j < k → (memmove h output first k).cell (output + j) = Cell.obj (vals j)) ∧
      (∀ j, k ≤ j → j < n → (memmove h output first k).cell (first + j) = Cell.obj (vals j)) ∧
      (∀ j, j < n → h'.cell (first + j) = Cell.raw) ∧
      (∀ j, j < n → h'.cell (output + j) = Cell.raw) ∧
      (∀ j, j < n → h'.ended (first + j) = h.ended (first + j) + 1) ∧
      (∀ j, j < k → h'.ended (output + j) = h.ended (output + j) + 1) ∧
      (∀ j, k ≤ j → j < n → h'.ended (output + j) = h.ended (output + j)) ∧
      (∀ a, ¬ (first ≤ a ∧ a < first + n) → ¬ (output ≤ a ∧ a < output + n) →
        h'.cell a = h.cell a ∧ h'.ended a = h.ended a) := by
  refine ⟨_, uninitialized_relocate_n_throw_eq h first n output k ht hk (by omega)
    (fun j hj => ⟨vals j, hsrc j hj, fun hjk => hok j hjk, fun e => by rw [e]; exact hfail⟩)
    (fun j hj _ => hdst j hj), rfl, ?_, ?_, ?_, ?_, ?_, ?_, ?_, ?_⟩
  · intro j hj
    rw [memmove_cell_dst h (by omega) (by omega), ← hsrc j (by omega)]
    congr 1; omega
  · intro j hj1 hj2
    rw [memmove_cell_other h (by omega) (by omega), hsrc j hj2]
  · intro j hj
    rw [killRange_cell_out _ (by omega)]
    by_cases hc : j < k
    · rw [killRange_cell_out _ (by omega), memmove_cell_src h (by omega) (by omega) (by omega)]
    · rw [killRange_cell_in _ (by omega) (by omega)]
  · intro j hj
    by_cases hc : j < k
    · rw [killRange_cell_in _ (by omega) (by omega)]
    · rw [killRange_cell_out _ (by omega), killRange_cell_out _ (by omega),
        memmove_cell_other h (by omega) (by omega), hdst j hj]
  · intro j hj
    rw [killRange_ended_out _ (by omega)]
    by_cases hc : j < k
    · rw [killRange_ended_out _ (by omega),
        memmove_ended_src h (by omega) (by omega) (by rw [hsrc j hj]; rfl)]
    · rw [killRange_ended_in _ (by omega) (by omega), memmove_ended_other h (by omega)]
  · intro j hj
    rw [killRange_ended_in _ (by omega) (by omega), killRange_ended_out _ (by omega),
      memmove_ended_other h (by omega)]
  · intro j hj1 hj2
    rw [killRange_ended_out _ (by omega), killRange_ended_out _ (by omega),
      memmove_ended_other h (by omega)]
  · intro a h1 h2
    constructor
    · rw [killRange_cell_out _ (by omega), killRange_cell_out _ (by omega),
        memmove_cell_other h (by omega) (by omega)]
    · rw [killRange_ended_out _ (by omega), killRange_ended_out _ (by omega),
        memmove_ended_other h (by omega)]

/-- Witness for C9: four elements, the move of element 2 (value 9) throws. -/
theorem uninitialized_relocate_n_failure_witness :
    ∃ h', uninitialized_relocate_n Traits.replaceable_throwing (Elem.moveThrowsOn 9) 10 4 20
        (Heap.ofList [7, 8, 9, 6] 10 30 100) = .throw h' ∧
      (∀ j, j < 4 → h'.cell (10 + j) = Cell.raw) ∧
      (∀ j, j < 4 → h'.cell (20 + j) = Cell.raw) ∧
      (∀ j, j < 2 → h'.ended (20 + j) = 1) ∧
      (∀ j, 2 ≤ j → j < 4 → h'.ended (20 + j) = 0) := by
  obtain ⟨h', h1, _, _, _, h2, h3, _, h4, h5, _⟩ :=
    uninitialized_relocate_n_failure Traits.replaceable_throwing (Elem.moveThrowsOn 9)
      (Heap.ofList [7, 8, 9, 6] 10 30 100) 10 4 20 2 (fun k => [7, 8, 9, 6].getD k 0)
      (by decide) (by decide) (by decide) (by decide) (by decide) (by decide) (by decide)
  exact ⟨h', h1, h2, h3, h4, h5⟩

/-- C10: on the element-wise path of `uninitialized_relocate_backward`, with the
destination to the right of the source (overlapping as in `output == last + 1`,
or disjoint) or wholly to its left, when the move of the source element with
index `k` throws after the `c = last - first - 1 - k` elements to its right were
relocated, the handler destroys the source elements `[first, first + k]` and the
`c` destination elements built so far, `[output - c, output)`.  Afterwards no
slot of either range is live, every slot's count of ended lifetimes grew by one
for the source element it held and by one for the destination element built in
it, and nothing ran into a double destruction. -/
theorem uninitialized_relocate_backward_failure (T : Traits) (E : Elem α) (h : Heap α)
    (first last output k : Nat) (vals : Nat → α)
    (ht : T.is_trivially_relocatable = false)
    (hk : k < last - first) (ho : last - first ≤ output)
    (hd : last < output ∨ output ≤ first)
    (hsrc : ∀ j, j < last - first → h.cell (first + j) = Cell.obj (vals j))
    (hdst : ∀ j, j < last - first →
      ¬ (first ≤ output - (last - first) + j ∧ output - (last - first) + j < last) →
      h.cell (output - (last - first) + j) = Cell.raw)
    (hok : ∀ j, j < last - first → k < j → E.moveThrows (vals j) = false)
    (hfail : E.moveThrows (vals k) = true) :
    ∃ h' r, uninitialized_relocate_backward T E first last output h = .ok h' r ∧
      h' = ((memmove h (output - (last - first - 1 - k)) (first + k + 1)
              (last - first - 1 - k)).killRange first (k + 1)).killRange
            (output - (last - first - 1 - k)) (last - first - 1 - k) ∧
      (∀ j, j < last - first → h'.cell (first + j) = Cell.raw) ∧
      (∀ j, j < last - first → h'.cell (output - (last - first) + j) = Cell.raw) ∧
      (∀ a, h'.ended a = h.ended a
        + (if first ≤ a ∧ a < last then 1 else 0)
        + (if output - (last - first - 1 - k) ≤ a ∧ a < output then 1 else 0)) ∧
      (∀ a, ¬ (first ≤ a ∧ a < last) → ¬ (output - (last - first) ≤ a ∧ a < output) →
        h'.cell a = h.cell a) := by
  have heq := uninitialized_relocate_backward_throw_eq (T := T) (E := E) h first last output k
    ht hk ho hd
    (fun j hj => ⟨vals j, hsrc j hj, fun hjk => hok j hj hjk, fun e => by rw [e]; exact hfail⟩)
    hdst
  have e0 : last - (last - first - 1 - k) = first + k + 1 := by omega
  rw [e0] at heq
  refine ⟨_, _, heq, rfl, ?_, ?_, ?_, ?_⟩
  · intro j hj
    by_cases hc : j < k + 1
    · by_cases hc2 : output - (last - first - 1 - k) ≤ first + j ∧ first + j < output
      · rw [killRange_cell_in _ (by omega) (by omega)]
      · rw [killRange_cell_out _ (by omega), killRange_cell_in _ (by omega) (by omega)]
    · by_cases hc2 : output - (last - first - 1 - k) ≤ first + j ∧ first + j < output
      · rw [killRange_cell_in _ (by omega) (by omega)]
      · rw [killRange_cell_out _ (by omega), killRange_cell_out _ (by omega),
          memmove_cell_src h (by omega) (by omega) (by omega)]
  · intro j hj
    by_cases hc : k < j
    · rw [killRange_cell_in _ (by omega) (by omega)]
    · rw [killRange_cell_out _ (by omega)]
      by_cases hc2 : first ≤ output - (last - first) + j ∧ output - (last - first) + j < last
      · by_cases hc3 : output - (last - first) + j < first + (k + 1)
        · rw [killRange_cell_in _ (by omega) hc3]
        · rw [killRange_cell_out _ (by omega),
            memmove_cell_src h (by omega) (by omega) (by omega)]
      · rw [killRange_cell_out _ (by omega), memmove_cell_other h (by omega) (by omega),
          hdst j hj hc2]
  · intro a
    by_cases hb : output - (last - first - 1 - k) ≤ a ∧ a < output
    · rw [killRange_ended_in _ (by omega) (by omega), killRange_ended_out _ (by omega),
        if_pos hb]
      by_cases ha : first ≤ a ∧ a < last
      · have hlive : (h.cell a).isLive = true := by
          have := hsrc (a - first) (by omega)
          have e : first + (a - first) = a := by omega
          rw [e] at this; rw [this]; rfl
        rw [memmove_ended_src h (by omega) (by omega) hlive, if_pos ha]
      · rw [memmove_ended_other h (by omega), if_neg ha]
    · rw [killRange_ended_out _ (by omega), if_neg hb]
      by_cases ha : first ≤ a ∧ a < last
      · rw [if_pos ha]
        by_cases hc : a < first + (k + 1)
        · rw [killRange_ended_in _ (by omega) (by omega), memmove_ended_other h (by omega)]
        · have hlive : (h.cell a).isLive = true := by
            have := hsrc (a - first) (by omega)
            have e : first + (a - first) = a := by omega
            rw [e] at this; rw [this]; rfl
          rw [killRange_ended_out _ (by omega),
            memmove_ended_src h (by omega) (by omega) hlive]
      · rw [if_neg ha, killRange_ended_out _ (by omega), memmove_ended_other h (by omega),
          Nat.add_zero]
  · intro a h1 h2
    rw [killRange_cell_out _ (by omega), killRange_cell_out _ (by omega),
      memmove_cell_other h (by omega) (by omega)]

/-- Witness for C10: the overlapping shift by one slot used by `emplace`, four
elements, the move of the element with index 1 (value 8) throws. -/
theorem uninitialized_relocate_backward_failure_witness :
    ∃ h' r, uninitialized_relocate_backward Traits.replaceable_throwing (Elem.moveThrowsOn 8)
        10 14 15 (Heap.ofList [7, 8, 9, 6] 10 30 100) = .ok h' r ∧
      (∀ j, j < 14 - 10 → h'.cell (10 + j) = Cell.raw) ∧
      (∀ j, j < 14 - 10 → h'.cell (15 - (14 - 10) + j) = Cell.raw) := by
  obtain ⟨h', r, h1, _, h2, h3, _⟩ :=
    uninitialized_relocate_backward_failure Traits.replaceable_throwing (Elem.moveThrowsOn 8)
      (Heap.ofList [7, 8, 9, 6] 10 30 100) 10 14 15 1 (fun k => [7, 8, 9, 6].getD k 0)
      (by decide) (by decide) (by decide) (by decide) (by decide) (by decide) (by decide)
      (by decide)
  exact ⟨h', r, h1, h2, h3⟩

/-- C7 (the code departs from the claim): `uninitialized_relocate` never leaves
by an exception, whatever happens in its loop, since its handler does not
rethrow; for instance, relocating the two elements `7, 8` when the move of `8`
throws returns normally with the iterator `first + 1`, both ranges cleaned up. -/
theorem uninitialized_relocate_swallows_failure :
    (∀ (T : Traits) (E : Elem Nat) (first last output : Nat) (h : Heap Nat),
      (uninitialized_relocate T E first last output h).isThrow = false) ∧
    (Elem.moveThrowsOn 8).moveThrows 8 = true ∧
    ∃ h', uninitialized_relocate Traits.replaceable_throwing (Elem.moveThrowsOn 8) 10 12 14
        (Heap.ofList [7, 8] 10 20 100) = .ok h' 11 ∧
      h'.cell 10 = Cell.raw ∧ h'.cell 11 = Cell.raw ∧
      h'.cell 14 = Cell.raw ∧ h'.cell 15 = Cell.raw := by
  refine ⟨fun T E first last output h => uninitialized_relocate_isThrow T E first last output h,
    by decide, _, rfl, ?_, ?_, ?_, ?_⟩ <;> decide

/-- C8 (the code departs from the claim): on a replaceable type, when a move
throws while `emplace` opens the gap, `uninitialized_relocate_backward` swallows
the exception, so `emplace` goes on, builds the new element and returns
normally.  Here `emplace(begin(), 9)` on the sequence `7, 8` (capacity 4), the
move of `7` throwing: the call returns `begin()` with `size() == 3` although the
slots of index 1 and 2 hold no live element. -/
theorem emplace_gap_failure_not_signalled :
    (Elem.moveThrowsOn 7).moveThrows 7 = true ∧
    ∃ h', emplace Traits.replaceable_throwing (Elem.moveThrowsOn 7) 10 9
        (Heap.ofList [7, 8] 10 14 100, { m_begin := 10, m_size := 2, m_capacity := 4 }) =
        .ok (h', { m_begin := 10, m_size := 3, m_capacity := 4 }) 10 ∧
      h'.cell 10 = Cell.obj 9 ∧ h'.cell 11 = Cell.raw ∧ h'.cell 12 = Cell.raw := by
  refine ⟨by decide, _, rfl, ?_, ?_, ?_⟩ <;> decide

/-! ## The container: `reserve` and `push_back` -/

/-- A heap built by `Heap.ofList` holds the list. -/
theorem holds_ofList (xs : List α) (base cap brk limit : Nat) (d : α)
    (h1 : xs.length ≤ cap) (h2 : base + cap ≤ brk) :
    Holds (Heap.ofList xs base brk limit)
      { m_begin := base, m_size := xs.length, m_capacity := cap } (fun k => xs.getD k d) := by
  refine ⟨h1, h2, ?_, ?_, ?_⟩
  · intro k hk
    have hk0 : k < xs.length := hk
    show (Heap.ofList xs base brk limit).cell (base + k) = _
    simp only [Heap.ofList]
    rw [if_pos (by omega)]
    have e : base + k - base = k := by omega
    rw [e, List.get?_eq_get hk0, List.getD_eq_getElem _ _ hk0]
    rfl
  · intro k hk1 hk2
    have hk3 : xs.length ≤ k := hk2
    show (Heap.ofList xs base brk limit).cell (base + k) = _
    simp only [Heap.ofList]
    rw [if_neg (by omega)]
  · intro a ha
    have ha2 : brk ≤ a := ha
    simp only [Heap.ofList]
    rw [if_neg (by omega)]

/-- Every value is quiet for the element type that never throws. -/
theorem quiet_nothrow (x : Nat) : Elem.nothrow.quiet x := ⟨rfl, rfl, fun _ => rfl⟩

/-- C3 (as stated it fails): `reserve(3)` on the sequence `7, 8` of capacity 4
reallocates to exactly 3 slots, so `capacity()` changes from 4 to 3 although
`3 <= capacity()`. -/
theorem reserve_shrinks_capacity :
    ∃ h' v', reserve Traits.std_string Elem.nothrow 3
        (Heap.ofList [7, 8] 10 14 100, { m_begin := 10, m_size := 2, m_capacity := 4 }) =
        .ok (h', v') () ∧
      v'.capacity = 3 ∧
      (3 : Nat) ≤ my_vector.capacity { m_begin := 10, m_size := 2, m_capacity := 4 } ∧
      v'.capacity ≠ my_vector.capacity { m_begin := 10, m_size := 2, m_capacity := 4 } := by
  refine ⟨_, _, rfl, ?_, ?_, ?_⟩ <;> decide

/-- C3 (amended): for `c <= capacity()`, when no element operation throws and the
provider has room, `reserve(c)` keeps `size()` and the values and order of the
elements; `capacity()` is unchanged when `c < size()` or `c == capacity()` (then
nothing changes at all) and becomes `c` when `size() <= c < capacity()`. -/
theorem reserve_within_capacity (T : Traits) (E : Elem α) (h : Heap α) (v : my_vector)
    (vals : Nat → α) (c : Nat)
    (hH : Holds h v vals) (hq : ∀ k, k < v.m_size → E.quiet (vals k))
    (hc : c ≤ v.capacity) (hm : h.brk + c ≤ h.limit) :
    ∃ h' v', reserve T E c (h, v) = .ok (h', v') () ∧
      v'.size = v.size ∧
      (∀ k, k < v.size → my_vector.at h' v' k = Cell.obj (vals k)) ∧
      Holds h' v' vals ∧
      v'.capacity = (if c < v.size then v.capacity else c) ∧
      v'.capacity ≤ v.capacity ∧
      (c < v.size ∨ c = v.capacity → h' = h ∧ v' = v) := by
  have hc0 : c ≤ v.m_capacity := hc
  unfold reserve
  by_cases h1 : c < v.m_size
  · have h10 : c < (h, v).2.m_size := h1
    rw [if_pos h10]
    refine ⟨h, v, rfl, rfl, fun k hk => hH.2.2.1 k hk, hH, ?_, Nat.le_refl _,
      fun _ => ⟨rfl, rfl⟩⟩
    show v.m_capacity = if c < v.m_size then v.m_capacity else c
    rw [if_pos h1]
  · have h10 : ¬ c < (h, v).2.m_size := h1
    rw [if_neg h10]
    by_cases h2 : c = v.m_capacity
    · have hge : ¬ ¬ (c ≥ (h, v).2.m_size) := by
        show ¬ ¬ (c ≥ v.m_size)
        omega
      have h20 : c = (h, v).2.m_capacity := h2
      refine ⟨h, v, ?_, rfl, fun k hk => hH.2.2.1 k hk, hH, ?_, Nat.le_refl _,
        fun _ => ⟨rfl, rfl⟩⟩
      · unfold reallocate
        rw [if_neg hge, if_pos h20]
      · show v.m_capacity = if c < v.m_size then v.m_capacity else c
        rw [if_neg h1, h2]
    · have hr := reallocate_holds h v vals c hH (by omega)
      refine ⟨_, _, reallocate_ok_eq h v vals c hH hq (by omega) h2 hm, rfl,
        fun k hk => hr.2.2.1 k hk, hr, ?_, hc0, ?_⟩
      · show c = if c < v.m_size then v.m_capacity else c
        rw [if_neg h1]
      · intro hcase
        have hcase0 : c < v.m_size ∨ c = v.m_capacity := hcase
        omega

/-- Witness for C3 (amended): `reserve(3)` on the sequence `7, 8` of capacity 4. -/
theorem reserve_within_capacity_witness :
    ∃ h' v', reserve Traits.std_string Elem.nothrow 3
        (Heap.ofList [7, 8] 10 14 100, { m_begin := 10, m_size := 2, m_capacity := 4 }) =
        .ok (h', v') () ∧
      v'.size = 2 ∧
      (∀ k, k < 2 → my_vector.at h' v' k = Cell.obj ([7, 8].getD k 0)) := by
  obtain ⟨h', v', h1, h2, h3, _⟩ :=
    reserve_within_capacity Traits.std_string Elem.nothrow (Heap.ofList [7, 8] 10 14 100)
      { m_begin := 10, m_size := 2, m_capacity := 4 } (fun k => [7, 8].getD k 0) 3
      (holds_ofList [7, 8] 10 4 14 100 0 (by decide) (by decide))
      (fun k _ => quiet_nothrow _) (by decide) (by decide)
  exact ⟨h', v', h1, h2, h3⟩

/-- C4 (as stated it fails): `reserve(4)` on the sequence `7, 8` of capacity 4,
with `4 >= size()`, returns at once: the storage is kept, its first slot still
holds the live element `7`, no lifetime ended there and no block was released. -/
theorem reserve_equal_capacity_keeps_storage :
    ∃ h', reserve Traits.std_string Elem.nothrow 4
        (Heap.ofList [7, 8] 10 14 100, { m_begin := 10, m_size := 2, m_capacity := 4 }) =
        .ok (h', { m_begin := 10, m_size := 2, m_capacity := 4 }) () ∧
      my_vector.size { m_begin := 10, m_size := 2, m_capacity := 4 } ≤ 4 ∧
      h'.cell 10 = Cell.obj 7 ∧ h'.ended 10 = 0 ∧ h'.freed = [] := by
  refine ⟨_, rfl, ?_, ?_, ?_, ?_⟩ <;> decide

/-- C4 (amended): for `c >= size()`, when no element operation throws and the
provider has room: if `c != capacity()`, `reserve(c)` leaves `capacity() == c`,
keeps `size()` and the value of every element in the same order, leaves every
slot of the old storage without a live object, the lifetime of the object in
each of its `size()` element slots having ended exactly once, and gives the old
block back to the provider; if `c == capacity()`, `reserve(c)` changes nothing. -/
theorem reserve_reallocates (T : Traits) (E : Elem α) (h : Heap α) (v : my_vector)
    (vals : Nat → α) (c : Nat)
    (hH : Holds h v vals) (hq : ∀ k, k < v.m_size → E.quiet (vals k))
    (hc : v.size ≤ c) (hm : h.brk + c ≤ h.limit) :
    (c ≠ v.capacity →
      ∃ h' v', reserve T E c (h, v) = .ok (h', v') () ∧
        v'.capacity = c ∧ v'.size = v.size ∧
        (∀ k, k < v.size → my_vector.at h' v' k = Cell.obj (vals k)) ∧
        Holds h' v' vals ∧
        (∀ k, k < v.size → h'.ended (v.m_begin + k) = h.ended (v.m_begin + k) + 1) ∧
        (∀ k, k < v.capacity → h'.cell (v.m_begin + k) = Cell.raw) ∧
        h'.freed = (if v.m_begin = 0 then h.freed else v.m_begin :: h.freed) ∧
        h'.nalloc = h.nalloc + 1) ∧
    (c = v.capacity → reserve T E c (h, v) = .ok (h, v) ()) := by
  have hc0 : v.m_size ≤ c := hc
  have h10 : ¬ c < (h, v).2.m_size := by
    show ¬ c < v.m_size
    omega
  constructor
  · intro hne
    have hne0 : c ≠ v.m_capacity := hne
    have hr := reallocate_holds h v vals c hH hc0
    unfold reserve
    rw [if_neg h10]
    refine ⟨_, _, reallocate_ok_eq h v vals c hH hq hc0 hne0 hm, rfl, rfl,
      fun k hk => hr.2.2.1 k hk, hr, ?_, ?_, ?_, ?_⟩
    · intro k hk
      have hk0 : k < v.m_size := hk
      rw [free_ended, memmove_ended_src _ (by omega) (by omega)
        (by rw [grow_cell, hH.2.2.1 k hk0]; rfl), grow_ended]
    · intro k hk
      have hk0 : k < v.m_capacity := hk
      have hb := hH.2.1
      rw [free_cell]
      by_cases hks : k < v.m_size
      · rw [memmove_cell_src _ (by omega) (by omega) (by omega)]
      · rw [memmove_cell_other _ (by omega) (by omega), grow_cell]
        exact hH.2.2.2.1 k hk0 (by omega)
    · rw [free_freed]; rfl
    · rw [free_nalloc]; rfl
  · intro he
    have hge : ¬ ¬ (c ≥ (h, v).2.m_size) := by
      show ¬ ¬ (c ≥ v.m_size)
      omega
    have h20 : c = (h, v).2.m_capacity := he
    unfold reserve reallocate
    rw [if_neg h10, if_neg hge, if_pos h20]

/-- Witness for C4 (amended): `reserve(6)` on the sequence `7, 8` of capacity 4. -/
theorem reserve_reallocates_witness :
    ∃ h' v', reserve Traits.std_string Elem.nothrow 6
        (Heap.ofList [7, 8] 10 14 100, { m_begin := 10, m_size := 2, m_capacity := 4 }) =
        .ok (h', v') () ∧
      v'.capacity = 6 ∧ v'.size = 2 ∧
      (∀ k, k < 2 → my_vector.at h' v' k = Cell.obj ([7, 8].getD k 0)) := by
  obtain ⟨h', v', h1, h2, h3, h4, _⟩ :=
    (reserve_reallocates Traits.std_string Elem.nothrow (Heap.ofList [7, 8] 10 14 100)
      { m_begin := 10, m_size := 2, m_capacity := 4 } (fun k => [7, 8].getD k 0) 6
      (holds_ofList [7, 8] 10 4 14 100 0 (by decide) (by decide))
      (fun k _ => quiet_nothrow _) (by decide) (by decide)).1 (by decide)
  exact ⟨h', v', h1, h2, h3, h4⟩

/-! ## The container: `erase` -/

/-- C2: `erase(begin() + f, begin() + l)` with `f <= l <= size()` on a well-formed
sequence, when no element operation throws: it returns the position of index
`f`, the size shrinks by exactly `l - f`, the capacity and the storage are kept,
and the elements are the old `[0, f)` followed by the old `[l, size)` in the
original order (the slots past the new size hold no live object).  `T` is
arbitrary, so this covers the relocation-based branch (on either relocation
path) and the assignment-based branch. -/
theorem erase_removes_range (T : Traits) (E : Elem α) (h : Heap α) (v : my_vector)
    (vals : Nat → α) (f l : Nat)
    (hH : Holds h v vals) (hq : ∀ k, k < v.m_size → E.quiet (vals k))
    (hfl : f ≤ l) (hl : l ≤ v.size) :
    ∃ h' v', erase T E (v.begin + f) (v.begin + l) (h, v) = .ok (h', v') (v.begin + f) ∧
      v'.size = v.size - (l - f) ∧
      v'.capacity = v.capacity ∧
      v'.begin = v.begin ∧
      (∀ k, k < f → my_vector.at h' v' k = Cell.obj (vals k)) ∧
      (∀ k, f ≤ k → k < v.size - (l - f) → my_vector.at h' v' k = Cell.obj (vals (k + (l - f)))) ∧
      Holds h' v' (fun k => if k < f then vals k else vals (k + (l - f))) := by
  have hl0 : l ≤ v.m_size := hl
  by_cases hlt : f < l
  · have key : ∀ h', Holds h'
          { m_begin := v.m_begin, m_size := v.m_size - (l - f), m_capacity := v.m_capacity }
          (fun k => if k < f then vals k else vals (k + (l - f))) →
        (∀ k, k < f → my_vector.at h'
          { m_begin := v.m_begin, m_size := v.m_size - (l - f), m_capacity := v.m_capacity } k =
            Cell.obj (vals k)) ∧
        (∀ k, f ≤ k → k < v.size - (l - f) → my_vector.at h'
          { m_begin := v.m_begin, m_size := v.m_size - (l - f), m_capacity := v.m_capacity } k =
            Cell.obj (vals (k + (l - f)))) := by
      intro h' hH'
      constructor
      · intro k hk
        have := hH'.2.2.1 k (by dsimp only; omega)
        dsimp only at this
        rw [if_pos hk] at this
        exact this
      · intro k hk1 hk2
        have := hH'.2.2.1 k hk2
        dsimp only at this
        rw [if_neg (by omega)] at this
        exact this
    cases hb : (T.is_replaceable && T.is_nothrow_move_constructible) with
    | true =>
      have hh := erase_reloc_holds h v vals f l hH hlt hl0
      exact ⟨_, _, erase_reloc_eq h v vals f l hH hq hlt hl0 hb, rfl, rfl, rfl,
        (key _ hh).1, (key _ hh).2, hh⟩
    | false =>
      have hh := erase_assign_holds (E := E) h v vals f l hH hlt hl0
      exact ⟨_, _, erase_assign_eq h v vals f l hH hq hlt hl0 hb, rfl, rfl, rfl,
        (key _ hh).1, (key _ hh).2, hh⟩
  · have hfl0 : f = l := by omega
    subst hfl0
    have e0 : f - f = 0 := by omega
    refine ⟨h, v, ?_, ?_, rfl, rfl, ?_, ?_, ?_⟩
    · unfold erase
      have c1 : ¬ ¬ (v.begin + f ≤ v.begin + f) := by omega
      have c2 : ¬ ¬ (v.begin + f ≤ (h, v).2.end_) := by
        show ¬ ¬ (v.m_begin + f ≤ v.m_begin + v.m_size)
        omega
      have c3 : v.begin + f - (v.begin + f) = 0 := by omega
      simp only [c1, c2, if_false, c3, if_true]
    · rw [e0]; rfl
    · intro k hk
      exact hH.2.2.1 k (by omega)
    · intro k hk1 hk2
      rw [e0]
      exact hH.2.2.1 k (by rw [e0] at hk2; exact hk2)
    · refine holds_congr h v vals _ ?_ hH
      intro k hk
      dsimp only
      rw [e0]
      split <;> rfl

/-- Witness for C2: erasing the element of index 1 from `7, 8, 9, 6` in the
assignment-based branch. -/
theorem erase_removes_range_witness :
    ∃ h' v', erase Traits.std_string Elem.nothrow (10 + 1) (10 + 2)
        (Heap.ofList [7, 8, 9, 6] 10 16 100, { m_begin := 10, m_size := 4, m_capacity := 6 }) =
        .ok (h', v') (10 + 1) ∧
      v'.size = 4 - (2 - 1) ∧
      v'.capacity = 6 ∧
      (∀ k, k < 1 → my_vector.at h' v' k = Cell.obj ([7, 8, 9, 6].getD k 0)) ∧
      (∀ k, 1 ≤ k → k < 4 - (2 - 1) →
        my_vector.at h' v' k = Cell.obj ([7, 8, 9, 6].getD (k + (2 - 1)) 0)) := by
  obtain ⟨h', v', h1, h2, h3, _, h4, h5, _⟩ :=
    erase_removes_range Traits.std_string Elem.nothrow (Heap.ofList [7, 8, 9, 6] 10 16 100)
      { m_begin := 10, m_size := 4, m_capacity := 6 } (fun k => [7, 8, 9, 6].getD k 0) 1 2
      (holds_ofList [7, 8, 9, 6] 10 6 16 100 0 (by decide) (by decide))
      (fun k _ => quiet_nothrow _) (by decide) (by decide)
  exact ⟨h', v', h1, h2, h3, h4, h5⟩

/-! ## The container: `emplace` -/

/-- C12: the invariant `0 <= size <= capacity` holds for a default-constructed
sequence and on every exit that leaves a sequence behind (normal return,
exception, failed `assert`) of the fill and copy constructors, the move
constructor, `reserve`, `push_back`, both `erase` overloads, `emplace` and
`swap`, for every heap and every argument.  A constructor that throws leaves
no object.  The subtraction `m_size -= distance` of `erase` never wraps around:
on every normal return the new size plus `last - first` is the old size, with
the capacity unchanged, and on every failing exit the members are unchanged.
The one input on which it would wrap, a non-empty range that starts before
`begin()` and passes both `assert`s, is undefined and leaves no sequence to
speak of. -/
theorem size_le_capacity_preserved (T : Traits) (E : Elem α) :
    my_vector.Inv {} ∧
    (∀ (count : Nat) (element : α) (h : Heap α),
      (my_vector.construct_fill T E count element h).sat (fun _ v => v.Inv) (fun _ => True)) ∧
    (∀ (other : my_vector) (h : Heap α), other.Inv →
      (my_vector.construct_copy E other h).sat (fun _ v => v.Inv) (fun _ => True)) ∧
    (∀ (other : my_vector), other.Inv →
      (my_vector.construct_move other).1.Inv ∧ (my_vector.construct_move other).2.Inv) ∧
    (∀ (c : Nat) (s : Heap α × my_vector), s.2.Inv →
      (reserve T E c s).sat (fun s' _ => s'.2.Inv) (fun s' => s'.2.Inv)) ∧
    (∀ (value : α) (s : Heap α × my_vector), s.2.Inv →
      (push_back T E value s).sat (fun s' _ => s'.2.Inv) (fun s' => s'.2.Inv)) ∧
    (∀ (first last : Nat) (s : Heap α × my_vector), s.2.Inv →
      (erase T E first last s).sat (fun s' _ => s'.2.Inv) (fun s' => s'.2.Inv)) ∧
    (∀ (position : Nat) (s : Heap α × my_vector), s.2.Inv →
      (erase_one T E position s).sat (fun s' _ => s'.2.Inv) (fun s' => s'.2.Inv)) ∧
    (∀ (position : Nat) (value : α) (s : Heap α × my_vector), s.2.Inv →
      (emplace T E position value s).sat (fun s' _ => s'.2.Inv) (fun s' => s'.2.Inv)) ∧
    (∀ (a b : my_vector), a.Inv → b.Inv →
      (my_vector.swap a b).1.Inv ∧ (my_vector.swap a b).2.Inv) ∧
    (∀ (first last : Nat) (s : Heap α × my_vector),
      s.2.begin ≤ first → first ≤ last → last ≤ s.2.end_ → last - first ≤ s.2.m_size) ∧
    (∀ (first last : Nat) (s : Heap α × my_vector),
      (erase T E first last s).sat
        (fun s' _ => s'.2.size + (last - first) = s.2.size ∧ s'.2.capacity = s.2.capacity)
        (fun s' => s'.2 = s.2)) ∧
    (∀ (first last : Nat) (s : Heap α × my_vector),
      first < s.2.begin → first < last → last ≤ s.2.end_ → erase T E first last s = .ub) := by
  have conv : ∀ {ρ : Type} (r : Res (Heap α × my_vector) ρ),
      r.sat (fun s' _ => s'.2.m_size ≤ s'.2.m_capacity)
        (fun s' => s'.2.m_size ≤ s'.2.m_capacity) →
      r.sat (fun s' _ => s'.2.Inv) (fun s' => s'.2.Inv) := fun r hr =>
    sat_mono r _ _ _ _ hr (fun _ _ h => ⟨Nat.zero_le _, h⟩) (fun _ h => ⟨Nat.zero_le _, h⟩)
  refine ⟨⟨Nat.le_refl _, Nat.le_refl _⟩, ?_, ?_, ?_, ?_, ?_, ?_, ?_, ?_, ?_, ?_, ?_, ?_⟩
  · intro count element h
    exact sat_mono _ _ _ _ _ (construct_fill_sat count element h)
      (fun _ _ hv => ⟨Nat.zero_le _, hv⟩) (fun _ hv => hv)
  · intro other h hinv
    exact sat_mono _ _ _ _ _ (construct_copy_sat other h hinv.2)
      (fun _ _ hv => ⟨Nat.zero_le _, hv⟩) (fun _ hv => hv)
  · intro other hinv
    exact ⟨hinv, ⟨Nat.le_refl _, Nat.le_refl _⟩⟩
  · intro c s hinv
    exact conv _ (reserve_sat c s hinv.2)
  · intro value s hinv
    exact conv _ (push_back_sat value s hinv.2)
  · intro first last s hinv
    exact conv _ (erase_sat first last s hinv.2)
  · intro position s hinv
    exact conv _ (erase_sat position (position + 1) s hinv.2)
  · intro position value s hinv
    exact conv _ (emplace_sat position value s hinv.2)
  · intro a b ha hb
    exact ⟨hb, ha⟩
  · intro first last s h1 h2 h3
    unfold my_vector.begin at h1
    unfold my_vector.end_ at h3
    omega
  · intro first last s
    exact sat_mono _ _ _ _ _ (erase_sat_exact (T := T) (E := E) first last s)
      (fun _ _ hs => ⟨hs.1, hs.2.1⟩) (fun _ hs => hs)
  · intro first last s h0 h1 h2
    exact erase_before_begin first last s h0 h1 h2

/-- Witness for C12: the invariant after `emplace(begin(), 9)` on `7, 8` when the
move of `7` throws while the gap is opened, and after `erase(begin(), begin() + 1)`
on `7, 8`; `erase(begin() - 5, end())` on a sequence that follows five live
objects in memory is undefined. -/
theorem size_le_capacity_preserved_witness :
    (emplace Traits.replaceable_throwing (Elem.moveThrowsOn 7) 10 9
      (Heap.ofList [7, 8] 10 14 100, { m_begin := 10, m_size := 2, m_capacity := 4 })).sat
      (fun s' _ => s'.2.Inv) (fun s' => s'.2.Inv) ∧
    (erase Traits.std_string Elem.nothrow 10 11
      (Heap.ofList [7, 8] 10 14 100, { m_begin := 10, m_size := 2, m_capacity := 4 })).sat
      (fun s' _ => s'.2.Inv) (fun s' => s'.2.Inv) ∧
    erase Traits.std_string Elem.nothrow 5 12
      (Heap.ofList [1, 2, 3, 4, 5, 7, 8] 5 14 100,
        { m_begin := 10, m_size := 2, m_capacity := 4 }) = .ub :=
  ⟨(size_le_capacity_preserved Traits.replaceable_throwing
      (Elem.moveThrowsOn 7)).2.2.2.2.2.2.2.2.1 10 9
      (Heap.ofList [7, 8] 10 14 100, { m_begin := 10, m_size := 2, m_capacity := 4 })
      ⟨by decide, by decide⟩,
   (size_le_capacity_preserved Traits.std_string Elem.nothrow).2.2.2.2.2.2.1 10 11
      (Heap.ofList [7, 8] 10 14 100, { m_begin := 10, m_size := 2, m_capacity := 4 })
      ⟨by decide, by decide⟩,
   (size_le_capacity_preserved Traits.std_string Elem.nothrow).2.2.2.2.2.2.2.2.2.2.2.2 5 12
      (Heap.ofList [1, 2, 3, 4, 5, 7, 8] 5 14 100,
        { m_begin := 10, m_size := 2, m_capacity := 4 })
      (by decide) (by decide) (by decide)⟩

/-- C14: the move constructor hands the storage pointer, the size and the
capacity of `other` to the new sequence, which therefore holds the same element
slots, and leaves `other` with a null storage pointer, size 0 and capacity 0.
It works on the members only: the heap, hence every element, is untouched. -/
theorem move_constructor_transfers (other : my_vector) (h : Heap α) :
    (my_vector.construct_move other).1.m_begin = other.m_begin ∧
    (my_vector.construct_move other).1.size = other.size ∧
    (my_vector.construct_move other).1.capacity = other.capacity ∧
    (∀ k, my_vector.at h (my_vector.construct_move other).1 k = my_vector.at h other k) ∧
    (my_vector.construct_move other).2.size = 0 ∧
    (my_vector.construct_move other).2.capacity = 0 ∧
    (my_vector.construct_move other).2.m_begin = 0 :=
  ⟨rfl, rfl, rfl, fun _ => rfl, rfl, rfl, rfl⟩

/-- C16: `erase(first, last)` stops at a failed `assert`, leaving the heap and
the members as they were, when `last < first` or `last` is past `end()`; when
`first <= last <= end()` no exit of `erase` is a failed `assert`. -/
theorem erase_precondition_checks (T : Traits) (E : Elem α) (first last : Nat)
    (s : Heap α × my_vector) :
    (last < first ∨ s.2.end_ < last → erase T E first last s = .abort s) ∧
    (first ≤ last → last ≤ s.2.end_ → (erase T E first last s).isAbort = false) :=
  ⟨erase_abort_of_invalid first last s, erase_isAbort_of_valid first last s⟩

/-- Witness for C16: a reversed range, and a valid range, on the sequence `7, 8`. -/
theorem erase_precondition_checks_witness :
    erase Traits.std_string Elem.nothrow 12 11
        (Heap.ofList [7, 8] 10 14 100, { m_begin := 10, m_size := 2, m_capacity := 4 }) =
      .abort (Heap.ofList [7, 8] 10 14 100, { m_begin := 10, m_size := 2, m_capacity := 4 }) ∧
    (erase Traits.std_string Elem.nothrow 10 11
        (Heap.ofList [7, 8] 10 14 100,
          { m_begin := 10, m_size := 2, m_capacity := 4 })).isAbort = false :=
  ⟨(erase_precondition_checks Traits.std_string Elem.nothrow 12 11
      (Heap.ofList [7, 8] 10 14 100, { m_begin := 10, m_size := 2, m_capacity := 4 })).1
      (Or.inl (by decide)),
   (erase_precondition_checks Traits.std_string Elem.nothrow 10 11
      (Heap.ofList [7, 8] 10 14 100, { m_begin := 10, m_size := 2, m_capacity := 4 })).2
      (by decide) (by decide)⟩

/-! ## The container: failing exits -/

/-- C13: for an element type that is not nothrow-move-constructible and is
copy-constructible, when `reserve(c)` with `c >= size()` reallocates and the
copy of element `k` throws after `k` successful copies: the exception leaves
`reserve`, the members are unchanged (same storage pointer, size, capacity),
every slot of the heap holds what it held before (so the elements keep their
values and no copy is left in the new block), no lifetime ended in the old
storage, exactly the `k` copies built in the new block were destroyed, and the
new block was given back. -/
theorem reserve_copy_failure_rolls_back (T : Traits) (E : Elem α) (h : Heap α)
    (v : my_vector) (vals : Nat → α) (c k : Nat)
    (hH : Holds h v vals)
    (hnt : T.is_nothrow_move_constructible = false) (hcp : T.is_copy_constructible = true)
    (hc : v.size ≤ c) (hne : c ≠ v.capacity) (hm : h.brk + c ≤ h.limit)
    (hk : k < v.size)
    (hok : ∀ j, j < k → E.copyThrows (vals j) = false)
    (hbad : E.copyThrows (vals k) = true) :
    ∃ h', reserve T E c (h, v) = .throw (h', v) ∧
      (∀ a, h'.cell a = h.cell a) ∧
      Holds h' v vals ∧
      (∀ j, j < v.size → h'.ended (v.m_begin + j) = h.ended (v.m_begin + j)) ∧
      (∀ j, j < k → h'.ended (h.brk + j) = h.ended (h.brk + j) + 1) ∧
      (∀ j, k ≤ j → h'.ended (h.brk + j) = h.ended (h.brk + j)) ∧
      h'.freed = (if h.brk = 0 then h.freed else h.brk :: h.freed) := by
  have hc0 : v.m_size ≤ c := hc
  have hk0 : k < v.m_size := hk
  have heq := reallocate_copy_throw_eq (T := T) (E := E) h v vals c k hH hnt hcp hc0 hne hm hk0
    hok hbad
  obtain ⟨h1, h2, h3, h4, h5⟩ := hH
  have hcell : ∀ a, (free (((h.grow c).copyRange h.brk v.m_begin k).killRange h.brk k)
      h.brk).cell a = h.cell a := by
    intro a
    rw [free_cell]
    by_cases hin : h.brk ≤ a ∧ a < h.brk + k
    · rw [killRange_cell_in _ hin.1 hin.2, h5 a hin.1]
    · rw [killRange_cell_out _ hin, copyRange_cell_other _ hin, grow_cell]
  have h10 : ¬ c < (h, v).2.m_size := by
    show ¬ c < v.m_size
    omega
  refine ⟨_, ?_, hcell, ?_, ?_, ?_, ?_, ?_⟩
  · unfold reserve
    rw [if_neg h10]
    exact heq
  · refine ⟨h1, ?_, ?_, ?_, ?_⟩
    · rw [free_brk]
      show v.m_begin + v.m_capacity ≤ h.brk + c
      omega
    · intro j hj
      rw [hcell]; exact h3 j hj
    · intro j hj1 hj2
      rw [hcell]; exact h4 j hj1 hj2
    · intro a ha
      rw [free_brk] at ha
      have ha0 : h.brk + c ≤ a := ha
      rw [hcell]; exact h5 a (by omega)
  · intro j hj
    have hj0 : j < v.m_size := hj
    rw [free_ended, killRange_ended_out _ (by omega)]
    rfl
  · intro j hj
    rw [free_ended, killRange_ended_in _ (by omega) (by omega)]
    rfl
  · intro j hj
    rw [free_ended, killRange_ended_out _ (by omega)]
    rfl
  · rw [free_freed]; rfl

/-- Witness for C13: `reserve(6)` on `7, 8, 9` (capacity 4), the copy of `8`
throwing. -/
theorem reserve_copy_failure_rolls_back_witness :
    ∃ h', reserve Traits.copyable_throwing (Elem.copyThrowsOn 8) 6
        (Heap.ofList [7, 8, 9] 10 14 100, { m_begin := 10, m_size := 3, m_capacity := 4 }) =
        .throw (h', { m_begin := 10, m_size := 3, m_capacity := 4 }) ∧
      (∀ a, h'.cell a = (Heap.ofList [7, 8, 9] 10 14 100).cell a) := by
  obtain ⟨h', h1, h2, _⟩ :=
    reserve_copy_failure_rolls_back Traits.copyable_throwing (Elem.copyThrowsOn 8)
      (Heap.ofList [7, 8, 9] 10 14 100) { m_begin := 10, m_size := 3, m_capacity := 4 }
      (fun k => [7, 8, 9].getD k 0) 6 1
      (holds_ofList [7, 8, 9] 10 4 14 100 0 (by decide) (by decide))
      rfl rfl (by decide) (by decide) (by decide) (by decide) (by decide) (by decide)
  exact ⟨h', h1, h2⟩

/-- C19: in the assignment-based branch of `erase` on a valid non-empty range
`[f, l)`, when the `j`-th move assignment of the shift (source element `l + j`)
throws after `j` successful ones: the exception leaves `erase`, the members are
unchanged, every slot of `[0, size())` holds a live object and every other slot
of the block is raw, so `size()` is the number of live elements; no
lifetime ended anywhere; and every element of index `< f` keeps its value. -/
theorem erase_assignment_failure_keeps_structure (T : Traits) (E : Elem α) (h : Heap α)
    (v : my_vector) (vals : Nat → α) (f l j : Nat)
    (hH : Holds h v vals)
    (hb : (T.is_replaceable && T.is_nothrow_move_constructible) = false)
    (hfl : f < l) (hl : l ≤ v.size) (hj : l + j < v.size)
    (hok : ∀ i, i < j → E.assignThrows
      (if f + i < l then vals (f + i) else E.movedFrom (vals (f + i))) (vals (l + i)) = false)
    (hbad : E.assignThrows
      (if f + j < l then vals (f + j) else E.movedFrom (vals (f + j))) (vals (l + j)) = true) :
    ∃ h', erase T E (v.begin + f) (v.begin + l) (h, v) = .throw (h', v) ∧
      (∀ k, k < v.size → (my_vector.at h' v k).isLive = true) ∧
      (∀ k, k < v.capacity → v.size ≤ k → my_vector.at h' v k = Cell.raw) ∧
      (∀ a, h'.ended a = h.ended a) ∧
      (∀ k, k < f → my_vector.at h' v k = Cell.obj (vals k)) ∧
      (∀ k, f + j ≤ k → k < l → my_vector.at h' v k = Cell.obj (vals k)) ∧
      (∀ k, f ≤ k → k < f + j → my_vector.at h' v k = Cell.obj (vals (k + (l - f)))) := by
  have hl0 : l ≤ v.m_size := hl
  have hj0 : l + j < v.m_size := hj
  have heq := erase_assign_throw_eq (T := T) (E := E) h v vals f l j hH hfl hl0 hb hj0 hok hbad
  obtain ⟨h1, h2, h3, h4, h5⟩ := hH
  refine ⟨_, heq, ?_, ?_, fun _ => rfl, ?_, ?_, ?_⟩
  · intro k hk
    have hk0 : k < v.m_size := hk
    show ((Heap.assignRange E h (v.m_begin + f) (v.m_begin + l) j).cell
      (v.m_begin + k)).isLive = true
    by_cases hc1 : f ≤ k ∧ k < f + j
    · rw [assignRange_cell_dst _ (by omega) (by omega)]
      have := h3 (k + (l - f)) (by omega)
      have e : v.m_begin + k - (v.m_begin + f) + (v.m_begin + l) = v.m_begin + (k + (l - f)) := by
        omega
      rw [e, this]; rfl
    · by_cases hc2 : l ≤ k ∧ k < l + j
      · rw [assignRange_cell_src _ (by omega) (by omega) (by omega) (h3 k hk0)]
        rfl
      · rw [assignRange_cell_other _ (by omega) (by omega), h3 k hk0]
        rfl
  · intro k hk1 hk2
    have hk3 : k < v.m_capacity := hk1
    have hk4 : v.m_size ≤ k := hk2
    show (Heap.assignRange E h (v.m_begin + f) (v.m_begin + l) j).cell (v.m_begin + k) = _
    rw [assignRange_cell_other _ (by omega) (by omega)]
    exact h4 k hk3 hk4
  · intro k hk
    show (Heap.assignRange E h (v.m_begin + f) (v.m_begin + l) j).cell (v.m_begin + k) = _
    rw [assignRange_cell_other _ (by omega) (by omega)]
    exact h3 k (by omega)
  · intro k hk1 hk2
    show (Heap.assignRange E h (v.m_begin + f) (v.m_begin + l) j).cell (v.m_begin + k) = _
    rw [assignRange_cell_other _ (by omega) (by omega)]
    exact h3 k (by omega)
  · intro k hk1 hk2
    show (Heap.assignRange E h (v.m_begin + f) (v.m_begin + l) j).cell (v.m_begin + k) = _
    rw [assignRange_cell_dst _ (by omega) (by omega)]
    have := h3 (k + (l - f)) (by omega)
    rw [← this]; congr 1; omega

/-- Witness for C19: erasing index 1 of `7, 8, 9, 6`, the assignment from `6`
throwing after the assignment from `9` succeeded. -/
theorem erase_assignment_failure_keeps_structure_witness :
    ∃ h', erase Traits.std_string (Elem.assignThrowsOn 6) (10 + 1) (10 + 2)
        (Heap.ofList [7, 8, 9, 6] 10 16 100, { m_begin := 10, m_size := 4, m_capacity := 6 }) =
        .throw (h', { m_begin := 10, m_size := 4, m_capacity := 6 }) ∧
      (∀ k, k < 4 →
        (my_vector.at h' { m_begin := 10, m_size := 4, m_capacity := 6 } k).isLive = true) := by
  obtain ⟨h', h1, h2, _⟩ :=
    erase_assignment_failure_keeps_structure Traits.std_string (Elem.assignThrowsOn 6)
      (Heap.ofList [7, 8, 9, 6] 10 16 100) { m_begin := 10, m_size := 4, m_capacity := 6 }
      (fun k => [7, 8, 9, 6].getD k 0) 1 2 1
      (holds_ofList [7, 8, 9, 6] 10 6 16 100 0 (by decide) (by decide))
      rfl (by decide) (by decide) (by decide) (by decide) (by decide)
  exact ⟨h', h1, h2⟩

/-- C20: on a replaceable type, for `i < size()`, when the temporary is built
and the gap at `i` is opened without a throw but move-constructing the
temporary into the gap throws: the exception leaves `emplace`; in the heap `hg`
reached when the gap was open the tail sat alive in the slots
`[i + 1, size() + 1)`, and the handler ended the lifetime of exactly these
slots, each holding a live object (no double destruction); `size()` is set to
`i`, the elements of index `< i` are unchanged and alive and no other slot of
the block holds a live object. -/
theorem emplace_construction_failure (T : Traits) (E : Elem α) (h : Heap α)
    (v : my_vector) (vals : Nat → α) (value : α) (i : Nat)
    (hH : Holds h v vals) (hrep : T.is_replaceable = true)
    (hq : ∀ k, k < v.m_size → E.quiet (vals k))
    (hcopy : E.copyThrows value = false) (hmove : E.moveThrows value = true)
    (hi : i < v.size)
    (hm : v.m_size = v.m_capacity → h.brk + (v.m_capacity + 32) ≤ h.limit) :
    ∃ (hg h' : Heap α) (v' : my_vector),
      emplace T E (v.begin + i) value (h, v) = .throw (h', v') ∧
      v'.size = i ∧
      h' = hg.killRange (v'.m_begin + i + 1) (v.size - i) ∧
      (∀ k, i ≤ k → k < v.size → hg.cell (v'.m_begin + (k + 1)) = Cell.obj (vals k)) ∧
      hg.cell (v'.m_begin + i) = Cell.raw ∧
      (∀ k, k < i → my_vector.at h' v' k = Cell.obj (vals k)) ∧
      (∀ k, k < v'.capacity → i ≤ k → my_vector.at h' v' k = Cell.raw) ∧
      Holds h' v' vals := by
  have hi0 : i < v.m_size := hi
  obtain ⟨h1, v1, hr, hH1, hs1, hroom, _, _, _⟩ :=
    maybeReallocate_ok (T := T) (E := E) h v vals hH hq hm
  have heq := emplace_construct_throw_eq h h1 v v1 vals value i hr hH1 hs1 hroom
    (fun k hk => (hq k hk).1) hcopy hmove hi0 hrep
  have hh := emplace_construct_throw_holds h1 v1 vals i hH1 hroom (by omega)
  refine ⟨memmove h1 (v1.m_begin + i + 1) (v1.m_begin + i) (v1.m_size - i), _, _, heq, rfl,
    ?_, ?_, ?_, ?_, ?_, hh⟩
  · show _ = Heap.killRange _ (v1.m_begin + i + 1) (v.m_size - i)
    rw [hs1]
  · intro k hk1 hk2
    have hk3 : k < v.m_size := hk2
    show (memmove h1 (v1.m_begin + i + 1) (v1.m_begin + i) (v1.m_size - i)).cell
      (v1.m_begin + (k + 1)) = _
    rw [memmove_cell_dst _ (by omega) (by omega)]
    have := hH1.2.2.1 k (by omega)
    rw [← this]; congr 1; omega
  · show (memmove h1 (v1.m_begin + i + 1) (v1.m_begin + i) (v1.m_size - i)).cell
      (v1.m_begin + i) = _
    exact memmove_cell_src h1 (by omega) (by omega) (by omega)
  · intro k hk
    exact hh.2.2.1 k hk
  · intro k hk1 hk2
    exact hh.2.2.2.1 k hk1 hk2

/-- Every value but `bad` is quiet for the type whose move throws on `bad`. -/
theorem quiet_moveThrowsOn (bad x : Nat) (hx : x ≠ bad) : (Elem.moveThrowsOn bad).quiet x :=
  ⟨by simp [Elem.moveThrowsOn, hx], rfl, fun _ => rfl⟩

/-- Witness for C20: `emplace(begin() + 1, 5)` on `7, 8, 9` (capacity 4), the
move of the temporary `5` throwing. -/
theorem emplace_construction_failure_witness :
    ∃ (hg h' : Heap Nat) (v' : my_vector),
      emplace Traits.replaceable_throwing (Elem.moveThrowsOn 5) (10 + 1) 5
        (Heap.ofList [7, 8, 9] 10 14 100, { m_begin := 10, m_size := 3, m_capacity := 4 }) =
        .throw (h', v') ∧
      v'.size = 1 ∧
      h' = hg.killRange (v'.m_begin + 1 + 1) (3 - 1) ∧
      (∀ k, k < 1 → my_vector.at h' v' k = Cell.obj ([7, 8, 9].getD k 0)) := by
  obtain ⟨hg, h', v', h1, h2, h3, _, _, h4, _⟩ :=
    emplace_construction_failure Traits.replaceable_throwing (Elem.moveThrowsOn 5)
      (Heap.ofList [7, 8, 9] 10 14 100) { m_begin := 10, m_size := 3, m_capacity := 4 }
      (fun k => [7, 8, 9].getD k 0) 5 1
      (holds_ofList [7, 8, 9] 10 4 14 100 0 (by decide) (by decide))
      rfl
      (fun k hk => quiet_moveThrowsOn 5 _ (by
        have hk0 : k < 3 := hk
        interval_cases k <;> decide))
      rfl rfl (by decide) (fun hc => by cases hc)
  exact ⟨hg, h', v', h1, h2, h3, h4⟩

/-! ## The container: relocation paths, copies and unchecked requests -/

/-- C11: on a well-formed sequence whose element operations do not throw, for
valid arguments (and room at the provider where the call allocates), each of
`erase`, `emplace` and `reserve` succeeds and ends with the same outcome (same
storage, size, capacity, contents of every slot, returned position) whether the
relocation functions take the bulk byte-move path (`T.bulk`) or the element-wise
move-construct-and-destroy path (`T.elementwise`); this covers the overlapping
shifts of `erase` (towards the front) and `emplace` (one slot towards the back). -/
theorem relocation_paths_agree (T : Traits) (E : Elem α) (h : Heap α) (v : my_vector)
    (vals : Nat → α) (hH : Holds h v vals) (hq : ∀ k, k < v.size → E.quiet (vals k)) :
    (∀ f l, f ≤ l → l ≤ v.size →
      erase T.bulk E (v.begin + f) (v.begin + l) (h, v) =
        erase T.elementwise E (v.begin + f) (v.begin + l) (h, v) ∧
      (erase T.bulk E (v.begin + f) (v.begin + l) (h, v)).isOk = true) ∧
    (∀ i value, i ≤ v.size → E.quiet value →
      (v.size = v.capacity → h.brk + (v.capacity + 32) ≤ h.limit) →
      emplace T.bulk E (v.begin + i) value (h, v) =
        emplace T.elementwise E (v.begin + i) value (h, v) ∧
      (emplace T.bulk E (v.begin + i) value (h, v)).isOk = true) ∧
    (∀ c, h.brk + c ≤ h.limit →
      reserve T.bulk E c (h, v) = reserve T.elementwise E c (h, v) ∧
      (reserve T.bulk E c (h, v)).isOk = true) := by
  refine ⟨?_, ?_, ?_⟩
  · intro f l hfl hl
    exact erase_paths_eq T.bulk T.elementwise h v vals f l rfl hH hq hfl hl
  · intro i value hi hv hm
    exact emplace_paths_eq T.bulk T.elementwise h v vals value i rfl hH hq hv hi hm
  · intro c hm
    exact reserve_paths_eq T.bulk T.elementwise h v vals c hH hq hm

/-- Witness for C11: `erase(begin(), begin() + 1)` on `7, 8, 9, 6`, where the
three elements of the tail shift onto overlapping storage. -/
theorem relocation_paths_agree_witness :
    erase Traits.replaceable_string.bulk Elem.nothrow (10 + 0) (10 + 1)
        (Heap.ofList [7, 8, 9, 6] 10 14 100, { m_begin := 10, m_size := 4, m_capacity := 4 }) =
      erase Traits.replaceable_string.elementwise Elem.nothrow (10 + 0) (10 + 1)
        (Heap.ofList [7, 8, 9, 6] 10 14 100, { m_begin := 10, m_size := 4, m_capacity := 4 }) ∧
    (erase Traits.replaceable_string.bulk Elem.nothrow (10 + 0) (10 + 1)
        (Heap.ofList [7, 8, 9, 6] 10 14 100,
          { m_begin := 10, m_size := 4, m_capacity := 4 })).isOk = true :=
  (relocation_paths_agree Traits.replaceable_string Elem.nothrow
    (Heap.ofList [7, 8, 9, 6] 10 14 100) { m_begin := 10, m_size := 4, m_capacity := 4 }
    (fun k => [7, 8, 9, 6].getD k 0)
    (holds_ofList [7, 8, 9, 6] 10 4 14 100 0 (by decide) (by decide))
    (fun k _ => quiet_nothrow _)).1 0 1 (by decide) (by decide)

/-- C15: when no copy construction throws (and the provider has room), the copy
constructor returns a sequence `w` with the size and the capacity of `other` and
element `k` equal to `other[k]` for every `k < size`, in storage disjoint from
that of `other`; `other` still holds its elements in its own storage; and after
a successful `erase`, `emplace`, `push_back` or `reserve` on the copy, `other`
still holds the same elements in the same storage. -/
theorem copy_constructor_copies (E : Elem α) (h : Heap α) (other : my_vector)
    (vals : Nat → α) (hH : Holds h other vals)
    (hc : ∀ k, k < other.size → E.copyThrows (vals k) = false)
    (hm : h.brk + other.capacity ≤ h.limit) :
    ∃ h' w, my_vector.construct_copy E other h = .ok h' w ∧
      w.size = other.size ∧ w.capacity = other.capacity ∧
      (∀ k, k < other.size → my_vector.at h' w k = Cell.obj (vals k)) ∧
      (∀ k, k < other.size → my_vector.at h' other k = my_vector.at h other k) ∧
      Holds h' other vals ∧ Holds h' w vals ∧
      other.begin + other.capacity ≤ w.begin ∧
      (∀ T : Traits, (∀ k, k < other.size → E.quiet (vals k)) →
        (∀ f l, f ≤ l → l ≤ w.size →
          ∃ h'' w' r, erase T E (w.begin + f) (w.begin + l) (h', w) = .ok (h'', w') r ∧
            Holds h'' other vals) ∧
        (∀ i value, i ≤ w.size → E.quiet value →
          (w.size = w.capacity → h'.brk + (w.capacity + 32) ≤ h'.limit) →
          ∃ h'' w' r, emplace T E (w.begin + i) value (h', w) = .ok (h'', w') r ∧
            Holds h'' other vals) ∧
        (∀ value, E.quiet value →
          (w.size = w.capacity → h'.brk + (w.capacity + 32) ≤ h'.limit) →
          ∃ h'' w', push_back T E value (h', w) = .ok (h'', w') () ∧
            Holds h'' other vals) ∧
        (∀ c, h'.brk + c ≤ h'.limit →
          ∃ h'' w', reserve T E c (h', w) = .ok (h'', w') () ∧ Holds h'' other vals)) := by
  obtain ⟨hw, ho⟩ := construct_copy_holds h other vals hH
  have hdisj : other.m_begin + other.m_capacity ≤ h.brk := hH.2.1
  refine ⟨_, _, construct_copy_eq h other vals hH hc hm, rfl, rfl, ?_, ?_, ho, hw, hdisj, ?_⟩
  · intro k hk
    exact hw.2.2.1 k hk
  · intro k hk
    have e1 := ho.2.2.1 k hk
    have e2 := hH.2.2.1 k hk
    show Heap.cell _ (other.m_begin + k) = h.cell (other.m_begin + k)
    rw [e1, e2]
  · intro T hq
    refine ⟨?_, ?_, ?_, ?_⟩
    · intro f l hfl hl
      obtain ⟨h'', w', r, he, hb, hfr, hraw⟩ :=
        erase_frame (T := T) (E := E) _ _ vals f l hw hq hfl hl
      exact ⟨h'', w', r, he, holds_of_frame _ h'' other _ vals ho hb hfr (Or.inl hdisj) hraw⟩
    · intro i value hi hv hroom
      obtain ⟨h'', w', r, he, hb, hfr, hraw⟩ :=
        emplace_frame (T := T) (E := E) _ _ vals value i hw hq hv hi hroom
      exact ⟨h'', w', r, he, holds_of_frame _ h'' other _ vals ho hb hfr (Or.inl hdisj) hraw⟩
    · intro value hv hroom
      obtain ⟨h'', w', he, hb, hfr, hraw⟩ :=
        push_back_frame (T := T) (E := E) _ _ vals value hw hq hv hroom
      exact ⟨h'', w', he, holds_of_frame _ h'' other _ vals ho hb hfr (Or.inl hdisj) hraw⟩
    · intro c hroom
      obtain ⟨h'', w', he, hb, hfr, hraw⟩ :=
        reserve_frame (T := T) (E := E) _ _ vals c hw hq hroom
      exact ⟨h'', w', he, holds_of_frame _ h'' other _ vals ho hb hfr (Or.inl hdisj) hraw⟩

/-- Witness for C15: copying the sequence `7, 8` of capacity 3. -/
theorem copy_constructor_copies_witness :
    ∃ h' w, my_vector.construct_copy Elem.nothrow
        { m_begin := 10, m_size := 2, m_capacity := 3 } (Heap.ofList [7, 8] 10 13 100) =
        .ok h' w ∧
      w.size = 2 ∧ w.capacity = 3 ∧
      my_vector.at h' w 0 = Cell.obj 7 ∧ my_vector.at h' w 1 = Cell.obj 8 ∧
      Holds h' { m_begin := 10, m_size := 2, m_capacity := 3 } (fun k => [7, 8].getD k 0) := by
  obtain ⟨h', w, h1, h2, h3, h4, _, h5, _⟩ :=
    copy_constructor_copies Elem.nothrow (Heap.ofList [7, 8] 10 13 100)
      { m_begin := 10, m_size := 2, m_capacity := 3 } (fun k => [7, 8].getD k 0)
      (holds_ofList [7, 8] 10 3 13 100 0 (by decide) (by decide))
      (fun _ _ => rfl) (by decide)
  exact ⟨h', w, h1, h2, h3, h4 0 (by decide), h4 1 (by decide), h5⟩

/-- C17 (as stated it fails): `emplace(begin() + 3, 9)` on the sequence `7, 8`
of capacity 4 has index 3 > size() = 2; the call does not stop at a precondition
check, it runs into undefined behaviour (after having constructed a new last
element, `std::move_backward` is called on a reversed range). -/
theorem emplace_out_of_range_not_checked :
    my_vector.size { m_begin := 10, m_size := 2, m_capacity := 4 } < 3 ∧
    (emplace Traits.std_string Elem.nothrow (10 + 3) 9
        (Heap.ofList [7, 8] 10 14 100,
          { m_begin := 10, m_size := 2, m_capacity := 4 })).isAbort = false ∧
    emplace Traits.std_string Elem.nothrow (10 + 3) 9
        (Heap.ofList [7, 8] 10 14 100, { m_begin := 10, m_size := 2, m_capacity := 4 }) =
      .ub :=
  ⟨by decide, rfl, rfl⟩

/-- C17 (amended): `emplace` has no precondition check, so no call of it ends in
a failed check; and on a well-formed sequence, for a position whose index is
greater than `size()`, when no element operation throws and the provider has
room, the behaviour of the call is undefined (for a replaceable type, or a
non-empty sequence). -/
theorem emplace_position_unchecked (T : Traits) (E : Elem α) (h : Heap α) (v : my_vector)
    (vals : Nat → α) (value : α) (i : Nat)
    (hH : Holds h v vals) (hq : ∀ k, k < v.size → E.quiet (vals k))
    (hcopy : E.copyThrows value = false) (hi : v.size < i)
    (hm : v.size = v.capacity → h.brk + (v.capacity + 32) ≤ h.limit)
    (hcase : T.is_replaceable = true ∨ 0 < v.size) :
    (∀ position x s, (emplace T E position x s).isAbort = false) ∧
    emplace T E (v.begin + i) value (h, v) = .ub :=
  ⟨fun position x s => emplace_isAbort position x s,
   emplace_out_of_range_ub h v vals value i hH hq hcopy hi hm hcase⟩

/-- Witness for C17 (amended): `emplace(begin() + 2, 9)` on the one-element
sequence `7` of a replaceable type. -/
theorem emplace_position_unchecked_witness :
    emplace Traits.replaceable_string Elem.nothrow (10 + 2) 9
        (Heap.ofList [7] 10 12 100, { m_begin := 10, m_size := 1, m_capacity := 2 }) = .ub :=
  (emplace_position_unchecked Traits.replaceable_string Elem.nothrow
    (Heap.ofList [7] 10 12 100) { m_begin := 10, m_size := 1, m_capacity := 2 }
    (fun k => [7].getD k 0) 9 2
    (holds_ofList [7] 10 2 12 100 0 (by decide) (by decide))
    (fun k _ => quiet_nothrow _) rfl (by decide) (fun _ => by decide) (Or.inl rfl)).2

/-- C18 (as stated it fails): the provider cannot satisfy a request of 5 slots
(`malloc` returns the null pointer), yet `reserve(5)` on the empty sequence
returns normally, and the sequence now has null storage and capacity 5. -/
theorem reserve_ignores_allocation_failure :
    (malloc (Heap.ofList ([] : List Nat) 0 1 1) 5).2 = 0 ∧
    reserve Traits.std_string Elem.nothrow 5 (Heap.ofList [] 0 1 1, {}) =
      .ok (Heap.ofList [] 0 1 1, { m_begin := 0, m_size := 0, m_capacity := 5 }) () ∧
    my_vector.capacity {} ≠ 5 :=
  ⟨rfl, rfl, by decide⟩

/-- C18 (amended): the result of `malloc` is never checked. On an empty sequence
(size 0), when the provider cannot satisfy the request: `reserve(c)` with
`c != capacity()` returns normally and leaves null storage, size 0 and capacity
`c` (the old block is released); the growth step of `push_back` and `emplace`
on a sequence of capacity 0 returns normally and leaves null storage and
capacity 32; and the copy constructor returns normally a sequence with null
storage, size 0 and the capacity of `other`. No failure is propagated. -/
theorem allocation_failure_unchecked (T : Traits) (E : Elem α) (h : Heap α) (v : my_vector)
    (hs : v.size = 0) :
    (∀ c, c ≠ v.capacity → ¬ (h.brk + c ≤ h.limit) →
      reserve T E c (h, v) =
        .ok (free h v.begin, { m_begin := 0, m_size := 0, m_capacity := c }) ()) ∧
    (v.capacity = 0 → ¬ (h.brk + 32 ≤ h.limit) →
      maybeReallocate T E (h, v) =
        .ok (free h v.begin, { m_begin := 0, m_size := 0, m_capacity := 32 }) ()) ∧
    (¬ (h.brk + v.capacity ≤ h.limit) →
      my_vector.construct_copy E v h =
        .ok h { m_begin := 0, m_size := 0, m_capacity := v.capacity }) := by
  have hs0 : v.m_size = 0 := hs
  refine ⟨?_, ?_, ?_⟩
  · intro c hne hm
    unfold reserve
    have c1 : ¬ (c < (h, v).2.m_size) := by
      show ¬ (c < v.m_size)
      omega
    rw [if_neg c1]
    exact reallocate_null_eq h v c hs0 hne hm
  · intro hcap hm
    have hcap0 : v.m_capacity = 0 := hcap
    unfold maybeReallocate
    have c1 : (h, v).2.m_size = (h, v).2.m_capacity := by
      show v.m_size = v.m_capacity
      omega
    rw [if_pos c1]
    show reallocate T E (v.m_capacity + 32) (h, v) = _
    rw [hcap0]
    exact reallocate_null_eq h v (0 + 32) hs0 (by omega) (by omega)
  · intro hm
    exact construct_copy_null_eq h v hs0 hm

/-- Witness for C18 (amended): `reserve(5)` on the empty sequence when the
provider has no storage left. -/
theorem allocation_failure_unchecked_witness :
    reserve Traits.replaceable_string Elem.nothrow 5 (Heap.ofList [] 0 1 1, {}) =
      .ok (free (Heap.ofList [] 0 1 1) 0, { m_begin := 0, m_size := 0, m_capacity := 5 }) () :=
  (allocation_failure_unchecked Traits.replaceable_string Elem.nothrow
    (Heap.ofList [] 0 1 1) {} rfl).1 5 (by decide) (by decide)

/-! ## The container: room for one more element, the fill constructor, and the
value returned by the backward relocation -/

/-- C22: when copying `element` does not throw (and the provider has room for
`count` slots in storage not yet handed out), the constructor
`my_vector(count, element)` returns a sequence with `size() == count` and
`capacity() == count`, every element equal to `element`, well formed, and it
made one allocation (none for `count == 0`): no growth by 32 took place. -/
theorem fill_constructor_exact (T : Traits) (E : Elem α) (count : Nat) (element : α)
    (h : Heap α)
    (hfresh : ∀ a, h.brk ≤ a → h.cell a = Cell.raw)
    (hm : h.brk + count ≤ h.limit) (hv : E.copyThrows element = false) :
    ∃ h' v, my_vector.construct_fill T E count element h = .ok h' v ∧
      v.size = count ∧ v.capacity = count ∧
      (∀ k, k < count → my_vector.at h' v k = Cell.obj element) ∧
      Holds h' v (fun _ => element) ∧
      h'.nalloc = h.nalloc + (if count = 0 then 0 else 1) := by
  obtain ⟨h', e1, e2, e3⟩ := construct_fill_eq (T := T) count element h hfresh hm hv
  exact ⟨h', _, e1, rfl, rfl, fun k hk => e2.2.2.1 k hk, e2, e3⟩

/-- Witness for C22: `my_vector(3, 5)` on an empty heap. -/
theorem fill_constructor_exact_witness :
    ∃ h' v, my_vector.construct_fill Traits.std_string Elem.nothrow 3 5
        (Heap.ofList [] 10 10 100) = .ok h' v ∧
      v.size = 3 ∧ v.capacity = 3 ∧
      my_vector.at h' v 0 = Cell.obj 5 ∧ my_vector.at h' v 1 = Cell.obj 5 ∧
      my_vector.at h' v 2 = Cell.obj 5 ∧ h'.nalloc = 1 := by
  obtain ⟨h', v, h1, h2, h3, h4, _, h5⟩ :=
    fill_constructor_exact Traits.std_string Elem.nothrow 3 5 (Heap.ofList [] 10 10 100)
      (fun a _ => by simp [Heap.ofList]) (by decide) rfl
  exact ⟨h', v, h1, h2, h3, h4 0 (by decide), h4 1 (by decide), h4 2 (by decide), h5⟩

/-- C23 (it fails): relocating the two elements `7, 8` of `[10, 12)` backward
into `[11, 13)`, `uninitialized_relocate_backward` returns `12` (the end of the
source range, `first + distance`) on the bulk path and `10` (the start of the
source range, `first`) on the element-wise path, for the same resulting slots;
`uninitialized_relocate` returns the end of the source range on both paths. -/
theorem uninitialized_relocate_backward_return_differs :
    uninitialized_relocate_backward Traits.trivially_relocatable_string Elem.nothrow 10 12 13
        (Heap.ofList [7, 8] 10 14 100) =
      .ok (memmove (Heap.ofList [7, 8] 10 14 100) 11 10 2) 12 ∧
    (uninitialized_relocate_backward Traits.replaceable_string Elem.nothrow 10 12 13
        (Heap.ofList [7, 8] 10 14 100)).value? = some 10 ∧
    (∀ a, a < 16 →
      ((uninitialized_relocate_backward Traits.replaceable_string Elem.nothrow 10 12 13
          (Heap.ofList [7, 8] 10 14 100)).state?.map fun s => s.cell a) =
        some ((memmove (Heap.ofList [7, 8] 10 14 100) 11 10 2).cell a)) ∧
    (uninitialized_relocate Traits.trivially_relocatable_string Elem.nothrow 10 12 12
        (Heap.ofList [7, 8] 10 14 100)).value? = some 12 ∧
    (uninitialized_relocate Traits.replaceable_string Elem.nothrow 10 12 12
        (Heap.ofList [7, 8] 10 14 100)).value? = some 12 := by
  refine ⟨rfl, rfl, ?_, rfl, rfl⟩
  decide

end P3516
